import Mathlib

/-!
# Virtual memory simulator (`Virtual_Memory_Simulator/pa3.c`)

A shallow embedding of the paging core: the frame table `mapcounts`, the
two-level page table of every process, the TLB, and the six entry points
`lookup_tlb`, `insert_tlb`, `alloc_page`, `free_page`, `handle_page_fault`
and `switch_process`.

Conventions of the embedding.

* The header `vm.h` fixes the four size constants; they are the fields of
  `Config`, which also records that the divisor `NR_PTES_PER_PAGE` is positive.  The permission symbols are `ACCESS_READ = 1`, `ACCESS_WRITE = 2`
  (the source compares against the literals 1, 2 and 3 in `lookup_tlb`).
* A C array is a list whose length is the declared size of the array
  (`VM.WF`); a loop over all indices of an array is a traversal of the list.
* `unsigned int` counters are natural numbers reduced modulo `2 ^ 32`.
* A nullable pointer is an `Option`.  An operation returns `none` where the C
  program would dereference a null pointer or index outside an array.
* `ptbr` always equals `&current->pagetable` after `switch_process`, so it is
  not a separate component of the state.

The priority scheduler `prio_schedule` of `Simulating_Processor_Schedulers/pa2.c`
is embedded in the namespace `Sched`: the ready queue is a list in queue order
and `current` is an `Option`.
-/

namespace VMSim

/-- Size constants of `vm.h`.  The header is not among the sources, so the four
constants the code uses are parameters of the embedding. -/
structure Config where
  NR_PTES_PER_PAGE : Nat
  NR_PDES_PER_PAGE : Nat
  NR_PAGEFRAMES : Nat
  NR_TLB_ENTRIES : Nat
  /-- The divisor of `vpn / NR_PTES_PER_PAGE` and `vpn % NR_PTES_PER_PAGE` is not 0. -/
  ptes_pos : 0 < NR_PTES_PER_PAGE

/-- Modelled from the spec: permission symbol `ACCESS_NONE` of `vm.h`, which is
not among the sources. -/
def ACCESS_NONE : Nat := 0

/-- Modelled from the spec: permission symbol `ACCESS_READ` of `vm.h`; the value
1 is the one `lookup_tlb` compares a read request against. -/
def ACCESS_READ : Nat := 1

/-- Modelled from the spec: permission symbol `ACCESS_WRITE` of `vm.h`; the value
2 is the one `lookup_tlb` compares a write request against. -/
def ACCESS_WRITE : Nat := 2

/-- Modulus of `unsigned int` arithmetic. -/
def UINT_SIZE : Nat := 2 ^ 32

/-- Value of `(unsigned int)-1`, the failure value of `alloc_page`. -/
def ALLOC_FAILED : Nat := 2 ^ 32 - 1

/-- Page table entry, `struct pte`, with the fields the code reads and writes. -/
structure pte where
  valid : Bool
  rw : Nat
  pfn : Nat
  private_ : Nat
  deriving DecidableEq, Repr

/-- Second-level table, `struct pte_directory`. -/
structure pte_directory where
  ptes : List pte
  deriving DecidableEq, Repr

/-- First-level table, `struct pagetable`; a null directory pointer is `none`. -/
structure pagetable where
  pdes : List (Option pte_directory)
  deriving DecidableEq, Repr

/-- Process descriptor, `struct process` (the list link is the position in `VM.processes`). -/
structure process where
  pid : Nat
  pagetable : pagetable
  deriving DecidableEq, Repr

/-- TLB slot, `struct tlb_entry`, with the fields the code reads and writes. -/
structure tlb_entry where
  valid : Bool
  rw : Nat
  vpn : Nat
  pfn : Nat
  deriving DecidableEq, Repr

/-- Global state of the simulator: `current`, `processes`, `tlb[]`, `mapcounts[]`. -/
structure VM where
  current : process
  processes : List process
  tlb : List tlb_entry
  mapcounts : List Nat
  deriving DecidableEq, Repr

/-- A PTE as `memset(.., 0, ..)` leaves it. -/
def zero_pte : pte := { valid := false, rw := 0, pfn := 0, private_ := 0 }

/-- A directory as `malloc` followed by `memset(.., 0, ..)` leaves it. -/
def zero_directory (c : Config) : pte_directory :=
  { ptes := List.replicate c.NR_PTES_PER_PAGE zero_pte }

/-- A TLB slot after the flush loop of `switch_process`. -/
def zero_tlb_entry : tlb_entry := { valid := false, rw := 0, vpn := 0, pfn := 0 }

/-- Read `pt.pdes[i]->ptes[j]`; `none` when the directory index is out of
range, the directory pointer is null, or the entry index is out of range. -/
def get_pte (pt : pagetable) (i j : Nat) : Option pte :=
  match pt.pdes[i]? with
  | some (some pd) => pd.ptes[j]?
  | _ => none

/-- Write `pt.pdes[i]->ptes[j] = e` (no effect when the slot does not exist). -/
def set_pte (pt : pagetable) (i j : Nat) (e : pte) : pagetable :=
  match pt.pdes[i]? with
  | some (some pd) => { pdes := pt.pdes.set i (some { ptes := pd.ptes.set j e }) }
  | _ => pt

/-- Index of the first frame whose mapping count is 0: the scan
`for (x = 0; x < NR_PAGEFRAMES; x++) if (mapcounts[x] == 0)`. -/
def first_free : List Nat → Option Nat
  | [] => none
  | m :: ms => if m = 0 then some 0 else (first_free ms).map (· + 1)

/-- The statement `mapcounts[f]++`. -/
def inc_mapcount (mc : List Nat) (f : Nat) : Option (List Nat) :=
  match mc[f]? with
  | some m => some (mc.set f ((m + 1) % UINT_SIZE))
  | none => none

/-- The statement `mapcounts[f]--`. -/
def dec_mapcount (mc : List Nat) (f : Nat) : Option (List Nat) :=
  match mc[f]? with
  | some m => some (mc.set f ((m + UINT_SIZE - 1) % UINT_SIZE))
  | none => none

/-- The hit test of `lookup_tlb` on one slot. -/
def tlb_hit (vpn rw : Nat) (t : tlb_entry) : Bool :=
  t.valid && t.vpn == vpn &&
    ((rw == 1 && (t.rw == 1 || t.rw == 3)) || (rw == 2 && t.rw == 3))

/-- Function `lookup_tlb`: `some pfn` on a hit, `none` on a miss. -/
def lookup_tlb (s : VM) (vpn rw : Nat) : Option Nat :=
  (s.tlb.find? (tlb_hit vpn rw)).map (·.pfn)

/-- First loop of `insert_tlb`: update the first valid slot holding `vpn`;
`none` when there is no such slot (`tag == 0`). -/
def tlb_update (vpn rw pfn : Nat) : List tlb_entry → Option (List tlb_entry)
  | [] => none
  | t :: ts =>
    if t.valid = true ∧ t.vpn = vpn then
      some ({ t with rw := rw, vpn := vpn, pfn := pfn } :: ts)
    else (tlb_update vpn rw pfn ts).map (t :: ·)

/-- Second loop of `insert_tlb`: occupy the first invalid slot; the list is
returned unchanged when every slot is valid. -/
def tlb_fill (vpn rw pfn : Nat) : List tlb_entry → List tlb_entry
  | [] => []
  | t :: ts =>
    if t.valid = false then
      { valid := true, vpn := vpn, pfn := pfn, rw := rw } :: ts
    else t :: tlb_fill vpn rw pfn ts

/-- Function `insert_tlb`. -/
def insert_tlb (s : VM) (vpn rw pfn : Nat) : VM :=
  match tlb_update vpn rw pfn s.tlb with
  | some tlb1 => { s with tlb := tlb1 }
  | none => { s with tlb := tlb_fill vpn rw pfn s.tlb }

/-- Replace the page table of the current process, as the writes through
`current->pagetable` do. -/
def VM.set_pagetable (s : VM) (pt : pagetable) : VM :=
  { s with current := { s.current with pagetable := pt } }

/-- The directory `alloc_page` works on: the present one, or the one it
creates with `malloc` and `memset` when the pointer is null. -/
def dir_or_new (c : Config) : Option pte_directory → pte_directory
  | none => zero_directory c
  | some pd => pd

/-- Function `alloc_page`: the new state and the returned frame number
(`ALLOC_FAILED` for `-1`). -/
def alloc_page (c : Config) (s : VM) (vpn rw : Nat) : Option (VM × Nat) :=
  let pd_index := vpn / c.NR_PTES_PER_PAGE
  let pte_index := vpn % c.NR_PTES_PER_PAGE
  match s.current.pagetable.pdes[pd_index]? with
  | none => none
  | some d =>
    let pd := dir_or_new c d
    if pte_index < pd.ptes.length then
      match first_free s.mapcounts with
      | some x =>
        let e : pte := { valid := true, rw := rw, pfn := x, private_ := rw }
        match inc_mapcount s.mapcounts x with
        | some mc =>
          some ({ s.set_pagetable
                    { pdes := s.current.pagetable.pdes.set pd_index
                        (some { ptes := pd.ptes.set pte_index e }) }
                  with mapcounts := mc }, x)
        | none => none
      | none =>
        some (s.set_pagetable { pdes := s.current.pagetable.pdes.set pd_index (some pd) },
              ALLOC_FAILED)
    else none

/-- The TLB loop of `free_page`. -/
def tlb_invalidate (vpn : Nat) (tlb : List tlb_entry) : List tlb_entry :=
  tlb.map (fun t => if t.vpn = vpn then { t with valid := false } else t)

/-- Function `free_page`. -/
def free_page (c : Config) (s : VM) (vpn : Nat) : Option VM :=
  let pd_index := vpn / c.NR_PTES_PER_PAGE
  let pte_index := vpn % c.NR_PTES_PER_PAGE
  match get_pte s.current.pagetable pd_index pte_index with
  | none => none
  | some e =>
    match dec_mapcount s.mapcounts e.pfn with
    | none => none
    | some mc =>
      some { s.set_pagetable (set_pte s.current.pagetable pd_index pte_index
                { e with valid := false, rw := 0, pfn := 0 })
             with mapcounts := mc
                  tlb := tlb_invalidate vpn s.tlb }

/-- The copy-on-write test of `handle_page_fault` on the faulting entry
(the part of the condition after `rw == ACCESS_WRITE &&`). -/
def cow_entry (e : pte) : Bool :=
  e.rw == ACCESS_READ && (e.private_ != ACCESS_READ && e.private_ != ACCESS_WRITE)

/-- Function `handle_page_fault`.  The condition short-circuits: the page
table is only read when `rw == ACCESS_WRITE`. -/
def handle_page_fault (c : Config) (s : VM) (vpn rw : Nat) : Option (VM × Bool) :=
  let pd_index := vpn / c.NR_PTES_PER_PAGE
  let pte_index := vpn % c.NR_PTES_PER_PAGE
  if rw = ACCESS_WRITE then
    match get_pte s.current.pagetable pd_index pte_index with
    | none => none
    | some e =>
      if cow_entry e = true then
        match dec_mapcount s.mapcounts e.pfn with
        | none => none
        | some mc1 =>
          match first_free mc1 with
          | some x =>
            match inc_mapcount mc1 x with
            | some mc2 =>
              some ({ s.set_pagetable (set_pte s.current.pagetable pd_index pte_index
                        { e with rw := e.private_, pfn := x })
                      with mapcounts := mc2 }, true)
            | none => none
          | none =>
            some ({ s.set_pagetable (set_pte s.current.pagetable pd_index pte_index
                      { e with rw := e.private_ })
                    with mapcounts := mc1 }, true)
      else some (s, false)
  else some (s, false)

/-- The search loop of `switch_process`: the first process of the list whose
pid matches, and the list without it (`list_del_init`). -/
def find_process (pid : Nat) : List process → Option (process × List process)
  | [] => none
  | p :: ps =>
    if p.pid = pid then some (p, ps)
    else (find_process pid ps).map (fun r => (r.1, p :: r.2))

/-- What the fork loop writes into the child slot for a parent entry. -/
def fork_child_pte (e : pte) : pte :=
  if e.valid = true then
    { valid := e.valid
      pfn := e.pfn
      rw := if e.rw ≠ ACCESS_WRITE ∧ e.rw ≠ ACCESS_READ then ACCESS_READ else e.rw
      private_ := e.private_ }
  else zero_pte

/-- What the fork loop leaves in the parent slot. -/
def fork_parent_pte (e : pte) : pte :=
  if e.valid = true ∧ e.rw ≠ ACCESS_WRITE ∧ e.rw ≠ ACCESS_READ then
    { e with rw := ACCESS_READ }
  else e

/-- Page table of the forked child: every directory is allocated and zeroed,
then the valid parent entries are copied. -/
def fork_child_pagetable (c : Config) (pt : pagetable) : pagetable :=
  { pdes := pt.pdes.map (fun d =>
      match d with
      | none => some (zero_directory c)
      | some pd => some { ptes := pd.ptes.map fork_child_pte }) }

/-- Page table of the parent after the fork loop. -/
def fork_parent_pagetable (pt : pagetable) : pagetable :=
  { pdes := pt.pdes.map (fun d =>
      match d with
      | none => none
      | some pd => some { ptes := pd.ptes.map fork_parent_pte }) }

/-- Frames of the valid entries of a page table, in loop order: the
`target_frame` values for which the fork loop runs `mapcounts[target_frame]++`. -/
def valid_pfns (pt : pagetable) : List Nat :=
  pt.pdes.flatMap (fun d =>
    match d with
    | none => []
    | some pd => (pd.ptes.filter (fun e => e.valid)).map (fun e => e.pfn))

/-- Run `mapcounts[f]++` for every `f` of the list, in order. -/
def inc_all : List Nat → List Nat → Option (List Nat)
  | mc, [] => some mc
  | mc, f :: fs =>
    match inc_mapcount mc f with
    | some mc1 => inc_all mc1 fs
    | none => none

/-- The TLB flush loop of `switch_process`. -/
def flush_tlb (tlb : List tlb_entry) : List tlb_entry :=
  tlb.map (fun _ => zero_tlb_entry)

/-- Function `switch_process`. -/
def switch_process (c : Config) (s : VM) (pid : Nat) : Option VM :=
  match find_process pid s.processes with
  | some (next, rest) =>
    some { current := next
           processes := rest ++ [s.current]
           tlb := flush_tlb s.tlb
           mapcounts := s.mapcounts }
  | none =>
    match inc_all s.mapcounts (valid_pfns s.current.pagetable) with
    | none => none
    | some mc =>
      some { current := { pid := pid
                          pagetable := fork_child_pagetable c s.current.pagetable }
             processes := s.processes ++
               [{ s.current with pagetable := fork_parent_pagetable s.current.pagetable }]
             tlb := flush_tlb s.tlb
             mapcounts := mc }

/-- Modelled from the spec: the state in which the framework (not among the
sources) starts the simulation: one process with an empty page table (every
directory pointer null), no waiting process, every mapping count 0, every TLB
slot zero. -/
def init (c : Config) (pid : Nat) : VM :=
  { current := { pid := pid, pagetable := { pdes := List.replicate c.NR_PDES_PER_PAGE none } }
    processes := []
    tlb := List.replicate c.NR_TLB_ENTRIES zero_tlb_entry
    mapcounts := List.replicate c.NR_PAGEFRAMES 0 }

/-- Length test for one directory slot: a present directory holds
`NR_PTES_PER_PAGE` entries. -/
def dir_len_ok (c : Config) : Option pte_directory → Bool
  | none => true
  | some pd => pd.ptes.length == c.NR_PTES_PER_PAGE

/-- The page table has `NR_PDES_PER_PAGE` directory slots and every present
directory has `NR_PTES_PER_PAGE` entries. -/
def pagetable.WF (c : Config) (pt : pagetable) : Prop :=
  pt.pdes.length = c.NR_PDES_PER_PAGE ∧ ∀ d ∈ pt.pdes, dir_len_ok c d = true

instance (c : Config) (pt : pagetable) : Decidable (pt.WF c) := by
  unfold pagetable.WF; infer_instance

/-- Every array of the state has its declared size. -/
def VM.WF (c : Config) (s : VM) : Prop :=
  s.current.pagetable.WF c ∧ (∀ p ∈ s.processes, p.pagetable.WF c) ∧
    s.tlb.length = c.NR_TLB_ENTRIES ∧ s.mapcounts.length = c.NR_PAGEFRAMES

instance (c : Config) (s : VM) : Decidable (s.WF c) := by
  unfold VM.WF; infer_instance

/-- The VPN is one the two-level table can hold. -/
def in_range (c : Config) (vpn : Nat) : Prop :=
  vpn < c.NR_PDES_PER_PAGE * c.NR_PTES_PER_PAGE

instance (c : Config) (vpn : Nat) : Decidable (in_range c vpn) := by
  unfold in_range; infer_instance

/-- The PTE of `vpn` in a page table, found as the source does:
`pdes[vpn / NR_PTES_PER_PAGE]->ptes[vpn % NR_PTES_PER_PAGE]`. -/
def lookup_pte (c : Config) (pt : pagetable) (vpn : Nat) : Option pte :=
  get_pte pt (vpn / c.NR_PTES_PER_PAGE) (vpn % c.NR_PTES_PER_PAGE)

/-- The VPN has a valid PTE in the page table. -/
def mapped (c : Config) (pt : pagetable) (vpn : Nat) : Bool :=
  match lookup_pte c pt vpn with
  | some e => e.valid
  | none => false

/-- A small configuration used for concrete evaluations: 2 x 2 page table,
2 frames, 4 TLB slots. -/
def small : Config :=
  { NR_PTES_PER_PAGE := 2, NR_PDES_PER_PAGE := 2, NR_PAGEFRAMES := 2, NR_TLB_ENTRIES := 4,
    ptes_pos := by decide }

/-- State of the small configuration after `alloc_page(0, 3)` and
`alloc_page(1, 3)` from `init small 0`: both frames are in use and the second
page directory is still absent. -/
def full_state : VM :=
  { current :=
      { pid := 0
        pagetable :=
          { pdes := [some { ptes := [{ valid := true, rw := 3, pfn := 0, private_ := 3 },
                                     { valid := true, rw := 3, pfn := 1, private_ := 3 }] },
                     none] } }
    processes := []
    tlb := List.replicate 4 zero_tlb_entry
    mapcounts := [1, 1] }

/-- State of the small configuration after `alloc_page(0, 3)` from
`init small 0`: frame 0 in use, frame 1 free, VPN 1 present but invalid. -/
def one_page_state : VM :=
  { current :=
      { pid := 0
        pagetable :=
          { pdes := [some { ptes := [{ valid := true, rw := 3, pfn := 0, private_ := 3 },
                                     zero_pte] },
                     none] } }
    processes := []
    tlb := List.replicate 4 zero_tlb_entry
    mapcounts := [1, 0] }

/-- State of the small configuration after `alloc_page(0, 1)` from
`init small 0`: VPN 0 is mapped read-only. -/
def readonly_state : VM :=
  { current :=
      { pid := 0
        pagetable :=
          { pdes := [some { ptes := [{ valid := true, rw := 1, pfn := 0, private_ := 1 },
                                     zero_pte] },
                     none] } }
    processes := []
    tlb := List.replicate 4 zero_tlb_entry
    mapcounts := [1, 0] }

/-- The parent process of `forked_state`: its page is downgraded to read-only,
the origin permission read+write is kept in `private_`. -/
def forked_parent : process :=
  { pid := 0
    pagetable :=
      { pdes := [some { ptes := [{ valid := true, rw := 1, pfn := 0, private_ := 3 },
                                 zero_pte] },
                 none] } }

/-- State `one_page_state` after `switch_process(1)` (fork): the child is
current, parent and child share frame 0 read-only. -/
def forked_state : VM :=
  { current :=
      { pid := 1
        pagetable :=
          { pdes := [some { ptes := [{ valid := true, rw := 1, pfn := 0, private_ := 3 },
                                     zero_pte] },
                     some { ptes := [zero_pte, zero_pte] }] } }
    processes := [forked_parent]
    tlb := List.replicate 4 zero_tlb_entry
    mapcounts := [2, 0] }

/-- State `full_state` after `switch_process(1)` (fork): parent and child
share both frames read-only and no frame is free. -/
def forked_full_state : VM :=
  { current :=
      { pid := 1
        pagetable :=
          { pdes := [some { ptes := [{ valid := true, rw := 1, pfn := 0, private_ := 3 },
                                     { valid := true, rw := 1, pfn := 1, private_ := 3 }] },
                     some { ptes := [zero_pte, zero_pte] }] } }
    processes :=
      [{ pid := 0
         pagetable :=
           { pdes := [some { ptes := [{ valid := true, rw := 1, pfn := 0, private_ := 3 },
                                      { valid := true, rw := 1, pfn := 1, private_ := 3 }] },
                      none] } }]
    tlb := List.replicate 4 zero_tlb_entry
    mapcounts := [2, 2] }

/-- State of the small configuration after `alloc_page(0, ACCESS_WRITE)` from
`init small 0`: VPN 0 is mapped with the write permission alone. -/
def writeonly_state : VM :=
  { current :=
      { pid := 0
        pagetable :=
          { pdes := [some { ptes := [{ valid := true, rw := 2, pfn := 0, private_ := 2 },
                                     zero_pte] },
                     none] } }
    processes := []
    tlb := List.replicate 4 zero_tlb_entry
    mapcounts := [1, 0] }

/-- The entry is valid and maps frame `f`. -/
def maps_frame (f : Nat) (e : pte) : Bool := e.valid && e.pfn == f

/-- Number of valid entries of one directory slot that map frame `f`. -/
def dir_refs (f : Nat) : Option pte_directory → Nat
  | none => 0
  | some pd => pd.ptes.countP (maps_frame f)

/-- Number of valid entries of a page table that map frame `f`. -/
def pagetable.refs (pt : pagetable) (f : Nat) : Nat :=
  (pt.pdes.map (dir_refs f)).sum

/-- Number of valid entries, over the current process and all waiting
processes, that map frame `f`. -/
def VM.refs (s : VM) (f : Nat) : Nat :=
  s.current.pagetable.refs f + (s.processes.map (fun p => p.pagetable.refs f)).sum

/-- Frame accounting: every mapping count equals the number of valid entries
of all address spaces that map the frame. -/
def frame_accounting (s : VM) : Prop :=
  ∀ f, f < s.mapcounts.length → s.mapcounts[f]? = some (s.refs f)

/-- Shared implies read-only: every valid entry, of any process, whose frame
has a mapping count of at least 2 has `rw == ACCESS_READ`. -/
def shared_read_only (s : VM) : Prop :=
  ∀ p ∈ s.current :: s.processes, ∀ i j e, get_pte p.pagetable i j = some e →
    e.valid = true → ∀ m, s.mapcounts[e.pfn]? = some m → 2 ≤ m → e.rw = ACCESS_READ

/-- Modelled from the spec: the page-table check of the framework (not among
the sources) does not authorise the access.  Only the two situations every
reading rejects are admitted: the entry of the VPN exists and is invalid, or
the access is a write and the entry is read-only. -/
def unauthorised (c : Config) (s : VM) (vpn rw : Nat) : Prop :=
  ∃ e, lookup_pte c s.current.pagetable vpn = some e ∧
    (e.valid = false ∨ (rw = ACCESS_WRITE ∧ e.rw = ACCESS_READ))

/-- The fault is not a copy-on-write fault under exhaustion: if the access is
a write to a copy-on-write entry, then some frame is free or the entry is the
only mapping of its frame (which the handler releases before it scans). -/
def cow_serviceable (c : Config) (s : VM) (vpn rw : Nat) : Prop :=
  ∀ e, rw = ACCESS_WRITE → lookup_pte c s.current.pagetable vpn = some e →
    cow_entry e = true →
    (∃ f : Nat, s.mapcounts[f]? = some 0) ∨ s.mapcounts[e.pfn]? = some 1

/-- One call of an entry point of the simulator by the framework.  `perm`
restricts the permission passed to `alloc_page`, `fault_pre` the situations in
which `handle_page_fault` is called. -/
inductive Step (c : Config) (perm : Nat → Prop) (fault_pre : VM → Nat → Nat → Prop) :
    VM → VM → Prop
  | alloc (s s' : VM) (vpn rw r : Nat) :
      in_range c vpn → mapped c s.current.pagetable vpn = false → perm rw →
      alloc_page c s vpn rw = some (s', r) → Step c perm fault_pre s s'
  | free (s s' : VM) (vpn : Nat) :
      mapped c s.current.pagetable vpn = true →
      free_page c s vpn = some s' → Step c perm fault_pre s s'
  | fault (s s' : VM) (vpn rw : Nat) (b : Bool) :
      (lookup_pte c s.current.pagetable vpn).isSome = true → fault_pre s vpn rw →
      handle_page_fault c s vpn rw = some (s', b) → Step c perm fault_pre s s'
  | switch (s s' : VM) (pid : Nat) :
      switch_process c s pid = some s' → Step c perm fault_pre s s'

/-- States reachable from a start-up state by calls of the entry points. -/
inductive Reachable (c : Config) (perm : Nat → Prop) (fault_pre : VM → Nat → Nat → Prop) :
    VM → Prop
  | start (pid : Nat) : Reachable c perm fault_pre (init c pid)
  | step (s s' : VM) :
      Reachable c perm fault_pre s → Step c perm fault_pre s s' →
      Reachable c perm fault_pre s'

/-- State `forked_full_state` after `handle_page_fault(0, ACCESS_WRITE)`: the
child's entry for VPN 0 is read+write on frame 0, which the parent still maps,
and the count of frame 0 is 1. -/
def cow_exhausted_state : VM :=
  { current :=
      { pid := 1
        pagetable :=
          { pdes := [some { ptes := [{ valid := true, rw := 3, pfn := 0, private_ := 3 },
                                     { valid := true, rw := 1, pfn := 1, private_ := 3 }] },
                     some { ptes := [zero_pte, zero_pte] }] } }
    processes :=
      [{ pid := 0
         pagetable :=
           { pdes := [some { ptes := [{ valid := true, rw := 1, pfn := 0, private_ := 3 },
                                      { valid := true, rw := 1, pfn := 1, private_ := 3 }] },
                      none] } }]
    tlb := List.replicate 4 zero_tlb_entry
    mapcounts := [1, 2] }

/-- State `writeonly_state` after `switch_process(1)` (fork): parent and child
share frame 0 and both entries keep `rw = 2`. -/
def forked_writeonly_state : VM :=
  { current :=
      { pid := 1
        pagetable :=
          { pdes := [some { ptes := [{ valid := true, rw := 2, pfn := 0, private_ := 2 },
                                     zero_pte] },
                     some { ptes := [zero_pte, zero_pte] }] } }
    processes :=
      [{ pid := 0
         pagetable :=
           { pdes := [some { ptes := [{ valid := true, rw := 2, pfn := 0, private_ := 2 },
                                      zero_pte] },
                      none] } }]
    tlb := List.replicate 4 zero_tlb_entry
    mapcounts := [2, 0] }

/-- Per-entry part of the paging invariant, relative to the frame table
`mc`: an invalid entry has `rw = 0`; a valid entry maps a frame of the table,
is not write-only, and is read-only whenever its frame is shared. -/
def entry_ok (mc : List Nat) (e : pte) : Prop :=
  (e.valid = false → e.rw = 0) ∧
  (e.valid = true → e.pfn < mc.length ∧ e.rw ≠ ACCESS_WRITE ∧
    ∀ m, mc[e.pfn]? = some m → 2 ≤ m → e.rw = ACCESS_READ)

/-- The paging invariant: frame accounting, no count at or above `2 ^ 32`, and
`entry_ok` for every entry of every process. -/
def Inv (s : VM) : Prop :=
  frame_accounting s ∧ (∀ m ∈ s.mapcounts, m < UINT_SIZE) ∧
    ∀ p ∈ s.current :: s.processes, ∀ i j e, get_pte p.pagetable i j = some e →
      entry_ok s.mapcounts e

/-- Number of page-table slots of all processes is below `2 ^ 32`, so that no
mapping count can wrap around. -/
def slots_bounded (c : Config) (s : VM) : Prop :=
  (s.processes.length + 1) * (c.NR_PDES_PER_PAGE * c.NR_PTES_PER_PAGE) < UINT_SIZE

instance (c : Config) (s : VM) : Decidable (slots_bounded c s) := by
  unfold slots_bounded; infer_instance

/-- State `forked_state` after the child's `handle_page_fault(0, ACCESS_WRITE)`:
the child owns frame 1 read+write, the parent still maps frame 0 read-only. -/
def cow_resolved_state : VM :=
  { current :=
      { pid := 1
        pagetable :=
          { pdes := [some { ptes := [{ valid := true, rw := 3, pfn := 1, private_ := 3 },
                                     zero_pte] },
                     some { ptes := [zero_pte, zero_pte] }] } }
    processes := [forked_parent]
    tlb := List.replicate 4 zero_tlb_entry
    mapcounts := [1, 1] }

/-- State `full_state` with both translations cached in the TLB, as after
`insert_tlb(0, 3, 0)` and `insert_tlb(1, 3, 1)`. -/
def full_cached_state : VM :=
  { full_state with
    tlb := [{ valid := true, rw := 3, vpn := 0, pfn := 0 },
            { valid := true, rw := 3, vpn := 1, pfn := 1 },
            zero_tlb_entry, zero_tlb_entry] }

/-- The TLB holds at most one valid entry per VPN. -/
def tlb_unique (tlb : List tlb_entry) : Prop :=
  ∀ (i j : Nat) (a b : tlb_entry), tlb[i]? = some a → tlb[j]? = some b →
    a.valid = true → b.valid = true → a.vpn = b.vpn → i = j

/-- Pids of the current process and of the waiting processes, in list order. -/
def pids (s : VM) : List Nat := (s.current :: s.processes).map (fun p => p.pid)

/-- State `full_state` with every TLB slot valid, caching VPNs 0 to 3. -/
def tlb_full_state : VM :=
  { full_state with
    tlb := [{ valid := true, rw := 3, vpn := 0, pfn := 0 },
            { valid := true, rw := 3, vpn := 1, pfn := 1 },
            { valid := true, rw := 1, vpn := 2, pfn := 0 },
            { valid := true, rw := 1, vpn := 3, pfn := 1 }] }

/-- A TLB slot agrees with a page table: it is invalid, or the PTE of its VPN
is valid and holds the cached frame number. -/
def tlb_entry_coherent (c : Config) (pt : pagetable) (t : tlb_entry) : Bool :=
  !t.valid ||
    match lookup_pte c pt t.vpn with
    | some e => e.valid && e.pfn == t.pfn
    | none => false

/-- TLB coherence: every valid TLB entry agrees with the page table of the
current process. -/
def tlb_coherent (c : Config) (s : VM) : Prop :=
  ∀ t ∈ s.tlb, tlb_entry_coherent c s.current.pagetable t = true

instance (c : Config) (s : VM) : Decidable (tlb_coherent c s) := by
  unfold tlb_coherent; infer_instance

/-- State `forked_state` after the child has read VPN 0: the translation of
VPN 0 to the shared frame 0 is cached read-only, as `insert_tlb(0, 1, 0)`
leaves it. -/
def forked_cached_state : VM :=
  { forked_state with
    tlb := [{ valid := true, rw := 1, vpn := 0, pfn := 0 },
            zero_tlb_entry, zero_tlb_entry, zero_tlb_entry] }

end VMSim

/-! ## Priority scheduler (`Simulating_Processor_Schedulers/pa2.c`) -/

namespace Sched

/-- Process descriptor of `process.h`.  The header is not among the sources;
the fields are those `pa2.c` reads and writes (the list linkage is the position
in the queue). -/
structure process where
  status : Nat
  age : Nat
  lifespan : Nat
  prio : Nat
  prio_orig : Nat
deriving DecidableEq, Repr

/-- The globals `prio_schedule` works on: `current` (null when no process was
running) and `readyqueue`. -/
structure State where
  current : Option process
  readyqueue : List process
deriving DecidableEq, Repr

/-- The scan `list_for_each_entry(test, &readyqueue, list)` with the body
`if (test->prio > highest) { next = test; highest = next->prio; }`, continued
at position `i` with `next` at position `best`: the position of `next` after
the loop. -/
def scan_highest (best highest i : Nat) : List process → Nat
  | [] => best
  | test :: ts =>
    if test.prio > highest then scan_highest i test.prio (i + 1) ts
    else scan_highest best highest (i + 1) ts

/-- The selection every branch but the tie branch makes: `NULL` on an empty
queue, otherwise `list_first_entry`, the scan for a higher priority and
`list_del_init`.  Returns `next` and the queue without it. -/
def pick_highest (q : List process) : Option process × List process :=
  match q with
  | [] => (none, q)
  | first :: _ =>
    let i := scan_highest 0 first.prio 0 q
    (q[i]?, q.eraseIdx i)

/-- The scan of the tie branch, `if (test->prio == highest) { next = test;
break; }`: position of the first process whose priority is `prior`. -/
def find_prio (prior : Nat) : List process → Option Nat
  | [] => none
  | test :: ts => if test.prio = prior then some 0 else (find_prio prior ts).map (· + 1)

/-- The statement `if (current->age < current->lifespan)
list_add_tail(&current->list, &readyqueue);`. -/
def requeue (cur : process) (q : List process) : List process :=
  if cur.age < cur.lifespan then q ++ [cur] else q

/-- Function `prio_schedule`: the returned pointer (`none` for `NULL`) and the
ready queue after the call.  The value of `PROCESS_BLOCKED` is fixed by
`process.h` and is a parameter.  The result is `none` where the C program would
hand a null `next` to `list_del_init`. -/
def prio_schedule (PROCESS_BLOCKED : Nat) (s : State) :
    Option (Option process × List process) :=
  match s.current with
  | none => some (pick_highest s.readyqueue)
  | some cur =>
    if cur.status = PROCESS_BLOCKED then some (pick_highest s.readyqueue)
    else
      let check := s.readyqueue.any (fun test => test.prio == cur.prio)
      let q := requeue cur s.readyqueue
      if check = false then some (pick_highest q)
      else
        match q with
        | [] => some (none, q)
        | _ :: _ =>
          match find_prio cur.prio q with
          | some i => some (q[i]?, q.eraseIdx i)
          | none => none

/-- A running process of priority 1 while a process of priority 5 and another
of priority 1 are ready. -/
def tie_state : State :=
  { current := some { status := 1, age := 1, lifespan := 3, prio := 1, prio_orig := 1 }
    readyqueue := [{ status := 0, age := 0, lifespan := 2, prio := 5, prio_orig := 5 },
                   { status := 0, age := 0, lifespan := 4, prio := 1, prio_orig := 1 }] }

end Sched

namespace VMSim

/-- The state reached from `init small 0` by `alloc_page(0, 3)`,
`alloc_page(1, 3)`, `switch_process(1)`, the child's
`handle_page_fault(0, ACCESS_WRITE)` and `free_page(0)`, and
`switch_process(0)`: the parent is current and validly maps frame 0, whose
count is 0. -/
def zero_count_state : VM :=
  { current :=
      { pid := 0
        pagetable :=
          { pdes := [some { ptes := [{ valid := true, rw := 1, pfn := 0, private_ := 3 },
                                     { valid := true, rw := 1, pfn := 1, private_ := 3 }] },
                     none] } }
    processes :=
      [{ pid := 1
         pagetable :=
           { pdes := [some { ptes := [{ valid := false, rw := 0, pfn := 0, private_ := 3 },
                                      { valid := true, rw := 1, pfn := 1, private_ := 3 }] },
                      some { ptes := [zero_pte, zero_pte] }] } }]
    tlb := List.replicate 4 zero_tlb_entry
    mapcounts := [0, 2] }

/-- State `zero_count_state` after `handle_page_fault(0, ACCESS_WRITE)`: the
count of frame 0 is `2 ^ 32 - 1` and the current process still validly maps
frame 0. -/
def wrapped_count_state : VM :=
  { current :=
      { pid := 0
        pagetable :=
          { pdes := [some { ptes := [{ valid := true, rw := 3, pfn := 0, private_ := 3 },
                                     { valid := true, rw := 1, pfn := 1, private_ := 3 }] },
                     none] } }
    processes := zero_count_state.processes
    tlb := List.replicate 4 zero_tlb_entry
    mapcounts := [4294967295, 2] }

/-! ## Frame table lemmas -/

theorem first_free_eq_some {mc : List Nat} {x : Nat} :
    first_free mc = some x ↔ mc[x]? = some 0 ∧ ∀ y, y < x → mc[y]? ≠ some 0 := by
  induction mc generalizing x with
  | nil => simp [first_free]
  | cons m ms ih =>
    unfold first_free
    by_cases hm : m = 0
    · subst hm
      simp only [if_true, Option.some.injEq]
      constructor
      · intro h; subst h; simp
      · rintro ⟨h0, h1⟩
        cases x with
        | zero => rfl
        | succ n => exact absurd (by simp) (h1 0 (Nat.succ_pos n))
    · simp only [hm, if_false, Option.map_eq_some']
      constructor
      · rintro ⟨a, ha, rfl⟩
        obtain ⟨h0, h1⟩ := ih.mp ha
        refine ⟨by simpa using h0, ?_⟩
        intro y hy
        cases y with
        | zero => simpa using hm
        | succ n => simpa using h1 n (by omega)
      · rintro ⟨h0, h1⟩
        cases x with
        | zero => simp at h0; exact absurd h0 hm
        | succ n =>
          refine ⟨n, ih.mpr ⟨by simpa using h0, ?_⟩, rfl⟩
          intro y hy
          simpa using h1 (y + 1) (by omega)

theorem first_free_eq_none {mc : List Nat} :
    first_free mc = none ↔ ∀ y : Nat, mc[y]? ≠ some 0 := by
  induction mc with
  | nil => simp [first_free]
  | cons m ms ih =>
    unfold first_free
    by_cases hm : m = 0
    · subst hm
      simp only [if_true]
      constructor
      · intro h; cases h
      · intro h; exact absurd (by simp) (h 0)
    · simp only [hm, if_false, Option.map_eq_none', ih]
      constructor
      · intro h y
        cases y with
        | zero => simpa using hm
        | succ n => simpa using h n
      · intro h y
        simpa using h (y + 1)

theorem first_free_isSome {mc : List Nat} (h : ∃ f : Nat, mc[f]? = some 0) :
    ∃ x, first_free mc = some x := by
  cases hff : first_free mc with
  | some x => exact ⟨x, rfl⟩
  | none =>
    obtain ⟨f, hf⟩ := h
    exact absurd hf (first_free_eq_none.mp hff f)

theorem inc_mapcount_eq {mc : List Nat} {f m : Nat} (h : mc[f]? = some m) :
    inc_mapcount mc f = some (mc.set f ((m + 1) % UINT_SIZE)) := by
  simp [inc_mapcount, h]

theorem dec_mapcount_eq {mc : List Nat} {f m : Nat} (h : mc[f]? = some m) :
    dec_mapcount mc f = some (mc.set f ((m + UINT_SIZE - 1) % UINT_SIZE)) := by
  simp [dec_mapcount, h]


/-! ## Page table shape and `alloc_page` -/


theorem in_range_div {c : Config} {vpn : Nat} (h : in_range c vpn) :
    vpn / c.NR_PTES_PER_PAGE < c.NR_PDES_PER_PAGE := by
  unfold in_range at h
  exact Nat.div_lt_of_lt_mul (by rwa [Nat.mul_comm] at h)

theorem in_range_mod {c : Config} {vpn : Nat} (h : in_range c vpn) :
    vpn % c.NR_PTES_PER_PAGE < c.NR_PTES_PER_PAGE := by
  unfold in_range at h
  apply Nat.mod_lt
  rcases Nat.eq_zero_or_pos c.NR_PTES_PER_PAGE with h0 | h0
  · rw [h0] at h; simp at h
  · exact h0

theorem zero_directory_length (c : Config) :
    (zero_directory c).ptes.length = c.NR_PTES_PER_PAGE := by
  simp [zero_directory]

theorem pagetable.WF.dir_length {c : Config} {pt : pagetable} (h : pt.WF c) {i : Nat}
    {pd : pte_directory} (hi : pt.pdes[i]? = some (some pd)) :
    pd.ptes.length = c.NR_PTES_PER_PAGE := by
  have hm : some pd ∈ pt.pdes := List.mem_iff_getElem?.mpr ⟨i, hi⟩
  simpa [dir_len_ok] using h.2 _ hm

theorem pagetable.WF.slot {c : Config} {pt : pagetable} (h : pt.WF c) {i : Nat}
    (hi : i < c.NR_PDES_PER_PAGE) : ∃ d, pt.pdes[i]? = some d := by
  have : i < pt.pdes.length := by rw [h.1]; exact hi
  exact ⟨pt.pdes[i], List.getElem?_eq_getElem this⟩

theorem dir_or_new_length {c : Config} {pt : pagetable} (hwf : pt.WF c) {i : Nat}
    {d : Option pte_directory} (hd : pt.pdes[i]? = some d) :
    (dir_or_new c d).ptes.length = c.NR_PTES_PER_PAGE := by
  cases d with
  | none => simp [dir_or_new, zero_directory]
  | some pd => simpa [dir_or_new] using hwf.dir_length hd

theorem alloc_page_success {c : Config} {s : VM} {vpn rw x : Nat}
    {d : Option pte_directory}
    (hwf : s.current.pagetable.WF c) (hr : in_range c vpn)
    (hd : s.current.pagetable.pdes[vpn / c.NR_PTES_PER_PAGE]? = some d)
    (hx : first_free s.mapcounts = some x) :
    alloc_page c s vpn rw = some
      ({ s.set_pagetable
           { pdes := s.current.pagetable.pdes.set (vpn / c.NR_PTES_PER_PAGE)
               (some { ptes := (dir_or_new c d).ptes.set (vpn % c.NR_PTES_PER_PAGE)
                         { valid := true, rw := rw, pfn := x, private_ := rw } }) }
         with mapcounts := s.mapcounts.set x 1 }, x) := by
  have hx0 := (first_free_eq_some.mp hx).1
  have hlen : vpn % c.NR_PTES_PER_PAGE < (dir_or_new c d).ptes.length := by
    rw [dir_or_new_length hwf hd]; exact in_range_mod hr
  simp only [alloc_page, hd, hlen, if_true, hx, inc_mapcount_eq hx0]
  simp [UINT_SIZE]

theorem alloc_page_exhausted {c : Config} {s : VM} {vpn rw : Nat}
    {d : Option pte_directory}
    (hwf : s.current.pagetable.WF c) (hr : in_range c vpn)
    (hd : s.current.pagetable.pdes[vpn / c.NR_PTES_PER_PAGE]? = some d)
    (hx : first_free s.mapcounts = none) :
    alloc_page c s vpn rw = some
      (s.set_pagetable
         { pdes := s.current.pagetable.pdes.set (vpn / c.NR_PTES_PER_PAGE)
             (some (dir_or_new c d)) },
        ALLOC_FAILED) := by
  have hlen : vpn % c.NR_PTES_PER_PAGE < (dir_or_new c d).ptes.length := by
    rw [dir_or_new_length hwf hd]; exact in_range_mod hr
  simp only [alloc_page, hd, hlen, if_true, hx]

theorem get_pte_set_dir_ne {pt : pagetable} {i i' j : Nat} {d : Option pte_directory}
    (h : i' ≠ i) :
    get_pte { pdes := pt.pdes.set i d } i' j = get_pte pt i' j := by
  simp [get_pte, List.getElem?_set_ne (Ne.symm h)]

theorem get_pte_zero_directory {c : Config} {j : Nat} {e : pte}
    (h : (zero_directory c).ptes[j]? = some e) : e = zero_pte := by
  simp only [zero_directory, List.getElem?_replicate] at h
  split at h
  · exact (Option.some.inj h).symm
  · cases h

theorem get_pte_set_pte_self {pt : pagetable} {i j : Nat} {e e' : pte}
    (h : get_pte pt i j = some e) : get_pte (set_pte pt i j e') i j = some e' := by
  unfold get_pte at h
  split at h
  next pd hpd =>
    have hi : i < pt.pdes.length := (List.getElem?_eq_some_iff.mp hpd).1
    have hj : j < pd.ptes.length := (List.getElem?_eq_some_iff.mp h).1
    simp [set_pte, hpd, get_pte, List.getElem?_set_self hi, List.getElem?_set_self hj]
  next => cases h

theorem get_pte_set_pte_ne {pt : pagetable} {i j i' j' : Nat} {e' : pte}
    (h : i' ≠ i ∨ j' ≠ j) : get_pte (set_pte pt i j e') i' j' = get_pte pt i' j' := by
  unfold set_pte
  split
  next pd hpd =>
    by_cases hi : i' = i
    · subst hi
      have hj : j' ≠ j := by
        rcases h with h | h
        · exact absurd rfl h
        · exact h
      have hlt : i' < pt.pdes.length := (List.getElem?_eq_some_iff.mp hpd).1
      simp [get_pte, List.getElem?_set_self hlt, hpd, List.getElem?_set_ne (Ne.symm hj)]
    · simp [get_pte, List.getElem?_set_ne (Ne.symm hi)]
  next => rfl

theorem handle_page_fault_not_write {c : Config} {s : VM} {vpn rw : Nat}
    (h : rw ≠ ACCESS_WRITE) : handle_page_fault c s vpn rw = some (s, false) := by
  simp [handle_page_fault, h]

theorem handle_page_fault_no_cow {c : Config} {s : VM} {vpn rw : Nat} {e : pte}
    (he : lookup_pte c s.current.pagetable vpn = some e) (hc : cow_entry e = false) :
    handle_page_fault c s vpn rw = some (s, false) := by
  unfold lookup_pte at he
  by_cases h : rw = ACCESS_WRITE
  · simp [handle_page_fault, h, he, hc]
  · exact handle_page_fault_not_write h

theorem handle_page_fault_cow {c : Config} {s : VM} {vpn m x : Nat} {e : pte}
    (he : lookup_pte c s.current.pagetable vpn = some e) (hc : cow_entry e = true)
    (hm : s.mapcounts[e.pfn]? = some m)
    (hx : first_free (s.mapcounts.set e.pfn ((m + UINT_SIZE - 1) % UINT_SIZE)) = some x) :
    handle_page_fault c s vpn ACCESS_WRITE = some
      ({ s.set_pagetable (set_pte s.current.pagetable (vpn / c.NR_PTES_PER_PAGE)
            (vpn % c.NR_PTES_PER_PAGE) { e with rw := e.private_, pfn := x })
         with mapcounts :=
           (s.mapcounts.set e.pfn ((m + UINT_SIZE - 1) % UINT_SIZE)).set x 1 }, true) := by
  unfold lookup_pte at he
  have hx0 := (first_free_eq_some.mp hx).1
  simp only [handle_page_fault, if_true, he, hc, dec_mapcount_eq hm, hx, inc_mapcount_eq hx0]
  simp [UINT_SIZE]

theorem handle_page_fault_cow_exhausted {c : Config} {s : VM} {vpn m : Nat} {e : pte}
    (he : lookup_pte c s.current.pagetable vpn = some e) (hc : cow_entry e = true)
    (hm : s.mapcounts[e.pfn]? = some m)
    (hx : first_free (s.mapcounts.set e.pfn ((m + UINT_SIZE - 1) % UINT_SIZE)) = none) :
    handle_page_fault c s vpn ACCESS_WRITE = some
      ({ s.set_pagetable (set_pte s.current.pagetable (vpn / c.NR_PTES_PER_PAGE)
            (vpn % c.NR_PTES_PER_PAGE) { e with rw := e.private_ })
         with mapcounts := s.mapcounts.set e.pfn ((m + UINT_SIZE - 1) % UINT_SIZE) }, true) := by
  unfold lookup_pte at he
  simp only [handle_page_fault, if_true, he, hc, dec_mapcount_eq hm, hx]

/-- Lowering a count from 2 to 1 does not change which frame is the first free one. -/
theorem first_free_set_nonzero {mc : List Nat} {f m x : Nat} (m' : Nat)
    (hf : mc[f]? = some m) (hm : m ≠ 0) (hm' : m' ≠ 0)
    (hx : first_free mc = some x) : first_free (mc.set f m') = some x ∧ x ≠ f := by
  obtain ⟨hx0, hxmin⟩ := first_free_eq_some.mp hx
  have hne : x ≠ f := by
    intro h; subst h; rw [hf] at hx0; exact hm (Option.some.inj hx0)
  refine ⟨first_free_eq_some.mpr ⟨?_, ?_⟩, hne⟩
  · rw [List.getElem?_set_ne (Ne.symm hne)]; exact hx0
  · intro y hy
    by_cases hyf : y = f
    · subst hyf
      have hlt : y < mc.length := (List.getElem?_eq_some_iff.mp hf).1
      rw [List.getElem?_set_self hlt]
      intro h; exact hm' (Option.some.inj h)
    · rw [List.getElem?_set_ne (Ne.symm hyf)]; exact hxmin y hy

theorem inc_all_length {fs mc mc' : List Nat} (h : inc_all mc fs = some mc') :
    mc'.length = mc.length := by
  induction fs generalizing mc with
  | nil => simp [inc_all] at h; subst h; rfl
  | cons f fs ih =>
    unfold inc_all at h
    cases hm : mc[f]? with
    | none => simp [inc_mapcount, hm] at h
    | some m =>
      rw [inc_mapcount_eq hm] at h
      simpa using ih h

/-- The fork loop succeeds when every frame it touches is in range, and then
each count has grown by the number of times its frame was touched (modulo
`2 ^ 32`). -/
theorem inc_all_spec (fs mc : List Nat) (hfs : ∀ f ∈ fs, f < mc.length) :
    ∃ mc', inc_all mc fs = some mc' ∧ mc'.length = mc.length ∧
      ∀ g m, mc[g]? = some m →
        mc'[g]? = some (if fs.count g = 0 then m else (m + fs.count g) % UINT_SIZE) := by
  induction fs generalizing mc with
  | nil =>
    exact ⟨mc, rfl, rfl, fun g m hg => by simpa using hg⟩
  | cons f fs ih =>
    have hf : f < mc.length := hfs f (List.mem_cons_self _ _)
    have hm : mc[f]? = some mc[f] := List.getElem?_eq_getElem hf
    have hfs' : ∀ f' ∈ fs, f' < (mc.set f ((mc[f] + 1) % UINT_SIZE)).length := by
      intro f' hf'
      simpa using hfs f' (List.mem_cons_of_mem _ hf')
    obtain ⟨mc', hmc', hlen, hspec⟩ := ih (mc.set f ((mc[f] + 1) % UINT_SIZE)) hfs'
    refine ⟨mc', ?_, by simpa using hlen, ?_⟩
    · simp only [inc_all, inc_mapcount_eq hm]; exact hmc'
    · intro g m hg
      by_cases hgf : g = f
      · subst hgf
        have hmg : m = mc[g] := by rw [hm] at hg; exact (Option.some.inj hg).symm
        rw [hspec g ((mc[g] + 1) % UINT_SIZE) (List.getElem?_set_self hf), hmg]
        congr 1
        simp only [List.count_cons_self]
        by_cases h0 : fs.count g = 0
        · simp [h0]
        · simp only [h0, if_false, Nat.succ_ne_zero]
          rw [Nat.mod_add_mod]
          congr 1; omega
      · have hg' : (mc.set f ((mc[f] + 1) % UINT_SIZE))[g]? = some m := by
          rw [List.getElem?_set_ne (Ne.symm hgf)]; exact hg
        have hc : (f :: fs).count g = fs.count g := by
          simp [List.count_cons, Ne.symm hgf]
        rw [hc]
        exact hspec g m hg'

theorem get_pte_fork_parent (pt : pagetable) (i j : Nat) :
    get_pte (fork_parent_pagetable pt) i j = (get_pte pt i j).map fork_parent_pte := by
  simp only [get_pte, fork_parent_pagetable, List.getElem?_map]
  cases h : pt.pdes[i]? with
  | none => simp
  | some d =>
    cases d with
    | none => simp
    | some pd => simp

theorem get_pte_fork_child {c : Config} {pt : pagetable} {i j : Nat} {e : pte}
    (h : get_pte pt i j = some e) :
    get_pte (fork_child_pagetable c pt) i j = some (fork_child_pte e) := by
  simp only [get_pte, fork_child_pagetable, List.getElem?_map]
  unfold get_pte at h
  cases hd : pt.pdes[i]? with
  | none => simp [hd] at h
  | some d =>
    cases d with
    | none => simp [hd] at h
    | some pd =>
      simp only [hd] at h
      simp [h]

/-- A list with exactly one element satisfying `p`, at index `j`, filters to
that element. -/
theorem filter_eq_singleton {α : Type} (p : α → Bool) (l : List α) (j : Nat) (a : α)
    (hj : l[j]? = some a) (hp : p a = true)
    (huniq : ∀ k b, l[k]? = some b → p b = true → k = j) : l.filter p = [a] := by
  induction l generalizing j with
  | nil => simp at hj
  | cons x xs ih =>
    cases j with
    | zero =>
      simp only [List.getElem?_cons_zero, Option.some.injEq] at hj
      subst hj
      have hnil : xs.filter p = [] := by
        rw [List.filter_eq_nil_iff]
        intro b hb hpb
        obtain ⟨k, hk⟩ := List.mem_iff_getElem?.mp hb
        have := huniq (k + 1) b (by simpa using hk) hpb
        omega
      simp [List.filter_cons, hp, hnil]
    | succ n =>
      have hx : p x = false := by
        cases hpx : p x with
        | false => rfl
        | true =>
          have := huniq 0 x (by simp) hpx
          omega
      have := ih n (by simpa using hj) (fun k b hk hpb => by
        have := huniq (k + 1) b (by simpa using hk) hpb
        omega)
      simp [List.filter_cons, hx, this]

/-- A `flatMap` in which only the element at index `i` contributes. -/
theorem flatMap_eq_single {α β : Type} (g : α → List β) (l : List α) (i : Nat) (a : α)
    (hi : l[i]? = some a)
    (hother : ∀ k b, l[k]? = some b → k ≠ i → g b = []) : l.flatMap g = g a := by
  induction l generalizing i with
  | nil => simp at hi
  | cons x xs ih =>
    cases i with
    | zero =>
      simp only [List.getElem?_cons_zero, Option.some.injEq] at hi
      subst hi
      have hnil : xs.flatMap g = [] := by
        rw [List.flatMap_eq_nil_iff]
        intro b hb
        obtain ⟨k, hk⟩ := List.mem_iff_getElem?.mp hb
        exact hother (k + 1) b (by simpa using hk) (by omega)
      simp [List.flatMap_cons, hnil]
    | succ n =>
      have hx : g x = [] := hother 0 x (by simp) (by omega)
      have := ih n (by simpa using hi) (fun k b hk hne =>
        hother (k + 1) b (by simpa using hk) (by omega))
      simp [List.flatMap_cons, hx, this]

/-- A page table whose only valid entry is at `(i, j)` contributes exactly the
frame of that entry to the fork loop. -/
theorem valid_pfns_single {pt : pagetable} {i j : Nat} {e : pte}
    (he : get_pte pt i j = some e) (hv : e.valid = true)
    (honly : ∀ i' j' e', get_pte pt i' j' = some e' → e'.valid = true → i' = i ∧ j' = j) :
    valid_pfns pt = [e.pfn] := by
  unfold get_pte at he
  cases hd : pt.pdes[i]? with
  | none => simp [hd] at he
  | some d =>
    cases d with
    | none => simp [hd] at he
    | some pd =>
      simp only [hd] at he
      unfold valid_pfns
      rw [flatMap_eq_single _ pt.pdes i (some pd) hd]
      · have hf : pd.ptes.filter (fun e => e.valid) = [e] := by
          apply filter_eq_singleton _ pd.ptes j e he hv
          intro k b hk hb
          exact (honly i k b (by simp [get_pte, hd, hk]) hb).2
        simp [hf]
      · intro k b hk hne
        cases b with
        | none => rfl
        | some pd' =>
          have hnil : pd'.ptes.filter (fun e => e.valid) = [] := by
            rw [List.filter_eq_nil_iff]
            intro b hb hvb
            obtain ⟨n, hn⟩ := List.mem_iff_getElem?.mp hb
            exact hne (honly k n b (by simp [get_pte, hk, hn]) hvb).1
          simp [hnil]

theorem find_process_eq_none {pid : Nat} {ps : List process} :
    find_process pid ps = none ↔ ∀ p ∈ ps, p.pid ≠ pid := by
  induction ps with
  | nil => simp [find_process]
  | cons p ps ih =>
    unfold find_process
    by_cases h : p.pid = pid
    · simp [h]
    · simp [h, ih]

theorem switch_process_fork {c : Config} {s : VM} {pid : Nat} {mc : List Nat}
    (hfp : find_process pid s.processes = none)
    (hinc : inc_all s.mapcounts (valid_pfns s.current.pagetable) = some mc) :
    switch_process c s pid = some
      { current := { pid := pid, pagetable := fork_child_pagetable c s.current.pagetable }
        processes := s.processes ++
          [{ s.current with pagetable := fork_parent_pagetable s.current.pagetable }]
        tlb := flush_tlb s.tlb
        mapcounts := mc } := by
  simp only [switch_process, hfp, hinc]

theorem switch_process_found {c : Config} {s : VM} {pid : Nat} {next : process}
    {rest : List process} (hfp : find_process pid s.processes = some (next, rest)) :
    switch_process c s pid = some
      { current := next
        processes := rest ++ [s.current]
        tlb := flush_tlb s.tlb
        mapcounts := s.mapcounts } := by
  simp only [switch_process, hfp]

theorem countP_set_add {α : Type} (p : α → Bool) (l : List α) (j : Nat) (a b : α)
    (h : l[j]? = some a) :
    (l.set j b).countP p + (if p a = true then 1 else 0)
      = l.countP p + (if p b = true then 1 else 0) := by
  induction l generalizing j with
  | nil => simp at h
  | cons x xs ih =>
    cases j with
    | zero =>
      simp only [List.getElem?_cons_zero, Option.some.injEq] at h
      subst h
      simp only [List.set_cons_zero, List.countP_cons]
      omega
    | succ n =>
      have := ih n (by simpa using h)
      simp only [List.set_cons_succ, List.countP_cons]
      omega

theorem sum_map_set_add {α : Type} (g : α → Nat) (l : List α) (i : Nat) (a b : α)
    (h : l[i]? = some a) :
    ((l.set i b).map g).sum + g a = (l.map g).sum + g b := by
  induction l generalizing i with
  | nil => simp at h
  | cons x xs ih =>
    cases i with
    | zero =>
      simp only [List.getElem?_cons_zero, Option.some.injEq] at h
      subst h
      simp only [List.set_cons_zero, List.map_cons, List.sum_cons]
      omega
    | succ n =>
      have := ih n (by simpa using h)
      simp only [List.set_cons_succ, List.map_cons, List.sum_cons]
      omega

theorem le_sum_map_of_getElem? {α : Type} (g : α → Nat) (l : List α) (i : Nat) (a : α)
    (h : l[i]? = some a) : g a ≤ (l.map g).sum := by
  induction l generalizing i with
  | nil => simp at h
  | cons x xs ih =>
    cases i with
    | zero =>
      simp only [List.getElem?_cons_zero, Option.some.injEq] at h
      subst h
      simp
    | succ n =>
      have := ih n (by simpa using h)
      simp only [List.map_cons, List.sum_cons]
      omega

theorem countP_pos_of_getElem? {α : Type} (p : α → Bool) (l : List α) (j : Nat) (a : α)
    (h : l[j]? = some a) (hp : p a = true) : 1 ≤ l.countP p :=
  List.countP_pos_iff.mpr ⟨a, List.mem_iff_getElem?.mpr ⟨j, h⟩, hp⟩

/-- Replacing one entry changes the reference count of a frame by what the
old entry contributed and what the new one contributes. -/
theorem refs_set_pte {pt : pagetable} {i j : Nat} {e : pte} (e' : pte) (f : Nat)
    (h : get_pte pt i j = some e) :
    (set_pte pt i j e').refs f + (if maps_frame f e = true then 1 else 0)
      = pt.refs f + (if maps_frame f e' = true then 1 else 0) := by
  unfold get_pte at h
  cases hd : pt.pdes[i]? with
  | none => simp [hd] at h
  | some d =>
    cases d with
    | none => simp [hd] at h
    | some pd =>
      simp only [hd] at h
      have h1 := countP_set_add (maps_frame f) pd.ptes j e e' h
      have h2 := sum_map_set_add (dir_refs f) pt.pdes i (some pd)
        (some { ptes := pd.ptes.set j e' }) hd
      simp only [set_pte, hd, pagetable.refs]
      simp only [dir_refs] at h2 ⊢
      omega

theorem refs_pos_of_entry {pt : pagetable} {i j : Nat} {e : pte} {f : Nat}
    (h : get_pte pt i j = some e) (hm : maps_frame f e = true) : 1 ≤ pt.refs f := by
  unfold get_pte at h
  cases hd : pt.pdes[i]? with
  | none => simp [hd] at h
  | some d =>
    cases d with
    | none => simp [hd] at h
    | some pd =>
      simp only [hd] at h
      have h1 := countP_pos_of_getElem? (maps_frame f) pd.ptes j e h hm
      have h2 := le_sum_map_of_getElem? (dir_refs f) pt.pdes i (some pd) hd
      simp only [pagetable.refs]
      simp only [dir_refs] at h2
      omega

theorem VM.refs_pos_of_mem {s : VM} {p : process} {i j : Nat} {e : pte} {f : Nat}
    (hp : p ∈ s.current :: s.processes)
    (h : get_pte p.pagetable i j = some e) (hm : maps_frame f e = true) : 1 ≤ s.refs f := by
  have h1 := refs_pos_of_entry h hm
  rcases List.mem_cons.mp hp with rfl | hp
  · simp only [VM.refs]; omega
  · obtain ⟨n, hn⟩ := List.mem_iff_getElem?.mp hp
    have h2 := le_sum_map_of_getElem? (fun q : process => q.pagetable.refs f) s.processes n p hn
    simp only [VM.refs]
    simp only at h2
    omega

theorem maps_frame_invalid {f : Nat} {e : pte} (h : e.valid = false) :
    maps_frame f e = false := by
  simp [maps_frame, h]

theorem maps_frame_valid {f : Nat} {e : pte} (h : e.valid = true) :
    maps_frame f e = true ↔ e.pfn = f := by
  simp [maps_frame, h]

/-- Entry invariants survive a change of the frame table that keeps its
length and raises no count. -/
theorem entry_ok_mono {mc mc' : List Nat} {e : pte} (hlen : mc'.length = mc.length)
    (hle : ∀ (g m' : Nat), mc'[g]? = some m' → ∃ m0, mc[g]? = some m0 ∧ m' ≤ m0)
    (h : entry_ok mc e) : entry_ok mc' e := by
  refine ⟨h.1, fun hv => ?_⟩
  obtain ⟨h1, h2, h3⟩ := h.2 hv
  refine ⟨by rw [hlen]; exact h1, h2, fun m' hm' h2m => ?_⟩
  obtain ⟨m0, hm0, hle0⟩ := hle _ _ hm'
  exact h3 m0 hm0 (by omega)

/-- Entry invariants survive a change of the frame table at a frame the
entry does not map. -/
theorem entry_ok_congr {mc mc' : List Nat} {e : pte} (hlen : mc'.length = mc.length)
    (hsame : e.valid = true → mc'[e.pfn]? = mc[e.pfn]?)
    (h : entry_ok mc e) : entry_ok mc' e := by
  refine ⟨h.1, fun hv => ?_⟩
  obtain ⟨h1, h2, h3⟩ := h.2 hv
  refine ⟨by rw [hlen]; exact h1, h2, fun m' hm' h2m => ?_⟩
  rw [hsame hv] at hm'
  exact h3 m' hm' h2m

/-- Invalidating a valid entry of the current process and decrementing the
count of its frame preserves the invariant. -/
theorem Inv_unmap {s s' : VM} {i j m : Nat} {e e' : pte} (h : Inv s)
    (hget : get_pte s.current.pagetable i j = some e) (hv : e.valid = true)
    (hv' : e'.valid = false) (hrw' : e'.rw = 0)
    (hpt : s'.current.pagetable = set_pte s.current.pagetable i j e')
    (hprocs : s'.processes = s.processes)
    (hm : s.mapcounts[e.pfn]? = some m)
    (hmc : s'.mapcounts = s.mapcounts.set e.pfn (m - 1)) : Inv s' := by
  obtain ⟨hA, hG, hE⟩ := h
  have hFlt : e.pfn < s.mapcounts.length := (List.getElem?_eq_some_iff.mp hm).1
  have hmA : m = s.refs e.pfn := by
    have := hA e.pfn hFlt
    rw [hm] at this
    exact Option.some.inj this
  have hlen : s'.mapcounts.length = s.mapcounts.length := by rw [hmc]; simp
  have hle : ∀ (g m' : Nat), s'.mapcounts[g]? = some m' →
      ∃ m0, s.mapcounts[g]? = some m0 ∧ m' ≤ m0 := by
    intro g m' hg
    rw [hmc] at hg
    by_cases hgF : g = e.pfn
    · subst hgF
      rw [List.getElem?_set_self hFlt] at hg
      exact ⟨m, hm, by have := Option.some.inj hg; omega⟩
    · rw [List.getElem?_set_ne (Ne.symm hgF)] at hg
      exact ⟨m', hg, Nat.le_refl _⟩
  refine ⟨?_, ?_, ?_⟩
  · intro f hf
    rw [hlen] at hf
    have hr := refs_set_pte e' f hget
    rw [maps_frame_invalid hv'] at hr
    simp only [VM.refs, hpt, hprocs, hmc]
    have hAf := hA f hf
    simp only [VM.refs] at hAf hmA
    by_cases hfF : f = e.pfn
    · subst hfF
      have hme : maps_frame e.pfn e = true := (maps_frame_valid hv).mpr rfl
      rw [hme] at hr
      rw [List.getElem?_set_self hFlt]
      congr 1
      simp only [if_true] at hr
      simp at hr
      omega
    · have hme : maps_frame f e = false := by
        cases hc : maps_frame f e with
        | false => rfl
        | true => exact absurd ((maps_frame_valid hv).mp hc).symm hfF
      rw [hme] at hr
      rw [List.getElem?_set_ne (Ne.symm hfF), hAf]
      congr 1
      simp at hr
      omega
  · intro x hx
    rw [hmc] at hx
    rcases List.mem_or_eq_of_mem_set hx with hx | hx
    · exact hG x hx
    · have := hG m (List.mem_iff_getElem?.mpr ⟨_, hm⟩)
      omega
  · intro p hp i' j' x hx
    rcases List.mem_cons.mp hp with rfl | hp
    · rw [hpt] at hx
      by_cases hij : i' = i ∧ j' = j
      · obtain ⟨rfl, rfl⟩ := hij
        rw [get_pte_set_pte_self hget] at hx
        have : x = e' := (Option.some.inj hx).symm
        subst this
        exact ⟨fun _ => hrw', fun hv => (by rw [hv'] at hv; cases hv)⟩
      · have hne : i' ≠ i ∨ j' ≠ j := by
          by_cases h1 : i' = i
          · exact Or.inr (fun h2 => hij ⟨h1, h2⟩)
          · exact Or.inl h1
        rw [get_pte_set_pte_ne hne] at hx
        exact entry_ok_mono hlen hle (hE _ (List.mem_cons_self _ _) i' j' x hx)
    · rw [hprocs] at hp
      exact entry_ok_mono hlen hle (hE _ (List.mem_cons_of_mem _ hp) i' j' x hx)

/-- Making an invalid entry of the current process valid on a frame whose
count is 0, and setting that count to 1, preserves the invariant. -/
theorem Inv_map {s s' : VM} {i j x : Nat} {e e' : pte} (h : Inv s)
    (hget : get_pte s.current.pagetable i j = some e) (hv : e.valid = false)
    (hv' : e'.valid = true) (hpfn' : e'.pfn = x) (hrw' : e'.rw ≠ ACCESS_WRITE)
    (hpt : s'.current.pagetable = set_pte s.current.pagetable i j e')
    (hprocs : s'.processes = s.processes)
    (hx : s.mapcounts[x]? = some 0)
    (hmc : s'.mapcounts = s.mapcounts.set x 1) : Inv s' := by
  obtain ⟨hA, hG, hE⟩ := h
  have hxlt : x < s.mapcounts.length := (List.getElem?_eq_some_iff.mp hx).1
  have hx0 : s.refs x = 0 := by
    have := hA x hxlt
    rw [hx] at this
    exact (Option.some.inj this).symm
  have hlen : s'.mapcounts.length = s.mapcounts.length := by rw [hmc]; simp
  have hold : ∀ p ∈ s.current :: s.processes, ∀ i' j' o,
      get_pte p.pagetable i' j' = some o → entry_ok s'.mapcounts o := by
    intro p hp i' j' o ho
    apply entry_ok_congr hlen _ (hE p hp i' j' o ho)
    intro hov
    have hne : o.pfn ≠ x := by
      intro heq
      have := VM.refs_pos_of_mem hp ho ((maps_frame_valid hov).mpr heq)
      omega
    rw [hmc, List.getElem?_set_ne (Ne.symm hne)]
  refine ⟨?_, ?_, ?_⟩
  · intro f hf
    rw [hlen] at hf
    have hr := refs_set_pte e' f hget
    rw [maps_frame_invalid hv] at hr
    simp only [VM.refs, hpt, hprocs, hmc]
    have hAf := hA f hf
    simp only [VM.refs] at hAf hx0
    by_cases hfx : f = x
    · subst hfx
      have hme : maps_frame f e' = true := (maps_frame_valid hv').mpr hpfn'
      rw [hme] at hr
      rw [List.getElem?_set_self hxlt]
      congr 1
      simp at hr
      omega
    · have hme : maps_frame f e' = false := by
        cases hc : maps_frame f e' with
        | false => rfl
        | true => exact absurd (((maps_frame_valid hv').mp hc).symm.trans hpfn') hfx
      rw [hme] at hr
      rw [List.getElem?_set_ne (Ne.symm hfx), hAf]
      congr 1
      simp at hr
      omega
  · intro y hy
    rw [hmc] at hy
    rcases List.mem_or_eq_of_mem_set hy with hy | hy
    · exact hG y hy
    · subst hy; decide
  · intro p hp i' j' o ho
    rcases List.mem_cons.mp hp with rfl | hp
    · rw [hpt] at ho
      by_cases hij : i' = i ∧ j' = j
      · obtain ⟨rfl, rfl⟩ := hij
        rw [get_pte_set_pte_self hget] at ho
        have : o = e' := (Option.some.inj ho).symm
        subst this
        refine ⟨fun hv0 => (by rw [hv'] at hv0; cases hv0), fun _ => ⟨?_, hrw', ?_⟩⟩
        · rw [hlen, hpfn']; exact hxlt
        · intro m hm h2
          rw [hpfn', hmc, List.getElem?_set_self hxlt] at hm
          have := Option.some.inj hm
          omega
      · have hne : i' ≠ i ∨ j' ≠ j := by
          by_cases h1 : i' = i
          · exact Or.inr (fun h2 => hij ⟨h1, h2⟩)
          · exact Or.inl h1
        rw [get_pte_set_pte_ne hne] at ho
        exact hold _ (List.mem_cons_self _ _) i' j' o ho
    · rw [hprocs] at hp
      exact hold _ (List.mem_cons_of_mem _ hp) i' j' o ho

theorem pagetable.WF.set_pte {c : Config} {pt : pagetable} (h : pt.WF c) (i j : Nat)
    (e : pte) : (VMSim.set_pte pt i j e).WF c := by
  unfold VMSim.set_pte
  split
  next pd hpd =>
    refine ⟨by simpa using h.1, ?_⟩
    intro d hd
    rcases List.mem_or_eq_of_mem_set hd with hd | hd
    · exact h.2 d hd
    · subst hd
      have := h.dir_length hpd
      simp [dir_len_ok, this]
  next => exact h

theorem pagetable.WF.ensure_dir {c : Config} {pt : pagetable} (h : pt.WF c) {i : Nat}
    {d : Option pte_directory} (hd : pt.pdes[i]? = some d) :
    pagetable.WF c { pdes := pt.pdes.set i (some (dir_or_new c d)) } := by
  refine ⟨by simpa using h.1, ?_⟩
  intro d' hd'
  rcases List.mem_or_eq_of_mem_set hd' with hd' | hd'
  · exact h.2 d' hd'
  · subst hd'
    simp [dir_len_ok, dir_or_new_length h hd]

theorem set_pte_ensure_dir {c : Config} {pt : pagetable} {i : Nat}
    {d : Option pte_directory} (hd : pt.pdes[i]? = some d) (j : Nat) (e : pte) :
    set_pte { pdes := pt.pdes.set i (some (dir_or_new c d)) } i j e
      = { pdes := pt.pdes.set i (some { ptes := (dir_or_new c d).ptes.set j e }) } := by
  have hi : i < pt.pdes.length := (List.getElem?_eq_some_iff.mp hd).1
  simp [set_pte, List.getElem?_set_self hi]

theorem dir_refs_dir_or_new (c : Config) (f : Nat) (d : Option pte_directory) :
    dir_refs f (some (dir_or_new c d)) = dir_refs f d := by
  cases d with
  | none =>
    simp only [dir_refs, dir_or_new, zero_directory]
    rw [List.countP_eq_zero]
    intro a ha
    rw [List.eq_of_mem_replicate ha]
    simp [maps_frame, zero_pte]
  | some pd => rfl

theorem refs_ensure_dir {c : Config} {pt : pagetable} {i : Nat}
    {d : Option pte_directory} (hd : pt.pdes[i]? = some d) (f : Nat) :
    pagetable.refs { pdes := pt.pdes.set i (some (dir_or_new c d)) } f = pt.refs f := by
  have h := sum_map_set_add (dir_refs f) pt.pdes i d (some (dir_or_new c d)) hd
  rw [dir_refs_dir_or_new] at h
  simp only [pagetable.refs]
  omega

theorem get_pte_ensure_dir {c : Config} {pt : pagetable} {i : Nat}
    {d : Option pte_directory} (hd : pt.pdes[i]? = some d) {i' j' : Nat} {o : pte}
    (h : get_pte { pdes := pt.pdes.set i (some (dir_or_new c d)) } i' j' = some o) :
    get_pte pt i' j' = some o ∨ (d = none ∧ i' = i ∧ o = zero_pte) := by
  have hi : i < pt.pdes.length := (List.getElem?_eq_some_iff.mp hd).1
  by_cases hii : i' = i
  · subst hii
    cases d with
    | none =>
      simp only [get_pte, List.getElem?_set_self hi, dir_or_new] at h
      exact Or.inr ⟨rfl, rfl, get_pte_zero_directory h⟩
    | some pd =>
      simp only [get_pte, List.getElem?_set_self hi, dir_or_new] at h
      left
      simp only [get_pte, hd]
      exact h
  · rw [get_pte_set_dir_ne hii] at h
    exact Or.inl h

theorem entry_ok_zero_pte (mc : List Nat) : entry_ok mc zero_pte :=
  ⟨fun _ => rfl, fun h => by simp [zero_pte] at h⟩

/-- Creating the page directory of a VPN preserves the invariant. -/
theorem Inv_ensure_dir {c : Config} {s s' : VM} {i : Nat} {d : Option pte_directory}
    (h : Inv s) (hd : s.current.pagetable.pdes[i]? = some d)
    (hpt : s'.current.pagetable =
      { pdes := s.current.pagetable.pdes.set i (some (dir_or_new c d)) })
    (hprocs : s'.processes = s.processes) (hmc : s'.mapcounts = s.mapcounts) : Inv s' := by
  obtain ⟨hA, hG, hE⟩ := h
  refine ⟨?_, by rw [hmc]; exact hG, ?_⟩
  · intro f hf
    rw [hmc] at hf ⊢
    rw [hA f hf]
    simp only [VM.refs, hpt, hprocs, refs_ensure_dir hd]
  · intro p hp i' j' o ho
    rw [hmc]
    rcases List.mem_cons.mp hp with rfl | hp
    · rw [hpt] at ho
      rcases get_pte_ensure_dir hd ho with ho | ⟨_, _, rfl⟩
      · exact hE _ (List.mem_cons_self _ _) i' j' o ho
      · exact entry_ok_zero_pte _
    · rw [hprocs] at hp
      exact hE _ (List.mem_cons_of_mem _ hp) i' j' o ho

theorem set_pte_set_pte (pt : pagetable) (i j : Nat) (a b : pte) :
    set_pte (set_pte pt i j a) i j b = set_pte pt i j b := by
  cases hd : pt.pdes[i]? with
  | none => simp [set_pte, hd]
  | some d =>
    cases d with
    | none => simp [set_pte, hd]
    | some pd =>
      have hi : i < pt.pdes.length := (List.getElem?_eq_some_iff.mp hd).1
      simp [set_pte, hd, List.getElem?_set_self hi]

theorem dec_value {m : Nat} (h1 : 1 ≤ m) (h2 : m < UINT_SIZE) :
    (m + UINT_SIZE - 1) % UINT_SIZE = m - 1 := by
  have : m + UINT_SIZE - 1 = (m - 1) + UINT_SIZE := by omega
  rw [this, Nat.add_mod_right, Nat.mod_eq_of_lt (by omega)]

/-- Under the invariant a valid entry of any process maps a frame whose
count is at least 1 and below `2 ^ 32`. -/
theorem Inv.count_of_valid {s : VM} (h : Inv s) {p : process} {i j m : Nat} {e : pte}
    (hp : p ∈ s.current :: s.processes) (hget : get_pte p.pagetable i j = some e)
    (hv : e.valid = true) (hm : s.mapcounts[e.pfn]? = some m) : 1 ≤ m ∧ m < UINT_SIZE := by
  obtain ⟨hA, hG, _⟩ := h
  have hlt : e.pfn < s.mapcounts.length := (List.getElem?_eq_some_iff.mp hm).1
  have h1 := hA e.pfn hlt
  rw [hm] at h1
  have h2 := VM.refs_pos_of_mem hp hget ((maps_frame_valid hv).mpr rfl)
  have h3 := hG m (List.mem_iff_getElem?.mpr ⟨_, hm⟩)
  have := Option.some.inj h1
  omega

theorem alloc_page_step {c : Config} {s s' : VM} {vpn rw r : Nat} (hwf : s.WF c)
    (hr : in_range c vpn) (hun : mapped c s.current.pagetable vpn = false)
    (hrw : rw ≠ ACCESS_WRITE) (h : alloc_page c s vpn rw = some (s', r)) :
    s'.WF c ∧ s'.processes = s.processes ∧ (Inv s → Inv s') := by
  obtain ⟨hwc, hwp, hwt, hwm⟩ := hwf
  obtain ⟨d, hd⟩ := hwc.slot (in_range_div hr)
  have hjlt : vpn % c.NR_PTES_PER_PAGE < (dir_or_new c d).ptes.length := by
    rw [dir_or_new_length hwc hd]; exact in_range_mod hr
  have hi : vpn / c.NR_PTES_PER_PAGE < s.current.pagetable.pdes.length :=
    (List.getElem?_eq_some_iff.mp hd).1
  cases hx : first_free s.mapcounts with
  | none =>
    rw [alloc_page_exhausted hwc hr hd hx] at h
    simp only [Option.some.injEq, Prod.mk.injEq] at h
    obtain ⟨rfl, -⟩ := h
    refine ⟨⟨hwc.ensure_dir hd, hwp, hwt, hwm⟩, rfl, fun hinv => ?_⟩
    exact Inv_ensure_dir hinv hd rfl rfl rfl
  | some x =>
    rw [alloc_page_success hwc hr hd hx] at h
    simp only [Option.some.injEq, Prod.mk.injEq] at h
    obtain ⟨rfl, -⟩ := h
    obtain ⟨hx0, -⟩ := first_free_eq_some.mp hx
    refine ⟨⟨?_, hwp, hwt, by simpa using hwm⟩, rfl, fun hinv => ?_⟩
    · show pagetable.WF c { pdes := _ }
      rw [← set_pte_ensure_dir hd]
      exact (hwc.ensure_dir hd).set_pte _ _ _
    · have hinv1 : Inv (s.set_pagetable
          { pdes := s.current.pagetable.pdes.set (vpn / c.NR_PTES_PER_PAGE)
              (some (dir_or_new c d)) }) :=
        Inv_ensure_dir hinv hd rfl rfl rfl
      have hget : get_pte (s.set_pagetable
          { pdes := s.current.pagetable.pdes.set (vpn / c.NR_PTES_PER_PAGE)
              (some (dir_or_new c d)) }).current.pagetable
          (vpn / c.NR_PTES_PER_PAGE) (vpn % c.NR_PTES_PER_PAGE)
          = some ((dir_or_new c d).ptes[vpn % c.NR_PTES_PER_PAGE]) := by
        simp [VM.set_pagetable, get_pte, List.getElem?_set_self hi,
          List.getElem?_eq_getElem hjlt]
      have hinvalid : ((dir_or_new c d).ptes[vpn % c.NR_PTES_PER_PAGE]).valid = false := by
        cases d with
        | none => simp [dir_or_new, zero_directory, zero_pte]
        | some pd =>
          have hjlt2 : vpn % c.NR_PTES_PER_PAGE < pd.ptes.length := hjlt
          have hl : lookup_pte c s.current.pagetable vpn
              = some (pd.ptes[vpn % c.NR_PTES_PER_PAGE]) := by
            simp only [lookup_pte, get_pte, hd]
            exact List.getElem?_eq_getElem hjlt2
          simpa [mapped, hl] using hun
      refine @Inv_map _ _ _ _ x _ { valid := true, rw := rw, pfn := x, private_ := rw }
        hinv1 hget hinvalid rfl rfl hrw ?_ rfl hx0 rfl
      show _ = set_pte { pdes := _ } _ _ _
      rw [set_pte_ensure_dir hd]
      rfl

theorem free_page_eq {c : Config} {s : VM} {vpn m : Nat} {e : pte}
    (he : lookup_pte c s.current.pagetable vpn = some e)
    (hm : s.mapcounts[e.pfn]? = some m) :
    free_page c s vpn = some
      { s.set_pagetable (set_pte s.current.pagetable (vpn / c.NR_PTES_PER_PAGE)
            (vpn % c.NR_PTES_PER_PAGE) { e with valid := false, rw := 0, pfn := 0 })
        with mapcounts := s.mapcounts.set e.pfn ((m + UINT_SIZE - 1) % UINT_SIZE)
             tlb := tlb_invalidate vpn s.tlb } := by
  unfold lookup_pte at he
  simp only [free_page, he, dec_mapcount_eq hm]

theorem free_page_step {c : Config} {s s' : VM} {vpn : Nat} (hwf : s.WF c)
    (hmap : mapped c s.current.pagetable vpn = true) (h : free_page c s vpn = some s') :
    s'.WF c ∧ s'.processes = s.processes ∧ (Inv s → Inv s') := by
  obtain ⟨hwc, hwp, hwt, hwm⟩ := hwf
  cases he : lookup_pte c s.current.pagetable vpn with
  | none => simp [mapped, he] at hmap
  | some e =>
    have hv : e.valid = true := by simpa [mapped, he] using hmap
    cases hm : s.mapcounts[e.pfn]? with
    | none =>
      unfold lookup_pte at he
      simp [free_page, he, dec_mapcount, hm] at h
    | some m =>
      rw [free_page_eq he hm] at h
      have hs := Option.some.inj h
      subst hs
      refine ⟨⟨hwc.set_pte _ _ _, hwp, by simpa [tlb_invalidate] using hwt,
        by simpa using hwm⟩, rfl, fun hinv => ?_⟩
      obtain ⟨h1, h2⟩ := hinv.count_of_valid (List.mem_cons_self _ _) he hv hm
      refine @Inv_unmap _ _ _ _ m e { e with valid := false, rw := 0, pfn := 0 }
        hinv he hv rfl rfl rfl rfl hm ?_
      show s.mapcounts.set e.pfn _ = _
      rw [dec_value h1 h2]

theorem handle_page_fault_step {c : Config} {s s' : VM} {vpn rw : Nat} {b : Bool}
    (hwf : s.WF c) (hserv : cow_serviceable c s vpn rw)
    (h : handle_page_fault c s vpn rw = some (s', b)) :
    s'.WF c ∧ s'.processes = s.processes ∧ (Inv s → Inv s') := by
  by_cases hw : rw = ACCESS_WRITE
  swap
  · rw [handle_page_fault_not_write hw] at h
    simp only [Option.some.injEq, Prod.mk.injEq] at h
    obtain ⟨rfl, -⟩ := h
    exact ⟨hwf, rfl, id⟩
  subst hw
  cases he : lookup_pte c s.current.pagetable vpn with
  | none =>
    unfold lookup_pte at he
    simp [handle_page_fault, he] at h
  | some e =>
    cases hc : cow_entry e with
    | false =>
      rw [handle_page_fault_no_cow he hc] at h
      simp only [Option.some.injEq, Prod.mk.injEq] at h
      obtain ⟨rfl, -⟩ := h
      exact ⟨hwf, rfl, id⟩
    | true =>
      obtain ⟨hwc, hwp, hwt, hwm⟩ := hwf
      have hrw1 : e.rw = ACCESS_READ := by
        simp only [cow_entry, Bool.and_eq_true, beq_iff_eq] at hc
        exact hc.1
      have hpriv : e.private_ ≠ ACCESS_WRITE := by
        simp only [cow_entry, Bool.and_eq_true, bne_iff_ne] at hc
        exact hc.2.2
      cases hm : s.mapcounts[e.pfn]? with
      | none =>
        unfold lookup_pte at he
        simp [handle_page_fault, he, hc, dec_mapcount, hm] at h
      | some m =>
        cases hx : first_free (s.mapcounts.set e.pfn ((m + UINT_SIZE - 1) % UINT_SIZE)) with
        | none =>
          rw [handle_page_fault_cow_exhausted he hc hm hx] at h
          simp only [Option.some.injEq, Prod.mk.injEq] at h
          obtain ⟨rfl, -⟩ := h
          refine ⟨⟨hwc.set_pte _ _ _, hwp, hwt, by simpa using hwm⟩, rfl, fun hinv => ?_⟩
          exfalso
          have hv : e.valid = true := by
            cases hval : e.valid with
            | true => rfl
            | false =>
              have := (hinv.2.2 _ (List.mem_cons_self _ _) _ _ e he).1 hval
              rw [hrw1] at this
              cases this
          obtain ⟨h1, h2⟩ := hinv.count_of_valid (List.mem_cons_self _ _) he hv hm
          have hFlt : e.pfn < s.mapcounts.length := (List.getElem?_eq_some_iff.mp hm).1
          rw [dec_value h1 h2, first_free_eq_none] at hx
          rcases hserv e rfl he hc with ⟨f, hf⟩ | hone
          · by_cases hfF : f = e.pfn
            · subst hfF
              rw [hm] at hf
              have := Option.some.inj hf
              omega
            · apply hx f
              rw [List.getElem?_set_ne (Ne.symm hfF)]
              exact hf
          · rw [hm] at hone
            have hm1 : m = 1 := Option.some.inj hone
            apply hx e.pfn
            rw [List.getElem?_set_self hFlt, hm1]
        | some x =>
          rw [handle_page_fault_cow he hc hm hx] at h
          simp only [Option.some.injEq, Prod.mk.injEq] at h
          obtain ⟨rfl, -⟩ := h
          refine ⟨⟨hwc.set_pte _ _ _, hwp, hwt, by simpa using hwm⟩, rfl, fun hinv => ?_⟩
          have hv : e.valid = true := by
            cases hval : e.valid with
            | true => rfl
            | false =>
              have := (hinv.2.2 _ (List.mem_cons_self _ _) _ _ e he).1 hval
              rw [hrw1] at this
              cases this
          obtain ⟨h1, h2⟩ := hinv.count_of_valid (List.mem_cons_self _ _) he hv hm
          rw [dec_value h1 h2] at hx ⊢
          obtain ⟨hx0, -⟩ := first_free_eq_some.mp hx
          have hinv1 : Inv { s.set_pagetable (set_pte s.current.pagetable
              (vpn / c.NR_PTES_PER_PAGE) (vpn % c.NR_PTES_PER_PAGE)
              { e with valid := false, rw := 0 })
              with mapcounts := s.mapcounts.set e.pfn (m - 1) } :=
            @Inv_unmap _ _ _ _ m e { e with valid := false, rw := 0 }
              hinv he hv rfl rfl rfl rfl hm rfl
          refine @Inv_map _ _ _ _ x { e with valid := false, rw := 0 }
            { e with rw := e.private_, pfn := x } hinv1
            (get_pte_set_pte_self he) rfl hv rfl hpriv ?_ rfl hx0 rfl
          show set_pte _ _ _ _ = set_pte (set_pte _ _ _ _) _ _ _
          rw [set_pte_set_pte]

theorem find_process_some {pid : Nat} {ps rest : List process} {next : process}
    (h : find_process pid ps = some (next, rest)) :
    next.pid = pid ∧ (∀ q, q ∈ next :: rest ↔ q ∈ ps) ∧ rest.length + 1 = ps.length ∧
      ∀ g : process → Nat, (ps.map g).sum = g next + (rest.map g).sum := by
  induction ps generalizing rest with
  | nil => simp [find_process] at h
  | cons p ps ih =>
    unfold find_process at h
    by_cases hp : p.pid = pid
    · simp only [hp, if_true, Option.some.injEq, Prod.mk.injEq] at h
      obtain ⟨rfl, rfl⟩ := h
      exact ⟨hp, fun q => Iff.rfl, rfl, fun g => by simp⟩
    · simp only [hp, if_false, Option.map_eq_some'] at h
      obtain ⟨⟨n, r⟩, hr, heq⟩ := h
      simp only [Prod.mk.injEq] at heq
      obtain ⟨rfl, rfl⟩ := heq
      obtain ⟨h1, h2, h3, h4⟩ := ih hr
      refine ⟨h1, ?_, by simp [h3], ?_⟩
      · intro q
        have := h2 q
        simp only [List.mem_cons] at this ⊢
        constructor
        · rintro (h | h | h)
          · exact Or.inr (this.mp (Or.inl h))
          · exact Or.inl h
          · exact Or.inr (this.mp (Or.inr h))
        · rintro (h | h)
          · exact Or.inr (Or.inl h)
          · rcases this.mpr h with h | h
            · exact Or.inl h
            · exact Or.inr (Or.inr h)
      · intro g
        have := h4 g
        simp only [List.map_cons, List.sum_cons]
        omega

theorem maps_frame_fork_child (f : Nat) (e : pte) :
    maps_frame f (fork_child_pte e) = maps_frame f e := by
  unfold fork_child_pte
  cases hv : e.valid <;> simp [maps_frame, hv, zero_pte]

theorem maps_frame_fork_parent (f : Nat) (e : pte) :
    maps_frame f (fork_parent_pte e) = maps_frame f e := by
  unfold fork_parent_pte
  split <;> simp [maps_frame]

theorem refs_fork_child (c : Config) (pt : pagetable) (f : Nat) :
    (fork_child_pagetable c pt).refs f = pt.refs f := by
  simp only [pagetable.refs, fork_child_pagetable, List.map_map]
  congr 1
  apply List.map_congr_left
  intro d _
  cases d with
  | none => exact dir_refs_dir_or_new c f none
  | some pd =>
    simp only [Function.comp, dir_refs, List.countP_map]
    congr 1
    funext e
    exact maps_frame_fork_child f e

theorem refs_fork_parent (pt : pagetable) (f : Nat) :
    (fork_parent_pagetable pt).refs f = pt.refs f := by
  simp only [pagetable.refs, fork_parent_pagetable, List.map_map]
  congr 1
  apply List.map_congr_left
  intro d _
  cases d with
  | none => rfl
  | some pd =>
    simp only [Function.comp, dir_refs, List.countP_map]
    congr 1
    funext e
    exact maps_frame_fork_parent f e

theorem count_valid_pfns_dir (g : Nat) (l : List pte) :
    ((l.filter (fun e => e.valid)).map (fun e => e.pfn)).count g = l.countP (maps_frame g) := by
  induction l with
  | nil => rfl
  | cons e es ih =>
    cases hv : e.valid with
    | false =>
      simp only [List.filter_cons, hv, List.countP_cons, maps_frame, Bool.false_and]
      simpa using ih
    | true =>
      simp only [List.filter_cons, hv, if_true, List.map_cons, List.count_cons,
        List.countP_cons, maps_frame, Bool.true_and, ih]

/-- The fork loop touches frame `g` once per valid parent entry that maps it. -/
theorem count_valid_pfns (pt : pagetable) (g : Nat) :
    (valid_pfns pt).count g = pt.refs g := by
  unfold valid_pfns pagetable.refs
  induction pt.pdes with
  | nil => rfl
  | cons d ds ih =>
    simp only [List.flatMap_cons, List.count_append, List.map_cons, List.sum_cons, ih]
    congr 1
    cases d with
    | none => rfl
    | some pd => exact count_valid_pfns_dir g pd.ptes

theorem inc_all_in_range {fs mc mc' : List Nat} (h : inc_all mc fs = some mc') :
    ∀ f ∈ fs, f < mc.length := by
  induction fs generalizing mc with
  | nil => intro f hf; cases hf
  | cons a fs ih =>
    unfold inc_all at h
    cases hm : mc[a]? with
    | none => simp [inc_mapcount, hm] at h
    | some m =>
      rw [inc_mapcount_eq hm] at h
      have hlt : a < mc.length := (List.getElem?_eq_some_iff.mp hm).1
      intro f hf
      rcases List.mem_cons.mp hf with rfl | hf
      · exact hlt
      · simpa using ih h f hf

theorem inc_all_getElem? {fs mc mc' : List Nat} (h : inc_all mc fs = some mc') :
    mc'.length = mc.length ∧ ∀ g m, mc[g]? = some m →
      mc'[g]? = some (if fs.count g = 0 then m else (m + fs.count g) % UINT_SIZE) := by
  obtain ⟨mc'', h1, h2, h3⟩ := inc_all_spec fs mc (inc_all_in_range h)
  rw [h] at h1
  obtain rfl := Option.some.inj h1
  exact ⟨h2, h3⟩

theorem dir_refs_le {c : Config} {f : Nat} {d : Option pte_directory}
    (h : dir_len_ok c d = true) : dir_refs f d ≤ c.NR_PTES_PER_PAGE := by
  cases d with
  | none => simp [dir_refs]
  | some pd =>
    simp only [dir_len_ok, beq_iff_eq] at h
    simp only [dir_refs]
    rw [← h]
    exact List.countP_le_length _

theorem sum_map_le_length_mul {α : Type} (g : α → Nat) (l : List α) (n : Nat)
    (h : ∀ a ∈ l, g a ≤ n) : (l.map g).sum ≤ l.length * n := by
  induction l with
  | nil => simp
  | cons a as ih =>
    have h1 := h a (List.mem_cons_self _ _)
    have h2 := ih (fun b hb => h b (List.mem_cons_of_mem _ hb))
    simp only [List.map_cons, List.sum_cons, List.length_cons, Nat.add_mul]
    omega

theorem pagetable.WF.refs_le {c : Config} {pt : pagetable} (h : pt.WF c) (f : Nat) :
    pt.refs f ≤ c.NR_PDES_PER_PAGE * c.NR_PTES_PER_PAGE := by
  have := sum_map_le_length_mul (dir_refs f) pt.pdes c.NR_PTES_PER_PAGE
    (fun d hd => dir_refs_le (h.2 d hd))
  rw [h.1] at this
  exact this

theorem VM.WF.total_refs_le {c : Config} {s : VM} (h : s.WF c) (f : Nat) :
    s.refs f ≤ (s.processes.length + 1) * (c.NR_PDES_PER_PAGE * c.NR_PTES_PER_PAGE) := by
  have h1 := h.1.refs_le f
  have h2 := sum_map_le_length_mul (fun p : process => p.pagetable.refs f) s.processes
    (c.NR_PDES_PER_PAGE * c.NR_PTES_PER_PAGE) (fun p hp => (h.2.1 p hp).refs_le f)
  simp only [VM.refs, Nat.add_mul, Nat.one_mul]
  omega

theorem pagetable.WF.fork_child {c : Config} {pt : pagetable} (h : pt.WF c) :
    (fork_child_pagetable c pt).WF c := by
  refine ⟨by simpa [fork_child_pagetable] using h.1, ?_⟩
  intro d hd
  simp only [fork_child_pagetable, List.mem_map] at hd
  obtain ⟨d0, hd0, rfl⟩ := hd
  cases d0 with
  | none => simp [dir_len_ok, zero_directory]
  | some pd =>
    have := h.2 _ hd0
    simpa [dir_len_ok] using this

theorem pagetable.WF.fork_parent {c : Config} {pt : pagetable} (h : pt.WF c) :
    (fork_parent_pagetable pt).WF c := by
  refine ⟨by simpa [fork_parent_pagetable] using h.1, ?_⟩
  intro d hd
  simp only [fork_parent_pagetable, List.mem_map] at hd
  obtain ⟨d0, hd0, rfl⟩ := hd
  cases d0 with
  | none => rfl
  | some pd =>
    have := h.2 _ hd0
    simpa [dir_len_ok] using this

theorem get_pte_fork_child_inv {c : Config} {pt : pagetable} {i j : Nat} {o : pte}
    (h : get_pte (fork_child_pagetable c pt) i j = some o) :
    o = zero_pte ∨ ∃ e, get_pte pt i j = some e ∧ o = fork_child_pte e := by
  simp only [get_pte, fork_child_pagetable, List.getElem?_map] at h
  cases hd : pt.pdes[i]? with
  | none => simp [hd] at h
  | some d =>
    cases d with
    | none =>
      simp only [hd, Option.map_some'] at h
      exact Or.inl (get_pte_zero_directory h)
    | some pd =>
      simp only [hd, Option.map_some', List.getElem?_map, Option.map_eq_some'] at h
      obtain ⟨e, he, rfl⟩ := h
      exact Or.inr ⟨e, by simp [get_pte, hd, he], rfl⟩

theorem entry_ok_fork_child {mc mc' : List Nat} {e : pte} (hlen : mc'.length = mc.length)
    (h : entry_ok mc e) : entry_ok mc' (fork_child_pte e) := by
  cases hv : e.valid with
  | false =>
    have : fork_child_pte e = zero_pte := by simp [fork_child_pte, hv]
    rw [this]
    exact entry_ok_zero_pte _
  | true =>
    obtain ⟨h1, h2, _⟩ := h.2 hv
    have hrw : (fork_child_pte e).rw = ACCESS_READ := by
      simp only [fork_child_pte, hv, if_true]
      split
      · rfl
      · rename_i hn
        by_contra hne
        exact hn ⟨h2, hne⟩
    refine ⟨fun hv0 => ?_, fun _ => ⟨?_, ?_, fun _ _ _ => hrw⟩⟩
    · simp [fork_child_pte, hv] at hv0
    · rw [hlen]; simpa [fork_child_pte, hv] using h1
    · rw [hrw]; decide

theorem entry_ok_fork_parent {mc mc' : List Nat} {e : pte} (hlen : mc'.length = mc.length)
    (h : entry_ok mc e) : entry_ok mc' (fork_parent_pte e) := by
  cases hv : e.valid with
  | false =>
    have : fork_parent_pte e = e := by simp [fork_parent_pte, hv]
    rw [this]
    exact ⟨h.1, fun hv0 => by rw [hv] at hv0; cases hv0⟩
  | true =>
    obtain ⟨h1, h2, _⟩ := h.2 hv
    have hrw : (fork_parent_pte e).rw = ACCESS_READ := by
      unfold fork_parent_pte
      split
      · rfl
      · rename_i hn
        by_contra hne
        exact hn ⟨hv, h2, hne⟩
    have hval : (fork_parent_pte e).valid = true := by
      unfold fork_parent_pte
      split <;> simp [hv]
    have hpfn : (fork_parent_pte e).pfn = e.pfn := by
      unfold fork_parent_pte
      split <;> rfl
    refine ⟨fun hv0 => ?_, fun _ => ⟨?_, ?_, fun _ _ _ => hrw⟩⟩
    · rw [hval] at hv0; cases hv0
    · rw [hlen, hpfn]; exact h1
    · rw [hrw]; decide

theorem switch_process_step {c : Config} {s s' : VM} {pid : Nat} (hwf : s.WF c)
    (h : switch_process c s pid = some s') :
    s'.WF c ∧ s.processes.length ≤ s'.processes.length ∧
      (Inv s → slots_bounded c s' → Inv s') := by
  obtain ⟨hwc, hwp, hwt, hwm⟩ := hwf
  cases hfp : find_process pid s.processes with
  | some nr =>
    obtain ⟨next, rest⟩ := nr
    rw [switch_process_found hfp] at h
    obtain rfl := Option.some.inj h
    obtain ⟨-, hmem, hlen, hsum⟩ := find_process_some hfp
    have hmem' : ∀ p, p ∈ next :: (rest ++ [s.current]) → p ∈ s.current :: s.processes := by
      intro p hp
      rcases List.mem_cons.mp hp with hp | hp
      · exact List.mem_cons_of_mem _ ((hmem p).mp (hp ▸ List.mem_cons_self _ _))
      · rcases List.mem_append.mp hp with hp | hp
        · exact List.mem_cons_of_mem _ ((hmem p).mp (List.mem_cons_of_mem _ hp))
        · rw [List.mem_singleton.mp hp]
          exact List.mem_cons_self _ _
    refine ⟨⟨?_, ?_, by simpa [flush_tlb] using hwt, hwm⟩, ?_, fun hinv _ => ?_⟩
    · exact hwp next ((hmem next).mp (List.mem_cons_self _ _))
    · intro p hp
      rcases List.mem_cons.mp (hmem' p (List.mem_cons_of_mem _ hp)) with rfl | hp'
      · exact hwc
      · exact hwp p hp'
    · simp only [List.length_append, List.length_singleton]; omega
    · obtain ⟨hA, hG, hE⟩ := hinv
      refine ⟨?_, hG, fun p hp => hE p (hmem' p hp)⟩
      intro f hf
      rw [hA f hf]
      have := hsum (fun p => p.pagetable.refs f)
      simp only [VM.refs, List.map_append, List.sum_append, List.map_cons, List.map_nil,
        List.sum_cons, List.sum_nil]
      simp only at this
      congr 1
      omega
  | none =>
    cases hinc : inc_all s.mapcounts (valid_pfns s.current.pagetable) with
    | none => simp [switch_process, hfp, hinc] at h
    | some mc =>
      rw [switch_process_fork hfp hinc] at h
      obtain rfl := Option.some.inj h
      obtain ⟨hlen, hspec⟩ := inc_all_getElem? hinc
      have hwf' : VM.WF c
          { current := { pid := pid, pagetable := fork_child_pagetable c s.current.pagetable }
            processes := s.processes ++
              [{ s.current with pagetable := fork_parent_pagetable s.current.pagetable }]
            tlb := flush_tlb s.tlb
            mapcounts := mc } := by
        refine ⟨hwc.fork_child, ?_, by simpa [flush_tlb] using hwt, by rw [hlen]; exact hwm⟩
        intro p hp
        rcases List.mem_append.mp hp with hp | hp
        · exact hwp p hp
        · rw [List.mem_singleton.mp hp]
          exact hwc.fork_parent
      refine ⟨hwf', by simp, fun hinv hbound => ?_⟩
      obtain ⟨hA, hG, hE⟩ := hinv
      have hrefs : ∀ f, VM.refs
          { current := { pid := pid, pagetable := fork_child_pagetable c s.current.pagetable }
            processes := s.processes ++
              [{ s.current with pagetable := fork_parent_pagetable s.current.pagetable }]
            tlb := flush_tlb s.tlb
            mapcounts := mc } f = s.refs f + s.current.pagetable.refs f := by
        intro f
        simp only [VM.refs, List.map_append, List.sum_append, List.map_cons, List.map_nil,
          List.sum_cons, List.sum_nil, refs_fork_child, refs_fork_parent]
        omega
      have hnew : ∀ f, f < s.mapcounts.length →
          mc[f]? = some (s.refs f + s.current.pagetable.refs f) := by
        intro f hf
        rw [hspec f _ (hA f hf), count_valid_pfns]
        congr 1
        split
        · omega
        · apply Nat.mod_eq_of_lt
          have h1 := hwf'.total_refs_le f
          rw [hrefs f] at h1
          unfold slots_bounded at hbound
          omega
      refine ⟨?_, ?_, ?_⟩
      · intro f hf
        have hf' : f < s.mapcounts.length := by rw [← hlen]; exact hf
        show mc[f]? = _
        rw [hnew f hf', hrefs f]
      · intro m hm
        obtain ⟨g, hg⟩ := List.mem_iff_getElem?.mp hm
        have hg' : g < s.mapcounts.length := by
          rw [← hlen]; exact (List.getElem?_eq_some_iff.mp hg).1
        have hold : s.mapcounts[g]? = some s.mapcounts[g] := List.getElem?_eq_getElem hg'
        rw [hspec g _ hold] at hg
        have hlt := hG _ (List.mem_iff_getElem?.mpr ⟨g, hold⟩)
        have := Option.some.inj hg
        split at this
        · omega
        · rw [← this]
          exact Nat.mod_lt _ (by decide)
      · intro p hp i j o ho
        rcases List.mem_cons.mp hp with rfl | hp
        · rcases get_pte_fork_child_inv ho with rfl | ⟨e, he, rfl⟩
          · exact entry_ok_zero_pte _
          · exact entry_ok_fork_child hlen (hE _ (List.mem_cons_self _ _) i j e he)
        · rcases List.mem_append.mp hp with hp | hp
          · have hok := hE p (List.mem_cons_of_mem _ hp) i j o ho
            refine ⟨hok.1, fun hv => ?_⟩
            obtain ⟨h1, h2, h3⟩ := hok.2 hv
            refine ⟨by rw [hlen]; exact h1, h2, fun m' hm' h2m => ?_⟩
            rw [hnew o.pfn h1] at hm'
            have hm'' := Option.some.inj hm'
            have hAo := hA o.pfn h1
            by_cases hk : s.current.pagetable.refs o.pfn = 0
            · exact h3 _ hAo (by omega)
            · have hq := refs_pos_of_entry ho ((maps_frame_valid hv).mpr rfl)
              obtain ⟨n, hn⟩ := List.mem_iff_getElem?.mp hp
              have hs := le_sum_map_of_getElem? (fun q : process => q.pagetable.refs o.pfn)
                s.processes n p hn
              simp only at hs
              refine h3 _ hAo ?_
              simp only [VM.refs]
              omega
          · rw [List.mem_singleton.mp hp] at ho
            rw [get_pte_fork_parent] at ho
            obtain ⟨e, he, rfl⟩ := Option.map_eq_some'.mp ho
            exact entry_ok_fork_parent hlen (hE _ (List.mem_cons_self _ _) i j e he)

theorem init_WF (c : Config) (pid : Nat) : (init c pid).WF c := by
  refine ⟨⟨by simp [init], ?_⟩, by simp [init], by simp [init], by simp [init]⟩
  intro d hd
  simp only [init] at hd
  rw [List.eq_of_mem_replicate hd]
  rfl

theorem init_Inv (c : Config) (pid : Nat) : Inv (init c pid) := by
  refine ⟨?_, ?_, ?_⟩
  · intro f hf
    have hf' : f < c.NR_PAGEFRAMES := by simpa [init] using hf
    have hz : (init c pid).refs f = 0 := by
      simp only [VM.refs, init, pagetable.refs, List.map_nil, List.sum_nil, List.map_replicate,
        dir_refs, List.sum_replicate]
      simp
    rw [hz]
    simp [init, List.getElem?_replicate, hf']
  · intro m hm
    simp only [init] at hm
    rw [List.eq_of_mem_replicate hm]
    decide
  · intro p hp i j e he
    simp only [init, List.mem_cons, List.not_mem_nil, or_false] at hp
    subst hp
    simp only [get_pte, List.getElem?_replicate] at he
    split at he
    · rename_i pd hpd
      split at hpd <;> simp at hpd
    · cases he

/-- Every state reached without write-only allocations and without a
copy-on-write fault under exhaustion is well formed, and satisfies the paging
invariant as long as its page-table slots number fewer than `2 ^ 32`. -/
theorem reachable_Inv (c : Config) (s : VM)
    (h : Reachable c (fun rw => rw = ACCESS_READ ∨ rw = 3) (cow_serviceable c) s) :
    s.WF c ∧ (slots_bounded c s → Inv s) := by
  induction h with
  | start pid => exact ⟨init_WF c pid, fun _ => init_Inv c pid⟩
  | step s s' _ hstep ih =>
    obtain ⟨hwf, hinv⟩ := ih
    cases hstep with
    | alloc vpn rw r hr hun hperm halloc =>
      have hrw : rw ≠ ACCESS_WRITE := by
        rcases hperm with h | h <;> rw [h] <;> decide
      obtain ⟨h1, h2, h3⟩ := alloc_page_step hwf hr hun hrw halloc
      exact ⟨h1, fun hb => h3 (hinv (by unfold slots_bounded at hb ⊢; rw [← h2]; exact hb))⟩
    | free vpn hmap hfree =>
      obtain ⟨h1, h2, h3⟩ := free_page_step hwf hmap hfree
      exact ⟨h1, fun hb => h3 (hinv (by unfold slots_bounded at hb ⊢; rw [← h2]; exact hb))⟩
    | fault vpn rw b _ hserv hfault =>
      obtain ⟨h1, h2, h3⟩ := handle_page_fault_step hwf hserv hfault
      exact ⟨h1, fun hb => h3 (hinv (by unfold slots_bounded at hb ⊢; rw [← h2]; exact hb))⟩
    | switch pid hsw =>
      obtain ⟨h1, h2, h3⟩ := switch_process_step hwf hsw
      refine ⟨h1, fun hb => h3 (hinv ?_) hb⟩
      unfold slots_bounded at hb ⊢
      have : (s.processes.length + 1) * (c.NR_PDES_PER_PAGE * c.NR_PTES_PER_PAGE)
          ≤ (s'.processes.length + 1) * (c.NR_PDES_PER_PAGE * c.NR_PTES_PER_PAGE) :=
        Nat.mul_le_mul_right _ (by omega)
      omega

/-- Every frame the fork loop touches is the frame of a valid entry. -/
theorem mem_valid_pfns {pt : pagetable} {f : Nat} (h : f ∈ valid_pfns pt) :
    ∃ i j e, get_pte pt i j = some e ∧ e.valid = true ∧ e.pfn = f := by
  simp only [valid_pfns, List.mem_flatMap] at h
  obtain ⟨d, hd, hf⟩ := h
  cases d with
  | none => simp at hf
  | some pd =>
    simp only [List.mem_map, List.mem_filter] at hf
    obtain ⟨e, ⟨he, hv⟩, rfl⟩ := hf
    obtain ⟨i, hi⟩ := List.mem_iff_getElem?.mp hd
    obtain ⟨j, hj⟩ := List.mem_iff_getElem?.mp he
    exact ⟨i, j, e, by simp [get_pte, hi, hj], hv, rfl⟩

/-- The fork path of `switch_process` returns a state when no waiting process
has the pid and every frame the fork loop increments is a frame of the frame
table. -/
theorem switch_process_fork_some (c : Config) {s : VM} {pid : Nat}
    (hpid : ∀ p ∈ s.processes, p.pid ≠ pid)
    (hpfn : ∀ f ∈ valid_pfns s.current.pagetable, f < s.mapcounts.length) :
    ∃ mc, inc_all s.mapcounts (valid_pfns s.current.pagetable) = some mc ∧
      switch_process c s pid = some
        { current := { pid := pid, pagetable := fork_child_pagetable c s.current.pagetable }
          processes := s.processes ++
            [{ s.current with pagetable := fork_parent_pagetable s.current.pagetable }]
          tlb := flush_tlb s.tlb
          mapcounts := mc } := by
  have hfp : find_process pid s.processes = none := find_process_eq_none.mpr hpid
  obtain ⟨mc, hmc, -, -⟩ := inc_all_spec (valid_pfns s.current.pagetable) s.mapcounts hpfn
  exact ⟨mc, hmc, switch_process_fork hfp hmc⟩

theorem mapped_fork_child (c : Config) (pt : pagetable) (vpn : Nat) :
    mapped c (fork_child_pagetable c pt) vpn = mapped c pt vpn := by
  unfold mapped lookup_pte
  cases h : get_pte pt (vpn / c.NR_PTES_PER_PAGE) (vpn % c.NR_PTES_PER_PAGE) with
  | some e =>
    rw [get_pte_fork_child h]
    cases hv : e.valid <;> simp [fork_child_pte, hv, zero_pte]
  | none =>
    cases h' : get_pte (fork_child_pagetable c pt) (vpn / c.NR_PTES_PER_PAGE)
        (vpn % c.NR_PTES_PER_PAGE) with
    | none => rfl
    | some o =>
      rcases get_pte_fork_child_inv h' with rfl | ⟨e, he, -⟩
      · rfl
      · rw [h] at he; cases he

theorem mapped_fork_parent (c : Config) (pt : pagetable) (vpn : Nat) :
    mapped c (fork_parent_pagetable pt) vpn = mapped c pt vpn := by
  unfold mapped lookup_pte
  rw [get_pte_fork_parent]
  cases h : get_pte pt (vpn / c.NR_PTES_PER_PAGE) (vpn % c.NR_PTES_PER_PAGE) with
  | none => rfl
  | some e =>
    simp only [Option.map_some']
    unfold fork_parent_pte
    split <;> simp_all

/-- For a valid parent entry the fork loop leaves the same record in the
parent slot and in the child slot. -/
theorem fork_child_eq_parent {e : pte} (hv : e.valid = true) :
    fork_child_pte e = fork_parent_pte e := by
  unfold fork_child_pte fork_parent_pte
  cases e with
  | mk valid rw pfn priv =>
    simp only at hv
    subst hv
    by_cases h : rw ≠ ACCESS_WRITE ∧ rw ≠ ACCESS_READ
    · simp [h]
    · simp [h]

theorem tlb_hit_invalidate (vpn rw : Nat) (t : tlb_entry) :
    tlb_hit vpn rw (if t.vpn = vpn then { t with valid := false } else t) = false := by
  by_cases h : t.vpn = vpn
  · simp [h, tlb_hit]
  · simp [h, tlb_hit]

/-- After the TLB loop of `free_page` no slot satisfies a lookup of the VPN. -/
theorem find?_tlb_invalidate (vpn rw : Nat) (tlb : List tlb_entry) :
    (tlb_invalidate vpn tlb).find? (tlb_hit vpn rw) = none := by
  rw [List.find?_eq_none]
  intro t ht
  simp only [tlb_invalidate, List.mem_map] at ht
  obtain ⟨t0, -, rfl⟩ := ht
  simp [tlb_hit_invalidate]

theorem getElem?_tlb_invalidate (vpn : Nat) (tlb : List tlb_entry) (k : Nat) :
    (tlb_invalidate vpn tlb)[k]? =
      (tlb[k]?).map (fun t => if t.vpn = vpn then { t with valid := false } else t) := by
  simp [tlb_invalidate]

theorem get_pte_ensure_dir_of_some {c : Config} {pt : pagetable} {i : Nat}
    {d : Option pte_directory} (hd : pt.pdes[i]? = some d) {i' j' : Nat} {o : pte}
    (h : get_pte pt i' j' = some o) :
    get_pte { pdes := pt.pdes.set i (some (dir_or_new c d)) } i' j' = some o := by
  have hi : i < pt.pdes.length := (List.getElem?_eq_some_iff.mp hd).1
  by_cases hii : i' = i
  · subst hii
    cases d with
    | none => simp [get_pte, hd] at h
    | some pd =>
      simp only [get_pte, hd] at h
      simp only [get_pte, List.getElem?_set_self hi, dir_or_new]
      exact h
  · rw [get_pte_set_dir_ne hii]
    exact h

/-- The first loop of `insert_tlb` succeeds exactly at the first valid slot
that holds the VPN, and rewrites that slot only. -/
theorem tlb_update_eq_some {vpn rw pfn : Nat} {l l' : List tlb_entry}
    (h : tlb_update vpn rw pfn l = some l') :
    ∃ k t, l[k]? = some t ∧ t.valid = true ∧ t.vpn = vpn ∧
      (∀ (k' : Nat) (t' : tlb_entry), k' < k → l[k']? = some t' →
        ¬(t'.valid = true ∧ t'.vpn = vpn)) ∧
      l' = l.set k { valid := true, rw := rw, vpn := vpn, pfn := pfn } := by
  induction l generalizing l' with
  | nil => simp [tlb_update] at h
  | cons a as ih =>
    unfold tlb_update at h
    by_cases ha : a.valid = true ∧ a.vpn = vpn
    · simp only [ha, and_self, if_true, Option.some.injEq] at h
      refine ⟨0, a, by simp, ha.1, ha.2, fun k' t' hk' => by omega, ?_⟩
      rw [← h]
      simp [ha.1]
    · simp only [ha, if_false, Option.map_eq_some'] at h
      obtain ⟨r, hr, rfl⟩ := h
      obtain ⟨k, t, hk, hv, hvpn, hmin, rfl⟩ := ih hr
      refine ⟨k + 1, t, by simpa using hk, hv, hvpn, ?_, by simp⟩
      intro k' t' hk' ht'
      cases k' with
      | zero =>
        simp only [List.getElem?_cons_zero, Option.some.injEq] at ht'
        subst ht'
        exact ha
      | succ n => exact hmin n t' (by omega) (by simpa using ht')

theorem tlb_update_eq_none {vpn rw pfn : Nat} {l : List tlb_entry} :
    tlb_update vpn rw pfn l = none ↔ ∀ t ∈ l, ¬(t.valid = true ∧ t.vpn = vpn) := by
  induction l with
  | nil => simp [tlb_update]
  | cons a as ih =>
    unfold tlb_update
    by_cases ha : a.valid = true ∧ a.vpn = vpn
    · rw [if_pos ha]
      constructor
      · intro h; cases h
      · intro h; exact absurd ha (h a (List.mem_cons_self _ _))
    · rw [if_neg ha, Option.map_eq_none', ih]
      constructor
      · intro h t ht
        rcases List.mem_cons.mp ht with rfl | ht
        · exact ha
        · exact h t ht
      · intro h t ht
        exact h t (List.mem_cons_of_mem _ ht)

/-- The second loop of `insert_tlb` writes the first invalid slot, if any. -/
theorem tlb_fill_of_invalid (vpn rw pfn : Nat) {l : List tlb_entry}
    (h : ∃ t ∈ l, t.valid = false) :
    ∃ k t, l[k]? = some t ∧ t.valid = false ∧
      (∀ (k' : Nat) (t' : tlb_entry), k' < k → l[k']? = some t' → t'.valid = true) ∧
      tlb_fill vpn rw pfn l = l.set k { valid := true, rw := rw, vpn := vpn, pfn := pfn } := by
  induction l with
  | nil => simp at h
  | cons a as ih =>
    unfold tlb_fill
    by_cases ha : a.valid = false
    · refine ⟨0, a, by simp, ha, fun k' t' hk' => by omega, ?_⟩
      simp [ha]
    · have hav : a.valid = true := by simpa using ha
      obtain ⟨t0, ht0, hv0⟩ := h
      have htail : ∃ t ∈ as, t.valid = false := by
        rcases List.mem_cons.mp ht0 with rfl | h'
        · exact absurd hv0 ha
        · exact ⟨t0, h', hv0⟩
      obtain ⟨k, t, hk, hv, hmin, heq⟩ := ih htail
      refine ⟨k + 1, t, by simpa using hk, hv, ?_, by simp [ha, heq]⟩
      intro k' t' hk' ht'
      cases k' with
      | zero =>
        simp only [List.getElem?_cons_zero, Option.some.injEq] at ht'
        subst ht'
        exact hav
      | succ n => exact hmin n t' (by omega) (by simpa using ht')

theorem tlb_fill_of_full {vpn rw pfn : Nat} {l : List tlb_entry}
    (h : ∀ t ∈ l, t.valid = true) : tlb_fill vpn rw pfn l = l := by
  induction l with
  | nil => rfl
  | cons a as ih =>
    unfold tlb_fill
    have ha := h a (List.mem_cons_self _ _)
    simp [ha, ih (fun t ht => h t (List.mem_cons_of_mem _ ht))]

/-- A scan finds the element written at index `k` when nothing before `k`
satisfies the test and the written element does. -/
theorem find?_set_first {α : Type} (p : α → Bool) (l : List α) (k : Nat) (a : α)
    (hk : k < l.length) (hp : p a = true)
    (hmin : ∀ (k' : Nat) (b : α), k' < k → l[k']? = some b → p b = false) :
    (l.set k a).find? p = some a := by
  induction l generalizing k with
  | nil => simp at hk
  | cons x xs ih =>
    cases k with
    | zero => simp [hp]
    | succ n =>
      have hx : p x = false := hmin 0 x (by omega) (by simp)
      simp only [List.set_cons_succ, List.find?_cons, hx]
      exact ih n (by simpa using hk) (fun k' b hk' hb => hmin (k' + 1) b (by omega) (by simpa using hb))

theorem tlb_hit_of_not_entry {vpn rw : Nat} {t : tlb_entry}
    (h : ¬(t.valid = true ∧ t.vpn = vpn)) : tlb_hit vpn rw t = false := by
  unfold tlb_hit
  by_cases hv : t.valid = true
  · have : t.vpn ≠ vpn := fun hvpn => h ⟨hv, hvpn⟩
    simp [hv, this]
  · simp [hv]

/-- Index form of `insert_tlb`: the slot it writes, if any. -/
theorem insert_tlb_cases (s : VM) (vpn rw pfn : Nat) :
    (∃ k t, s.tlb[k]? = some t ∧ t.valid = true ∧ t.vpn = vpn ∧
        (∀ (k' : Nat) (t' : tlb_entry), k' < k → s.tlb[k']? = some t' →
          ¬(t'.valid = true ∧ t'.vpn = vpn)) ∧
        insert_tlb s vpn rw pfn = { s with tlb := s.tlb.set k ⟨true, rw, vpn, pfn⟩ }) ∨
    ((∀ t ∈ s.tlb, ¬(t.valid = true ∧ t.vpn = vpn)) ∧
      ∃ k t, s.tlb[k]? = some t ∧ t.valid = false ∧
        (∀ (k' : Nat) (t' : tlb_entry), k' < k → s.tlb[k']? = some t' → t'.valid = true) ∧
        insert_tlb s vpn rw pfn = { s with tlb := s.tlb.set k ⟨true, rw, vpn, pfn⟩ }) ∨
    ((∀ t ∈ s.tlb, ¬(t.valid = true ∧ t.vpn = vpn)) ∧ (∀ t ∈ s.tlb, t.valid = true) ∧
      insert_tlb s vpn rw pfn = s) := by
  cases hu : tlb_update vpn rw pfn s.tlb with
  | some l' =>
    obtain ⟨k, t, hk, hv, hvpn, hmin, rfl⟩ := tlb_update_eq_some hu
    exact Or.inl ⟨k, t, hk, hv, hvpn, hmin, by simp [insert_tlb, hu]⟩
  | none =>
    have hno := tlb_update_eq_none.mp hu
    by_cases hinv : ∃ t ∈ s.tlb, t.valid = false
    · obtain ⟨k, t, hk, hv, hmin, heq⟩ := tlb_fill_of_invalid vpn rw pfn hinv
      exact Or.inr (Or.inl ⟨hno, k, t, hk, hv, hmin, by simp [insert_tlb, hu, heq]⟩)
    · have hfull : ∀ t ∈ s.tlb, t.valid = true := by
        intro t ht
        by_contra hc
        exact hinv ⟨t, ht, by simpa using hc⟩
      exact Or.inr (Or.inr ⟨hno, hfull, by simp [insert_tlb, hu, tlb_fill_of_full hfull]⟩)

theorem getElem?_set_cases {α : Type} {l : List α} {k i : Nat} {a b : α}
    (h : (l.set k a)[i]? = some b) : (i = k ∧ b = a) ∨ (i ≠ k ∧ l[i]? = some b) := by
  by_cases hik : i = k
  · subst hik
    have hlt : i < l.length := by
      have := (List.getElem?_eq_some_iff.mp h).1
      simpa using this
    rw [List.getElem?_set_self hlt] at h
    exact Or.inl ⟨rfl, (Option.some.inj h).symm⟩
  · rw [List.getElem?_set_ne (Ne.symm hik)] at h
    exact Or.inr ⟨hik, h⟩

/-- A lookup that is compatible with the inserted permission hits the
inserted frame, provided `insert_tlb` had a slot to write. -/
theorem lookup_tlb_insert_tlb (s : VM) (vpn q rw pfn : Nat)
    (hpre : (∃ t ∈ s.tlb, t.valid = true ∧ t.vpn = vpn) ∨ (∃ t ∈ s.tlb, t.valid = false))
    (hcompat : tlb_hit vpn rw { valid := true, rw := q, vpn := vpn, pfn := pfn } = true) :
    lookup_tlb (insert_tlb s vpn q pfn) vpn rw = some pfn := by
  rcases insert_tlb_cases s vpn q pfn with
    ⟨k, t, hk, -, -, hmin, heq⟩ | ⟨hno, k, t, hk, -, hmin, heq⟩ | ⟨hno, hfull, -⟩
  · rw [heq]
    have hklt : k < s.tlb.length := (List.getElem?_eq_some_iff.mp hk).1
    simp only [lookup_tlb]
    rw [find?_set_first _ _ _ _ hklt hcompat
      (fun k' b hk' hb => tlb_hit_of_not_entry (hmin k' b hk' hb))]
    rfl
  · rw [heq]
    have hklt : k < s.tlb.length := (List.getElem?_eq_some_iff.mp hk).1
    simp only [lookup_tlb]
    rw [find?_set_first _ _ _ _ hklt hcompat
      (fun k' b _ hb => tlb_hit_of_not_entry (hno b (List.mem_iff_getElem?.mpr ⟨k', hb⟩)))]
    rfl
  · exfalso
    rcases hpre with ⟨t, ht, hv⟩ | ⟨t, ht, hv⟩
    · exact hno t ht hv
    · rw [hfull t ht] at hv; cases hv

/-- `insert_tlb` keeps the TLB free of duplicates. -/
theorem tlb_unique_insert_tlb (s : VM) (vpn rw pfn : Nat) (hu : tlb_unique s.tlb) :
    tlb_unique (insert_tlb s vpn rw pfn).tlb := by
  have key : ∀ (k : Nat),
      (∀ (j : Nat) (b : tlb_entry), j ≠ k → s.tlb[j]? = some b → b.valid = true →
        b.vpn ≠ vpn) →
      tlb_unique (s.tlb.set k { valid := true, rw := rw, vpn := vpn, pfn := pfn }) := by
    intro k hother i j a b hi hj hav hbv hvpn
    rcases getElem?_set_cases hi with ⟨rfl, rfl⟩ | ⟨hik, hi'⟩
    · rcases getElem?_set_cases hj with ⟨rfl, -⟩ | ⟨hjk, hj'⟩
      · rfl
      · exact absurd hvpn.symm (hother j b hjk hj' hbv)
    · rcases getElem?_set_cases hj with ⟨rfl, rfl⟩ | ⟨hjk, hj'⟩
      · exact absurd hvpn (hother i a hik hi' hav)
      · exact hu i j a b hi' hj' hav hbv hvpn
  rcases insert_tlb_cases s vpn rw pfn with
    ⟨k, t, hk, hv, hvpn, -, heq⟩ | ⟨hno, k, t, hk, -, -, heq⟩ | ⟨-, -, heq⟩
  · rw [heq]
    apply key k
    intro j b hjk hj hbv hbvpn
    exact hjk (hu j k b t hj hk hbv hv (hbvpn.trans hvpn.symm))
  · rw [heq]
    apply key k
    intro j b _ hj hbv hbvpn
    exact hno b (List.mem_iff_getElem?.mpr ⟨j, hj⟩) ⟨hbv, hbvpn⟩
  · rw [heq]; exact hu

/-- When a valid entry for the VPN exists in a duplicate-free TLB,
`insert_tlb` rewrites that slot. -/
theorem insert_tlb_existing (s : VM) (vpn rw pfn : Nat) (hu : tlb_unique s.tlb)
    {k : Nat} {t : tlb_entry} (hk : s.tlb[k]? = some t) (hv : t.valid = true)
    (hvpn : t.vpn = vpn) :
    insert_tlb s vpn rw pfn =
      { s with tlb := s.tlb.set k { valid := true, rw := rw, vpn := vpn, pfn := pfn } } := by
  rcases insert_tlb_cases s vpn rw pfn with
    ⟨k0, t0, hk0, hv0, hvpn0, -, heq⟩ | ⟨hno, -⟩ | ⟨hno, -⟩
  · have : k0 = k := hu k0 k t0 t hk0 hk hv0 hv (hvpn0.trans hvpn.symm)
    subst this
    exact heq
  · exact absurd ⟨hv, hvpn⟩ (hno t (List.mem_iff_getElem?.mpr ⟨k, hk⟩))
  · exact absurd ⟨hv, hvpn⟩ (hno t (List.mem_iff_getElem?.mpr ⟨k, hk⟩))

theorem tlb_unique_of_all_invalid {l : List tlb_entry} (h : ∀ t ∈ l, t.valid = false) :
    tlb_unique l := by
  intro i j a b hi _ hav _ _
  have := h a (List.mem_iff_getElem?.mpr ⟨i, hi⟩)
  rw [this] at hav
  cases hav

theorem tlb_unique_full_cached_state : tlb_unique full_cached_state.tlb := by
  intro i j a b hi hj hav hbv hvpn
  have hi4 : i < 4 := (List.getElem?_eq_some_iff.mp hi).1
  have hj4 : j < 4 := (List.getElem?_eq_some_iff.mp hj).1
  interval_cases i <;> interval_cases j <;>
    simp [full_cached_state, zero_tlb_entry] at hi hj <;>
    subst hi <;> subst hj <;> simp_all

/-- The search loop splits the waiting list at the first process with the pid. -/
theorem find_process_split {pid : Nat} {ps rest : List process} {next : process}
    (h : find_process pid ps = some (next, rest)) :
    ∃ pre post, ps = pre ++ next :: post ∧ rest = pre ++ post ∧ next.pid = pid ∧
      ∀ q ∈ pre, q.pid ≠ pid := by
  induction ps generalizing rest with
  | nil => simp [find_process] at h
  | cons p ps ih =>
    unfold find_process at h
    by_cases hp : p.pid = pid
    · rw [if_pos hp] at h
      simp only [Option.some.injEq, Prod.mk.injEq] at h
      obtain ⟨rfl, rfl⟩ := h
      exact ⟨[], ps, rfl, rfl, hp, fun q hq => by cases hq⟩
    · rw [if_neg hp, Option.map_eq_some'] at h
      obtain ⟨⟨n, r⟩, hr, heq⟩ := h
      simp only [Prod.mk.injEq] at heq
      obtain ⟨rfl, rfl⟩ := heq
      obtain ⟨pre, post, h1, h2, h3, h4⟩ := ih hr
      refine ⟨p :: pre, post, by rw [h1]; rfl, by rw [h2]; rfl, h3, ?_⟩
      intro q hq
      rcases List.mem_cons.mp hq with rfl | hq
      · exact hp
      · exact h4 q hq

theorem find_process_of_mem {pid : Nat} {ps : List process}
    (h : ∃ q ∈ ps, q.pid = pid) : ∃ next rest, find_process pid ps = some (next, rest) := by
  cases hf : find_process pid ps with
  | some nr => exact ⟨nr.1, nr.2, rfl⟩
  | none =>
    obtain ⟨q, hq, hpid⟩ := h
    exact absurd hpid (find_process_eq_none.mp hf q hq)

theorem find_process_append_last {pid : Nat} {l : List process} {p : process}
    (hl : ∀ q ∈ l, q.pid ≠ pid) (hp : p.pid = pid) :
    find_process pid (l ++ [p]) = some (p, l) := by
  induction l with
  | nil => simp [find_process, hp]
  | cons a as ih =>
    have ha : a.pid ≠ pid := hl a (List.mem_cons_self _ _)
    have := ih (fun q hq => hl q (List.mem_cons_of_mem _ hq))
    simp [find_process, ha, this]

/-- After a fork every frame has gained the references of the child, which
are as many as the parent's. -/
theorem refs_after_fork (c : Config) (s : VM) (pid : Nat) (mc : List Nat) (f : Nat) :
    VM.refs
      { current := { pid := pid, pagetable := fork_child_pagetable c s.current.pagetable }
        processes := s.processes ++
          [{ s.current with pagetable := fork_parent_pagetable s.current.pagetable }]
        tlb := flush_tlb s.tlb
        mapcounts := mc } f = s.refs f + s.current.pagetable.refs f := by
  simp only [VM.refs, List.map_append, List.sum_append, List.map_cons, List.map_nil,
    List.sum_cons, List.sum_nil, refs_fork_child, refs_fork_parent]
  omega

theorem pids_nodup_found {s : VM} {next : process} {pre post : List process}
    (hs : s.processes = pre ++ next :: post) (hnd : (pids s).Nodup) (tlb : List tlb_entry)
    (mc : List Nat) :
    (pids { current := next, processes := pre ++ post ++ [s.current], tlb := tlb,
            mapcounts := mc }).Nodup := by
  have hperm : List.Perm (next :: (pre ++ post ++ [s.current]))
      (s.current :: (pre ++ next :: post)) := by
    have h1 : List.Perm (pre ++ post ++ [s.current]) (s.current :: (pre ++ post)) :=
      List.perm_append_singleton _ _
    have h2 : List.Perm (next :: s.current :: (pre ++ post))
        (s.current :: next :: (pre ++ post)) := List.Perm.swap _ _ _
    have h3 : List.Perm (pre ++ next :: post) (next :: (pre ++ post)) := List.perm_middle
    exact ((List.Perm.cons next h1).trans h2).trans (List.Perm.cons s.current h3.symm)
  have hp := hperm.map (fun p : process => p.pid)
  unfold pids at hnd ⊢
  rw [hs] at hnd
  exact hp.nodup_iff.mpr hnd

theorem pids_nodup_fork {s : VM} {pid : Nat} (hnd : (pids s).Nodup)
    (hpid : ∀ p ∈ s.processes, p.pid ≠ pid) (hne : pid ≠ s.current.pid)
    (child_pt parent_pt : pagetable) (tlb : List tlb_entry) (mc : List Nat) :
    (pids { current := { pid := pid, pagetable := child_pt }
            processes := s.processes ++ [{ s.current with pagetable := parent_pt }]
            tlb := tlb
            mapcounts := mc }).Nodup := by
  unfold pids at hnd ⊢
  simp only [List.map_cons, List.map_append, List.map_nil] at hnd ⊢
  have hperm : List.Perm (s.processes.map (fun p => p.pid) ++ [s.current.pid])
      (s.current.pid :: s.processes.map (fun p => p.pid)) := List.perm_append_singleton _ _
  rw [List.nodup_cons]
  refine ⟨?_, hperm.nodup_iff.mpr hnd⟩
  intro hmem
  rcases List.mem_append.mp hmem with h | h
  · obtain ⟨q, hq, hqp⟩ := List.mem_map.mp h
    exact hpid q hq hqp
  · exact hne (List.mem_singleton.mp h)

/-- The first loop of `insert_tlb` rewrites slot `k` to the same record when
slot `k` already holds the inserted record and no earlier slot is a valid entry
for the VPN. -/
theorem tlb_update_set_first (vpn rw pfn : Nat) (l : List tlb_entry) (k : Nat)
    (hk : k < l.length)
    (hmin : ∀ (k' : Nat) (t' : tlb_entry), k' < k → l[k']? = some t' →
      ¬(t'.valid = true ∧ t'.vpn = vpn)) :
    tlb_update vpn rw pfn (l.set k { valid := true, rw := rw, vpn := vpn, pfn := pfn })
      = some (l.set k { valid := true, rw := rw, vpn := vpn, pfn := pfn }) := by
  induction l generalizing k with
  | nil => simp at hk
  | cons a as ih =>
    cases k with
    | zero => simp [tlb_update]
    | succ n =>
      have ha : ¬(a.valid = true ∧ a.vpn = vpn) := hmin 0 a (by omega) (by simp)
      have := ih n (by simpa using hk)
        (fun k' t' hk' ht' => hmin (k' + 1) t' (by omega) (by simpa using ht'))
      simp only [List.set_cons_succ, tlb_update, ha, if_false, this, Option.map_some']

/-- Two different VPNs differ in their directory index or their entry index. -/
theorem slot_ne_of_vpn_ne (n : Nat) {v vpn : Nat} (h : v ≠ vpn) :
    v / n ≠ vpn / n ∨ v % n ≠ vpn % n := by
  by_contra hcon
  push_neg at hcon
  obtain ⟨h1, h2⟩ := hcon
  have e1 := Nat.div_add_mod v n
  have e2 := Nat.div_add_mod vpn n
  rw [h1, h2] at e1
  exact h (by omega)

/-- A slot agrees with a page table exactly when, if valid, the PTE of its VPN
is valid with the cached frame number. -/
theorem tlb_entry_coherent_iff (c : Config) (pt : pagetable) (t : tlb_entry) :
    tlb_entry_coherent c pt t = true ↔
      (t.valid = true → ∃ e, lookup_pte c pt t.vpn = some e ∧ e.valid = true ∧ e.pfn = t.pfn) := by
  unfold tlb_entry_coherent
  cases hv : t.valid
  · simp
  · cases hl : lookup_pte c pt t.vpn <;> simp

/-- A slot that agrees with a page table agrees with every page table holding
the same PTE for the slot's VPN. -/
theorem tlb_entry_coherent_congr {c : Config} {pt pt' : pagetable} {t : tlb_entry}
    (h : tlb_entry_coherent c pt t = true)
    (he : lookup_pte c pt' t.vpn = lookup_pte c pt t.vpn) :
    tlb_entry_coherent c pt' t = true := by
  unfold tlb_entry_coherent at h ⊢
  rw [he]; exact h

/-- A valid coherent slot caches a mapped VPN. -/
theorem mapped_of_coherent {c : Config} {pt : pagetable} {t : tlb_entry}
    (h : tlb_entry_coherent c pt t = true) (hv : t.valid = true) :
    mapped c pt t.vpn = true := by
  obtain ⟨e, he, hev, -⟩ := (tlb_entry_coherent_iff c pt t).mp h hv
  simp [mapped, he, hev]

/-- Function `alloc_page` keeps the PTE of every mapped VPN other than its
argument. -/
theorem lookup_pte_alloc_page_other {c : Config} {s s' : VM} {vpn rw x v : Nat}
    (h : alloc_page c s vpn rw = some (s', x)) (hv : v ≠ vpn)
    (hm : mapped c s.current.pagetable v = true) :
    lookup_pte c s'.current.pagetable v = lookup_pte c s.current.pagetable v := by
  have hne := slot_ne_of_vpn_ne c.NR_PTES_PER_PAGE hv
  obtain ⟨e, he⟩ : ∃ e, lookup_pte c s.current.pagetable v = some e := by
    unfold mapped at hm
    cases hl : lookup_pte c s.current.pagetable v with
    | none => simp [hl] at hm
    | some e => exact ⟨e, rfl⟩
  rw [he]
  unfold alloc_page at h
  simp only at h
  split at h
  · simp at h
  · rename_i d hd
    have hkeep := get_pte_ensure_dir_of_some (c := c) hd he
    split at h
    · split at h
      · split at h
        · simp only [Option.some.injEq, Prod.mk.injEq] at h
          obtain ⟨rfl, -⟩ := h
          show get_pte _ _ _ = some e
          simp only [VM.set_pagetable]
          rw [← set_pte_ensure_dir hd, get_pte_set_pte_ne hne]
          exact hkeep
        · simp at h
      · simp only [Option.some.injEq, Prod.mk.injEq] at h
        obtain ⟨rfl, -⟩ := h
        exact hkeep
    · simp at h

/-- Function `free_page` keeps the PTE of every VPN other than its argument. -/
theorem lookup_pte_free_page_other {c : Config} {s s' : VM} {vpn v : Nat}
    (h : free_page c s vpn = some s') (hv : v ≠ vpn) :
    lookup_pte c s'.current.pagetable v = lookup_pte c s.current.pagetable v := by
  have hne := slot_ne_of_vpn_ne c.NR_PTES_PER_PAGE hv
  unfold free_page at h
  simp only at h
  split at h
  · simp at h
  · split at h
    · simp at h
    · simp only [Option.some.injEq] at h
      subst h
      show get_pte _ _ _ = get_pte _ _ _
      simp only [VM.set_pagetable]
      exact get_pte_set_pte_ne hne

/-- Function `handle_page_fault` never writes the TLB, keeps the PTE of every
VPN other than its argument, and changes nothing when it returns `false`. -/
theorem handle_page_fault_frame {c : Config} {s s' : VM} {vpn rw : Nat} {b : Bool}
    (h : handle_page_fault c s vpn rw = some (s', b)) :
    s'.tlb = s.tlb ∧ (b = false → s' = s) ∧
    ∀ v, v ≠ vpn →
      lookup_pte c s'.current.pagetable v = lookup_pte c s.current.pagetable v := by
  unfold handle_page_fault at h
  simp only at h
  split at h
  · split at h
    · simp at h
    · split at h
      · split at h
        · simp at h
        · split at h
          · split at h
            · simp only [Option.some.injEq, Prod.mk.injEq] at h
              obtain ⟨rfl, rfl⟩ := h
              refine ⟨rfl, by simp, fun v hv => ?_⟩
              show get_pte _ _ _ = get_pte _ _ _
              simp only [VM.set_pagetable]
              exact get_pte_set_pte_ne (slot_ne_of_vpn_ne c.NR_PTES_PER_PAGE hv)
            · simp at h
          · simp only [Option.some.injEq, Prod.mk.injEq] at h
            obtain ⟨rfl, rfl⟩ := h
            refine ⟨rfl, by simp, fun v hv => ?_⟩
            show get_pte _ _ _ = get_pte _ _ _
            simp only [VM.set_pagetable]
            exact get_pte_set_pte_ne (slot_ne_of_vpn_ne c.NR_PTES_PER_PAGE hv)
      · simp only [Option.some.injEq, Prod.mk.injEq] at h
        obtain ⟨rfl, rfl⟩ := h
        exact ⟨rfl, fun _ => rfl, fun _ _ => rfl⟩
  · simp only [Option.some.injEq, Prod.mk.injEq] at h
    obtain ⟨rfl, rfl⟩ := h
    exact ⟨rfl, fun _ => rfl, fun _ _ => rfl⟩

/-- Rewriting the TLB entry of `vpn` with the frame its PTE holds makes a TLB
coherent whose entries for the other VPNs are. -/
theorem tlb_coherent_insert_tlb {c : Config} {s : VM} {vpn : Nat} {e : pte} (q : Nat)
    (hu : tlb_unique s.tlb)
    (ho : ∀ t ∈ s.tlb, t.vpn ≠ vpn → tlb_entry_coherent c s.current.pagetable t = true)
    (he : lookup_pte c s.current.pagetable vpn = some e) (hev : e.valid = true) :
    tlb_coherent c (insert_tlb s vpn q e.pfn) := by
  have hnew : tlb_entry_coherent c s.current.pagetable ⟨true, q, vpn, e.pfn⟩ = true := by
    simp [tlb_entry_coherent, he, hev]
  intro t ht
  rcases insert_tlb_cases s vpn q e.pfn with
    ⟨k, t0, hk, hv0, hvpn0, -, heq⟩ | ⟨hno, k, t0, hk, -, -, heq⟩ | ⟨hno, -, heq⟩
  · rw [heq] at ht ⊢
    obtain ⟨i, hi⟩ := List.mem_iff_getElem?.mp ht
    rcases getElem?_set_cases hi with ⟨-, rfl⟩ | ⟨hik, hti⟩
    · exact hnew
    · cases hv : t.valid
      · simp [tlb_entry_coherent, hv]
      · refine ho t (List.mem_iff_getElem?.mpr ⟨i, hti⟩) (fun hvpn => hik ?_)
        exact hu i k t t0 hti hk hv hv0 (by rw [hvpn, hvpn0])
  · rw [heq] at ht ⊢
    obtain ⟨i, hi⟩ := List.mem_iff_getElem?.mp ht
    rcases getElem?_set_cases hi with ⟨-, rfl⟩ | ⟨-, hti⟩
    · exact hnew
    · have hmem : t ∈ s.tlb := List.mem_iff_getElem?.mpr ⟨i, hti⟩
      cases hv : t.valid
      · simp [tlb_entry_coherent, hv]
      · exact ho t hmem (fun hvpn => hno t hmem ⟨hv, hvpn⟩)
  · rw [heq] at ht ⊢
    cases hv : t.valid
    · simp [tlb_entry_coherent, hv]
    · exact ho t ht (fun hvpn => hno t ht ⟨hv, hvpn⟩)

/-- Every slot of a flushed TLB is the zeroed slot. -/
theorem flush_tlb_all_invalid (tlb : List tlb_entry) :
    ∀ t ∈ flush_tlb tlb, t = zero_tlb_entry := by
  intro t ht
  simp only [flush_tlb, List.mem_map] at ht
  obtain ⟨_, -, rfl⟩ := ht
  rfl

/-- Function `lookup_tlb` misses on a TLB without a valid slot. -/
theorem lookup_tlb_of_all_invalid {s : VM} (h : ∀ t ∈ s.tlb, t.valid = false)
    (vpn rw : Nat) : lookup_tlb s vpn rw = none := by
  simp only [lookup_tlb, Option.map_eq_none', List.find?_eq_none]
  intro t ht
  simp [tlb_hit, h t ht]

/-- The TLB of the state `switch_process` returns is the flushed one. -/
theorem switch_process_tlb {c : Config} {s s' : VM} {pid : Nat}
    (h : switch_process c s pid = some s') : s'.tlb = flush_tlb s.tlb := by
  unfold switch_process at h
  split at h
  · obtain rfl := Option.some.inj h; rfl
  · split at h
    · cases h
    · obtain rfl := Option.some.inj h; rfl

/-- `switch_process` returns a state whenever the frames the fork loop would
increment lie in the frame table. -/
theorem switch_process_some (c : Config) (s : VM) (pid : Nat)
    (hpfn : ∀ f ∈ valid_pfns s.current.pagetable, f < s.mapcounts.length) :
    ∃ s', switch_process c s pid = some s' := by
  cases hf : find_process pid s.processes with
  | some nr =>
    obtain ⟨n, r⟩ := nr
    exact ⟨_, switch_process_found hf⟩
  | none =>
    obtain ⟨mc, -, h⟩ := switch_process_fork_some c (find_process_eq_none.mp hf) hpfn
    exact ⟨_, h⟩

/-- Function `alloc_page` on a VPN whose entry exists, with a free frame: the
entry is overwritten in place and only the count of the frame found is
written. -/
theorem alloc_page_present {c : Config} {s : VM} {vpn rw x : Nat} {e : pte}
    (he : lookup_pte c s.current.pagetable vpn = some e)
    (hx : first_free s.mapcounts = some x) :
    alloc_page c s vpn rw = some
      ({ s.set_pagetable (set_pte s.current.pagetable (vpn / c.NR_PTES_PER_PAGE)
            (vpn % c.NR_PTES_PER_PAGE) { valid := true, rw := rw, pfn := x, private_ := rw })
         with mapcounts := s.mapcounts.set x 1 }, x) := by
  have hx0 : s.mapcounts[x]? = some 0 := (first_free_eq_some.mp hx).1
  unfold lookup_pte get_pte at he
  cases hd : s.current.pagetable.pdes[vpn / c.NR_PTES_PER_PAGE]? with
  | none => simp [hd] at he
  | some d =>
    cases d with
    | none => simp [hd] at he
    | some pd =>
      simp only [hd] at he
      have hj : vpn % c.NR_PTES_PER_PAGE < pd.ptes.length :=
        (List.getElem?_eq_some_iff.mp he).1
      simp [alloc_page, hd, dir_or_new, hj, hx, inc_mapcount_eq hx0, set_pte, UINT_SIZE]

/-! ## Claims -/

/-! ### Claim C1 -/

/-- Claim C1, evaluated at the failing trace: `cow_exhausted_state` is reached
from the initial state by `alloc_page(0, 3)`, `alloc_page(1, 3)` (both on
unmapped in-range VPNs), `switch_process(1)` and `handle_page_fault(0,
ACCESS_WRITE)` on a read-only entry; there frame 0 has mapping count 1 while
two valid entries map it, so frame accounting does not hold. -/
theorem frame_accounting_broken_by_exhausted_cow :
    Reachable small (fun _ => True) (unauthorised small) cow_exhausted_state ∧
    cow_exhausted_state.mapcounts[0]? = some 1 ∧ cow_exhausted_state.refs 0 = 2 ∧
    ¬ frame_accounting cow_exhausted_state := by
  have h0 : Reachable small (fun _ => True) (unauthorised small) (init small 0) :=
    Reachable.start 0
  have h1 : Reachable small (fun _ => True) (unauthorised small) one_page_state :=
    Reachable.step _ _ h0
      (Step.alloc _ _ 0 3 0 (by decide) (by decide) trivial (by decide))
  have h2 : Reachable small (fun _ => True) (unauthorised small) full_state :=
    Reachable.step _ _ h1
      (Step.alloc _ _ 1 3 1 (by decide) (by decide) trivial (by decide))
  have h3 : Reachable small (fun _ => True) (unauthorised small) forked_full_state :=
    Reachable.step _ _ h2 (Step.switch _ _ 1 (by decide))
  have h4 : Reachable small (fun _ => True) (unauthorised small) cow_exhausted_state :=
    Reachable.step _ _ h3
      (Step.fault _ _ 0 ACCESS_WRITE true (by decide)
        ⟨{ valid := true, rw := 1, pfn := 0, private_ := 3 }, by decide, Or.inr ⟨rfl, rfl⟩⟩
        (by decide))
  refine ⟨h4, by decide, by decide, ?_⟩
  intro h
  have h' := h 0 (by decide)
  revert h'
  decide

/-! ### Claim C2 -/

/-- Claim C3: when some frame is free, `alloc_page` on an in-range VPN returns the
smallest frame index whose mapping count is 0; afterwards that count is 1 and
every other count is unchanged. -/
theorem alloc_page_lowest_free (c : Config) (s : VM) (vpn rw : Nat)
    (hwf : s.current.pagetable.WF c) (hr : in_range c vpn)
    (hfree : ∃ f : Nat, s.mapcounts[f]? = some 0) :
    ∃ s' f, alloc_page c s vpn rw = some (s', f) ∧
      s.mapcounts[f]? = some 0 ∧ (∀ g, g < f → s.mapcounts[g]? ≠ some 0) ∧
      s'.mapcounts[f]? = some 1 ∧ ∀ g, g ≠ f → s'.mapcounts[g]? = s.mapcounts[g]? := by
  obtain ⟨x, hx⟩ := first_free_isSome hfree
  obtain ⟨hx0, hxmin⟩ := first_free_eq_some.mp hx
  obtain ⟨d, hd⟩ := hwf.slot (in_range_div hr)
  have hxlt : x < s.mapcounts.length := by
    obtain ⟨h, _⟩ := List.getElem?_eq_some_iff.mp hx0
    exact h
  refine ⟨_, x, alloc_page_success hwf hr hd hx, hx0, hxmin, ?_, ?_⟩
  · simp [List.getElem?_set_self hxlt]
  · intro g hg
    simp [List.getElem?_set_ne (Ne.symm hg)]

/-- Claim C3 at a concrete input: the first allocation of the small configuration. -/
theorem alloc_page_lowest_free_witness :
    ((init small 0).current.pagetable.WF small ∧ in_range small 3 ∧
      ∃ f : Nat, (init small 0).mapcounts[f]? = some 0) ∧
    ∃ s' f, alloc_page small (init small 0) 3 ACCESS_WRITE = some (s', f) ∧
      (init small 0).mapcounts[f]? = some 0 ∧
      (∀ g, g < f → (init small 0).mapcounts[g]? ≠ some 0) ∧
      s'.mapcounts[f]? = some 1 ∧
      ∀ g, g ≠ f → s'.mapcounts[g]? = (init small 0).mapcounts[g]? :=
  ⟨⟨by decide, by decide, 0, by decide⟩,
   alloc_page_lowest_free small (init small 0) 3 ACCESS_WRITE (by decide) (by decide)
     ⟨0, by decide⟩⟩

/-! ### Claim C4 -/

/-- Claim C4, refuted as stated: with both frames in use, `alloc_page` on the
unmapped in-range VPN 2 returns the failure value but adds the page directory
of VPN 2 to the address space. -/
theorem alloc_page_exhausted_adds_directory :
    (∀ m ∈ full_state.mapcounts, 1 ≤ m) ∧ in_range small 2 ∧
    mapped small full_state.current.pagetable 2 = false ∧
    full_state.current.pagetable.pdes[1]? = some none ∧
    ∃ s', alloc_page small full_state 2 3 = some (s', ALLOC_FAILED) ∧
      s'.current.pagetable.pdes[1]? = some (some (zero_directory small)) ∧
      s'.current.pagetable ≠ full_state.current.pagetable := by
  refine ⟨by decide, by decide, by decide, by decide, _, rfl, by decide, by decide⟩

/-- Claim C4, amended: under exhaustion `alloc_page` on an in-range VPN returns
the failure value and leaves the mapping counts, the TLB, the waiting
processes and every directory slot other than the one of `vpn` unchanged; a
present directory is left as it is, an absent one is replaced by a zeroed
directory, so no entry becomes valid. -/
theorem alloc_page_exhaustion (c : Config) (s : VM) (vpn rw : Nat)
    (hwf : s.current.pagetable.WF c) (hr : in_range c vpn)
    (hfull : ∀ m ∈ s.mapcounts, 1 ≤ m) :
    ∃ s', alloc_page c s vpn rw = some (s', ALLOC_FAILED) ∧
      s'.mapcounts = s.mapcounts ∧ s'.tlb = s.tlb ∧ s'.processes = s.processes ∧
      s'.current.pid = s.current.pid ∧
      (∀ i, i ≠ vpn / c.NR_PTES_PER_PAGE →
        s'.current.pagetable.pdes[i]? = s.current.pagetable.pdes[i]?) ∧
      (∀ pd, s.current.pagetable.pdes[vpn / c.NR_PTES_PER_PAGE]? = some (some pd) → s' = s) ∧
      (s.current.pagetable.pdes[vpn / c.NR_PTES_PER_PAGE]? = some none →
        s'.current.pagetable.pdes[vpn / c.NR_PTES_PER_PAGE]? = some (some (zero_directory c))) ∧
      (∀ i j e, get_pte s'.current.pagetable i j = some e → e.valid = true →
        get_pte s.current.pagetable i j = some e) := by
  have hx : first_free s.mapcounts = none := by
    rw [first_free_eq_none]
    intro y hy
    have := hfull 0 (List.mem_iff_getElem?.mpr ⟨y, hy⟩)
    omega
  obtain ⟨d, hd⟩ := hwf.slot (in_range_div hr)
  have hlt : vpn / c.NR_PTES_PER_PAGE < s.current.pagetable.pdes.length := by
    rw [hwf.1]; exact in_range_div hr
  refine ⟨_, alloc_page_exhausted hwf hr hd hx, rfl, rfl, rfl, rfl, ?_, ?_, ?_, ?_⟩
  · intro i hi
    simp [VM.set_pagetable, List.getElem?_set_ne (Ne.symm hi)]
  · intro pd hpd
    have hdd : d = some pd := by rw [hd] at hpd; exact Option.some.inj hpd
    subst hdd
    have hset : s.current.pagetable.pdes.set (vpn / c.NR_PTES_PER_PAGE) (some pd)
        = s.current.pagetable.pdes := by
      apply List.ext_getElem?
      intro n
      by_cases hn : vpn / c.NR_PTES_PER_PAGE = n
      · subst hn; rw [List.getElem?_set_self hlt, hd]
      · rw [List.getElem?_set_ne hn]
    simp [VM.set_pagetable, dir_or_new, hset]
  · intro hnone
    have hdd : d = none := by rw [hd] at hnone; exact Option.some.inj hnone
    subst hdd
    simp [VM.set_pagetable, dir_or_new, List.getElem?_set_self hlt]
  · intro i j e he hv
    by_cases hi : i = vpn / c.NR_PTES_PER_PAGE
    · subst hi
      cases d with
      | none =>
        simp only [VM.set_pagetable, get_pte, List.getElem?_set_self hlt, dir_or_new] at he
        rw [get_pte_zero_directory he] at hv
        cases hv
      | some pd =>
        simp only [VM.set_pagetable, get_pte, List.getElem?_set_self hlt, dir_or_new] at he
        simp only [get_pte, hd]
        exact he
    · simp only [VM.set_pagetable] at he
      rw [get_pte_set_dir_ne hi] at he
      exact he

/-- Claim C4 (amended) at a concrete input: both frames of the small
configuration in use, allocation of VPN 2. -/
theorem alloc_page_exhaustion_witness :
    (full_state.current.pagetable.WF small ∧ in_range small 2 ∧
      ∀ m ∈ full_state.mapcounts, 1 ≤ m) ∧
    ∃ s', alloc_page small full_state 2 3 = some (s', ALLOC_FAILED) ∧
      s'.mapcounts = full_state.mapcounts ∧ s'.tlb = full_state.tlb ∧
      s'.processes = full_state.processes ∧
      s'.current.pid = full_state.current.pid ∧
      (∀ i, i ≠ 2 / small.NR_PTES_PER_PAGE →
        s'.current.pagetable.pdes[i]? = full_state.current.pagetable.pdes[i]?) ∧
      (∀ pd, full_state.current.pagetable.pdes[2 / small.NR_PTES_PER_PAGE]? = some (some pd) →
        s' = full_state) ∧
      (full_state.current.pagetable.pdes[2 / small.NR_PTES_PER_PAGE]? = some none →
        s'.current.pagetable.pdes[2 / small.NR_PTES_PER_PAGE]? =
          some (some (zero_directory small))) ∧
      (∀ i j e, get_pte s'.current.pagetable i j = some e → e.valid = true →
        get_pte full_state.current.pagetable i j = some e) :=
  ⟨⟨by decide, by decide, by decide⟩,
   alloc_page_exhaustion small full_state 2 3 (by decide) (by decide) (by decide)⟩

/-! ### Claim C5 -/

/-- Claim C6: a write fault on a copy-on-write entry (read-only, origin
permission read+write, frame `F` with mapping count 2) while some frame is free
is serviced: the entry moves to the lowest previously free frame `G`, which
differs from `F`, and becomes read+write; afterwards `F` and `G` have count 1
and every other count is unchanged. -/
theorem handle_page_fault_cow_resolution (c : Config) (s : VM) (vpn F : Nat) (e : pte)
    (he : lookup_pte c s.current.pagetable vpn = some e)
    (hv : e.valid = true) (hrw : e.rw = ACCESS_READ) (hpriv : e.private_ = 3)
    (hpfn : e.pfn = F) (hF : s.mapcounts[F]? = some 2)
    (hfree : ∃ f : Nat, s.mapcounts[f]? = some 0) :
    ∃ s' G, handle_page_fault c s vpn ACCESS_WRITE = some (s', true) ∧
      lookup_pte c s'.current.pagetable vpn =
        some { valid := true, rw := 3, pfn := G, private_ := 3 } ∧
      G ≠ F ∧ s.mapcounts[G]? = some 0 ∧ (∀ g, g < G → s.mapcounts[g]? ≠ some 0) ∧
      s'.mapcounts[F]? = some 1 ∧ s'.mapcounts[G]? = some 1 ∧
      ∀ g, g ≠ F → g ≠ G → s'.mapcounts[g]? = s.mapcounts[g]? := by
  subst hpfn
  obtain ⟨G, hG⟩ := first_free_isSome hfree
  obtain ⟨hG0, hGmin⟩ := first_free_eq_some.mp hG
  have hcow : cow_entry e = true := by simp [cow_entry, hrw, hpriv, ACCESS_READ, ACCESS_WRITE]
  have hdec : (2 + UINT_SIZE - 1) % UINT_SIZE = 1 := by decide
  obtain ⟨hG1, hne⟩ := first_free_set_nonzero 1 hF (by decide) (by decide) hG
  have hx : first_free (s.mapcounts.set e.pfn ((2 + UINT_SIZE - 1) % UINT_SIZE)) = some G := by
    rw [hdec]; exact hG1
  have hFlt : e.pfn < s.mapcounts.length := (List.getElem?_eq_some_iff.mp hF).1
  have hGlt : G < s.mapcounts.length := (List.getElem?_eq_some_iff.mp hG0).1
  refine ⟨_, G, handle_page_fault_cow he hcow hF hx, ?_, hne, hG0, hGmin, ?_, ?_, ?_⟩
  · simp only [VM.set_pagetable, lookup_pte]
    rw [get_pte_set_pte_self he]
    simp [hv, hpriv]
  · show ((s.mapcounts.set e.pfn _).set G 1)[e.pfn]? = some 1
    rw [hdec, List.getElem?_set_ne hne, List.getElem?_set_self hFlt]
  · show ((s.mapcounts.set e.pfn _).set G 1)[G]? = some 1
    rw [List.getElem?_set_self (by simpa using hGlt)]
  · intro g hgF hgG
    show ((s.mapcounts.set e.pfn _).set G 1)[g]? = s.mapcounts[g]?
    rw [List.getElem?_set_ne (Ne.symm hgG), List.getElem?_set_ne (Ne.symm hgF)]

/-- Claim C6 at a concrete input: the forked child of the small configuration
writes to the shared VPN 0. -/
theorem handle_page_fault_cow_resolution_witness :
    (lookup_pte small forked_state.current.pagetable 0 =
        some { valid := true, rw := 1, pfn := 0, private_ := 3 } ∧
      forked_state.mapcounts[0]? = some 2 ∧
      ∃ f : Nat, forked_state.mapcounts[f]? = some 0) ∧
    ∃ s' G, handle_page_fault small forked_state 0 ACCESS_WRITE = some (s', true) ∧
      lookup_pte small s'.current.pagetable 0 =
        some { valid := true, rw := 3, pfn := G, private_ := 3 } ∧
      G ≠ 0 ∧ forked_state.mapcounts[G]? = some 0 ∧
      (∀ g, g < G → forked_state.mapcounts[g]? ≠ some 0) ∧
      s'.mapcounts[0]? = some 1 ∧ s'.mapcounts[G]? = some 1 ∧
      ∀ g, g ≠ 0 → g ≠ G → s'.mapcounts[g]? = forked_state.mapcounts[g]? :=
  ⟨⟨by decide, by decide, 1, by decide⟩,
   handle_page_fault_cow_resolution small forked_state 0 0
     { valid := true, rw := 1, pfn := 0, private_ := 3 }
     (by decide) rfl rfl rfl rfl (by decide) ⟨1, by decide⟩⟩

/-! ### Claim C7 -/

/-- Claim C7, refuted as stated: after the forked child resolves its write
fault on VPN 0, frame 0 has count 1 and the parent still maps it, but the
parent's entry is still read-only: it has not been restored to write
permission. -/
theorem handle_page_fault_no_eager_restore :
    lookup_pte small forked_state.current.pagetable 0 =
      some { valid := true, rw := ACCESS_READ, pfn := 0, private_ := 3 } ∧
    (forked_state.processes.map (fun p => lookup_pte small p.pagetable 0)) =
      [some { valid := true, rw := ACCESS_READ, pfn := 0, private_ := 3 }] ∧
    forked_state.mapcounts[0]? = some 2 ∧
    ∃ s', handle_page_fault small forked_state 0 ACCESS_WRITE = some (s', true) ∧
      s'.mapcounts[0]? = some 1 ∧
      (s'.processes.map (fun p => lookup_pte small p.pagetable 0)) =
        [some { valid := true, rw := ACCESS_READ, pfn := 0, private_ := 3 }] := by
  refine ⟨by decide, by decide, by decide, _, rfl, by decide, by decide⟩

/-- Claim C7, amended: in the fork-sharing scenario, after the current
process resolves its write fault on `vpn`, frame `F` has count 1 and the other
process's entry for `vpn` still maps `F` and is exactly as before, read-only
with origin permission read+write: `handle_page_fault` changes no waiting
process. -/
theorem handle_page_fault_other_untouched (c : Config) (s : VM) (vpn F : Nat) (e : pte)
    (q : process) (eq : pte)
    (he : lookup_pte c s.current.pagetable vpn = some e)
    (hrw : e.rw = ACCESS_READ) (hpriv : e.private_ = 3)
    (hpfn : e.pfn = F) (hF : s.mapcounts[F]? = some 2)
    (hfree : ∃ f : Nat, s.mapcounts[f]? = some 0)
    (hq : q ∈ s.processes) (hqe : lookup_pte c q.pagetable vpn = some eq)
    (hqv : eq.valid = true) (hqrw : eq.rw = ACCESS_READ) (hqpriv : eq.private_ = 3)
    (hqpfn : eq.pfn = F) :
    ∃ s', handle_page_fault c s vpn ACCESS_WRITE = some (s', true) ∧
      s'.mapcounts[F]? = some 1 ∧ s'.processes = s.processes ∧ q ∈ s'.processes ∧
      lookup_pte c q.pagetable vpn =
        some { valid := true, rw := ACCESS_READ, pfn := F, private_ := 3 } := by
  subst hpfn
  obtain ⟨G, hG⟩ := first_free_isSome hfree
  have hcow : cow_entry e = true := by simp [cow_entry, hrw, hpriv, ACCESS_READ, ACCESS_WRITE]
  have hdec : (2 + UINT_SIZE - 1) % UINT_SIZE = 1 := by decide
  obtain ⟨hG1, hne⟩ := first_free_set_nonzero 1 hF (by decide) (by decide) hG
  have hx : first_free (s.mapcounts.set e.pfn ((2 + UINT_SIZE - 1) % UINT_SIZE)) = some G := by
    rw [hdec]; exact hG1
  have hFlt : e.pfn < s.mapcounts.length := (List.getElem?_eq_some_iff.mp hF).1
  refine ⟨_, handle_page_fault_cow he hcow hF hx, ?_, rfl, hq, ?_⟩
  · show ((s.mapcounts.set e.pfn _).set G 1)[e.pfn]? = some 1
    rw [hdec, List.getElem?_set_ne hne, List.getElem?_set_self hFlt]
  · rw [hqe]
    cases eq
    simp_all

/-- Claim C7 (amended) at a concrete input: the forked child of the small
configuration writes to VPN 0 while the parent waits. -/
theorem handle_page_fault_other_untouched_witness :
    (lookup_pte small forked_state.current.pagetable 0 =
        some { valid := true, rw := 1, pfn := 0, private_ := 3 } ∧
      forked_state.mapcounts[0]? = some 2 ∧
      (∃ f : Nat, forked_state.mapcounts[f]? = some 0) ∧
      forked_parent ∈ forked_state.processes ∧
      lookup_pte small forked_parent.pagetable 0 =
        some { valid := true, rw := 1, pfn := 0, private_ := 3 }) ∧
    ∃ s', handle_page_fault small forked_state 0 ACCESS_WRITE = some (s', true) ∧
      s'.mapcounts[0]? = some 1 ∧ s'.processes = forked_state.processes ∧
      forked_parent ∈ s'.processes ∧
      lookup_pte small forked_parent.pagetable 0 =
        some { valid := true, rw := ACCESS_READ, pfn := 0, private_ := 3 } :=
  ⟨⟨by decide, by decide, ⟨1, by decide⟩, by decide, by decide⟩,
   handle_page_fault_other_untouched small forked_state 0 0
     { valid := true, rw := 1, pfn := 0, private_ := 3 } forked_parent
     { valid := true, rw := 1, pfn := 0, private_ := 3 }
     (by decide) rfl rfl rfl (by decide) ⟨1, by decide⟩ (by decide) (by decide)
     rfl rfl rfl rfl⟩

/-! ### Claim C8 -/

/-- Claim C8, what the code does on the claim's inputs: when the entry of
`vpn` is a copy-on-write entry (valid, read-only, origin permission 3) on a
frame with count `m >= 2` and no frame has count 0, `handle_page_fault(vpn,
ACCESS_WRITE)` returns `true`, not `false`, and it changes the state: the
entry becomes read+write on the same, still shared frame and the count of
that frame drops to `m - 1`. -/
theorem handle_page_fault_cow_exhausted_returns_true (c : Config) (s : VM) (vpn m : Nat)
    (e : pte) (he : lookup_pte c s.current.pagetable vpn = some e)
    (hv : e.valid = true) (hrw : e.rw = ACCESS_READ) (hpriv : e.private_ = 3)
    (hm : s.mapcounts[e.pfn]? = some m) (h2 : 2 ≤ m) (hlt : m < UINT_SIZE)
    (hfull : ∀ x ∈ s.mapcounts, x ≠ 0) :
    ∃ s', handle_page_fault c s vpn ACCESS_WRITE = some (s', true) ∧
      lookup_pte c s'.current.pagetable vpn =
        some { valid := true, rw := 3, pfn := e.pfn, private_ := 3 } ∧
      s'.mapcounts[e.pfn]? = some (m - 1) ∧ s'.mapcounts ≠ s.mapcounts := by
  have hcow : cow_entry e = true := by simp [cow_entry, hrw, hpriv, ACCESS_READ, ACCESS_WRITE]
  have hFlt : e.pfn < s.mapcounts.length := (List.getElem?_eq_some_iff.mp hm).1
  have hdec := dec_value (by omega : 1 ≤ m) hlt
  have hx : first_free (s.mapcounts.set e.pfn ((m + UINT_SIZE - 1) % UINT_SIZE)) = none := by
    rw [hdec, first_free_eq_none]
    intro y hy
    by_cases hyF : y = e.pfn
    · subst hyF
      rw [List.getElem?_set_self hFlt] at hy
      have := Option.some.inj hy
      omega
    · rw [List.getElem?_set_ne (Ne.symm hyF)] at hy
      exact hfull 0 (List.mem_iff_getElem?.mpr ⟨y, hy⟩) rfl
  refine ⟨_, handle_page_fault_cow_exhausted he hcow hm hx, ?_, ?_, ?_⟩
  · simp only [VM.set_pagetable, lookup_pte]
    rw [get_pte_set_pte_self he]
    simp [hv, hpriv]
  · show (s.mapcounts.set e.pfn _)[e.pfn]? = some (m - 1)
    rw [hdec, List.getElem?_set_self hFlt]
  · show s.mapcounts.set e.pfn _ ≠ s.mapcounts
    intro heq
    have h1 : (s.mapcounts.set e.pfn ((m + UINT_SIZE - 1) % UINT_SIZE))[e.pfn]? = some m := by
      rw [heq]; exact hm
    rw [hdec, List.getElem?_set_self hFlt] at h1
    have := Option.some.inj h1
    omega

/-- Claim C8 at the failing input: in `forked_full_state` both frames have
count 2 and the child writes to VPN 0; the call returns `true`, the entry
becomes read+write on frame 0 and the counts become `[1, 2]`. -/
theorem handle_page_fault_cow_exhausted_returns_true_witness :
    (lookup_pte small forked_full_state.current.pagetable 0 =
        some { valid := true, rw := ACCESS_READ, pfn := 0, private_ := 3 } ∧
      forked_full_state.mapcounts[0]? = some 2 ∧
      ∀ x ∈ forked_full_state.mapcounts, x ≠ 0) ∧
    ∃ s', handle_page_fault small forked_full_state 0 ACCESS_WRITE = some (s', true) ∧
      lookup_pte small s'.current.pagetable 0 =
        some { valid := true, rw := 3, pfn := 0, private_ := 3 } ∧
      s'.mapcounts[0]? = some (2 - 1) ∧ s'.mapcounts ≠ forked_full_state.mapcounts :=
  ⟨⟨by decide, by decide, by decide⟩,
   handle_page_fault_cow_exhausted_returns_true small forked_full_state 0 2
     { valid := true, rw := ACCESS_READ, pfn := 0, private_ := 3 }
     (by decide) rfl rfl rfl (by decide) (by decide) (by decide) (by decide)⟩

/-! ### Claim C9 -/

/-- Claim C9, refuted as stated: VPN 1 of `one_page_state` is in range, its
directory is present, its entry is invalid and frame 1 is free, yet
`handle_page_fault` returns `false` for a read and for a write and allocates
nothing. -/
theorem handle_page_fault_invalid_entry_refused :
    in_range small 1 ∧
    lookup_pte small one_page_state.current.pagetable 1 = some zero_pte ∧
    zero_pte.valid = false ∧
    one_page_state.mapcounts[1]? = some 0 ∧
    handle_page_fault small one_page_state 1 ACCESS_READ = some (one_page_state, false) ∧
    handle_page_fault small one_page_state 1 ACCESS_WRITE = some (one_page_state, false) := by
  decide

/-- Claim C9, amended: for every VPN whose entry in the current process is
invalid with `rw` field 0 (as `memset` and `free_page` leave an invalid entry)
and every access, `handle_page_fault` returns `false` and leaves the whole
state unchanged; no frame is allocated. -/
theorem handle_page_fault_invalid_entry (c : Config) (s : VM) (vpn rw : Nat) (e : pte)
    (he : lookup_pte c s.current.pagetable vpn = some e)
    (_hv : e.valid = false) (hrw : e.rw = 0) :
    handle_page_fault c s vpn rw = some (s, false) :=
  handle_page_fault_no_cow he (by simp [cow_entry, hrw, ACCESS_READ])

/-- Claim C9 (amended) at a concrete input: a write to the invalid VPN 1 of
`one_page_state`. -/
theorem handle_page_fault_invalid_entry_witness :
    (lookup_pte small one_page_state.current.pagetable 1 = some zero_pte ∧
      zero_pte.valid = false ∧ zero_pte.rw = 0) ∧
    handle_page_fault small one_page_state 1 ACCESS_WRITE = some (one_page_state, false) :=
  ⟨by decide,
   handle_page_fault_invalid_entry small one_page_state 1 ACCESS_WRITE zero_pte
     (by decide) rfl rfl⟩

/-! ### Claim C10 -/

/-- Claim C10: a write fault on a genuinely read-only entry (valid,
`rw == ACCESS_READ`, origin permission `ACCESS_READ`) returns `false` and leaves
the state (all page tables, all mapping counts, the TLB) unchanged. -/
theorem handle_page_fault_protection_violation (c : Config) (s : VM) (vpn : Nat) (e : pte)
    (he : lookup_pte c s.current.pagetable vpn = some e)
    (_hv : e.valid = true) (_hrw : e.rw = ACCESS_READ) (hpriv : e.private_ = ACCESS_READ) :
    handle_page_fault c s vpn ACCESS_WRITE = some (s, false) :=
  handle_page_fault_no_cow he (by simp [cow_entry, hpriv])

/-- Claim C10 at a concrete input: a write to the read-only VPN 0 of
`readonly_state`. -/
theorem handle_page_fault_protection_violation_witness :
    (lookup_pte small readonly_state.current.pagetable 0 =
        some { valid := true, rw := ACCESS_READ, pfn := 0, private_ := ACCESS_READ }) ∧
    handle_page_fault small readonly_state 0 ACCESS_WRITE = some (readonly_state, false) :=
  ⟨by decide,
   handle_page_fault_protection_violation small readonly_state 0
     { valid := true, rw := ACCESS_READ, pfn := 0, private_ := ACCESS_READ }
     (by decide) rfl rfl rfl⟩

/-! ### Claim C11 -/

/-- Claim C11: on the fork path the child's entry of every VPN is valid
exactly when the parent's is, before and after the fork, and for every valid
parent entry the child's entry equals the parent's entry as it stands after
the fork (same `pfn`, `rw`, `private_`), with the `pfn` the parent had before. -/
theorem switch_process_fork_copies (c : Config) (s : VM) (pid : Nat)
    (hpid : ∀ p ∈ s.processes, p.pid ≠ pid)
    (hpfn : ∀ f ∈ valid_pfns s.current.pagetable, f < s.mapcounts.length) :
    ∃ s' parent, switch_process c s pid = some s' ∧ s'.current.pid = pid ∧
      s'.processes = s.processes ++ [parent] ∧ parent.pid = s.current.pid ∧
      ∀ vpn,
        mapped c s'.current.pagetable vpn = mapped c parent.pagetable vpn ∧
        mapped c parent.pagetable vpn = mapped c s.current.pagetable vpn ∧
        ∀ e, lookup_pte c s.current.pagetable vpn = some e → e.valid = true →
          ∃ ec ep, lookup_pte c s'.current.pagetable vpn = some ec ∧
            lookup_pte c parent.pagetable vpn = some ep ∧
            ec.valid = true ∧ ep.valid = true ∧ ec.pfn = ep.pfn ∧ ec.rw = ep.rw ∧
            ec.private_ = ep.private_ ∧ ec.pfn = e.pfn := by
  obtain ⟨mc, -, hsw⟩ := switch_process_fork_some c hpid hpfn
  refine ⟨_, _, hsw, rfl, rfl, rfl, fun vpn => ⟨?_, ?_, ?_⟩⟩
  · show mapped c (fork_child_pagetable c _) vpn = mapped c (fork_parent_pagetable _) vpn
    rw [mapped_fork_child, mapped_fork_parent]
  · exact mapped_fork_parent c _ vpn
  · intro e he hv
    refine ⟨fork_child_pte e, fork_parent_pte e, get_pte_fork_child he, ?_, ?_⟩
    · show get_pte (fork_parent_pagetable _) _ _ = _
      rw [get_pte_fork_parent]
      unfold lookup_pte at he
      rw [he]; rfl
    · rw [← fork_child_eq_parent hv]
      simp [fork_child_pte, hv]

/-- Claim C11 at a concrete input: the fork of `full_state`, whose two pages
are read+write. -/
theorem switch_process_fork_copies_witness :
    ((∀ p ∈ full_state.processes, p.pid ≠ 1) ∧
      ∀ f ∈ valid_pfns full_state.current.pagetable, f < full_state.mapcounts.length) ∧
    ∃ s' parent, switch_process small full_state 1 = some s' ∧ s'.current.pid = 1 ∧
      s'.processes = full_state.processes ++ [parent] ∧
      parent.pid = full_state.current.pid ∧
      ∀ vpn,
        mapped small s'.current.pagetable vpn = mapped small parent.pagetable vpn ∧
        mapped small parent.pagetable vpn = mapped small full_state.current.pagetable vpn ∧
        ∀ e, lookup_pte small full_state.current.pagetable vpn = some e → e.valid = true →
          ∃ ec ep, lookup_pte small s'.current.pagetable vpn = some ec ∧
            lookup_pte small parent.pagetable vpn = some ep ∧
            ec.valid = true ∧ ep.valid = true ∧ ec.pfn = ep.pfn ∧ ec.rw = ep.rw ∧
            ec.private_ = ep.private_ ∧ ec.pfn = e.pfn :=
  ⟨⟨by decide, by decide⟩,
   switch_process_fork_copies small full_state 1 (by decide) (by decide)⟩

/-! ### Claim C12 -/

/-- Claim C12: on the fork path every entry of the forking process keeps its
`valid`, `pfn` and `private_` fields, absent directories stay absent, and an
entry whose `rw` was `ACCESS_READ` still has `rw == ACCESS_READ`; the only
change is that a valid entry with `rw` other than `ACCESS_READ` and
`ACCESS_WRITE` gets `rw = ACCESS_READ`. -/
theorem switch_process_fork_parent_effect (c : Config) (s : VM) (pid : Nat)
    (hpid : ∀ p ∈ s.processes, p.pid ≠ pid)
    (hpfn : ∀ f ∈ valid_pfns s.current.pagetable, f < s.mapcounts.length) :
    ∃ s' parent, switch_process c s pid = some s' ∧
      s'.processes = s.processes ++ [parent] ∧ parent.pid = s.current.pid ∧
      (∀ i j, get_pte s.current.pagetable i j = none → get_pte parent.pagetable i j = none) ∧
      ∀ i j e, get_pte s.current.pagetable i j = some e →
        ∃ e', get_pte parent.pagetable i j = some e' ∧
          e'.valid = e.valid ∧ e'.pfn = e.pfn ∧ e'.private_ = e.private_ ∧
          (e.rw = ACCESS_READ → e'.rw = ACCESS_READ) ∧
          (e'.rw = e.rw ∨
            (e.valid = true ∧ e.rw ≠ ACCESS_WRITE ∧ e'.rw = ACCESS_READ)) := by
  obtain ⟨mc, -, hsw⟩ := switch_process_fork_some c hpid hpfn
  refine ⟨_, _, hsw, rfl, rfl, ?_, ?_⟩
  · intro i j h
    show get_pte (fork_parent_pagetable _) i j = none
    rw [get_pte_fork_parent, h]; rfl
  · intro i j e he
    refine ⟨fork_parent_pte e, ?_, ?_⟩
    · show get_pte (fork_parent_pagetable _) i j = _
      rw [get_pte_fork_parent, he]; rfl
    · unfold fork_parent_pte
      split
      · rename_i h
        exact ⟨rfl, rfl, rfl, fun _ => rfl, Or.inr ⟨h.1, h.2.1, rfl⟩⟩
      · exact ⟨rfl, rfl, rfl, id, Or.inl rfl⟩

/-- Claim C12 at a concrete input: the fork of `full_state`. -/
theorem switch_process_fork_parent_effect_witness :
    ((∀ p ∈ full_state.processes, p.pid ≠ 1) ∧
      ∀ f ∈ valid_pfns full_state.current.pagetable, f < full_state.mapcounts.length) ∧
    ∃ s' parent, switch_process small full_state 1 = some s' ∧
      s'.processes = full_state.processes ++ [parent] ∧
      parent.pid = full_state.current.pid ∧
      (∀ i j, get_pte full_state.current.pagetable i j = none →
        get_pte parent.pagetable i j = none) ∧
      ∀ i j e, get_pte full_state.current.pagetable i j = some e →
        ∃ e', get_pte parent.pagetable i j = some e' ∧
          e'.valid = e.valid ∧ e'.pfn = e.pfn ∧ e'.private_ = e.private_ ∧
          (e.rw = ACCESS_READ → e'.rw = ACCESS_READ) ∧
          (e'.rw = e.rw ∨
            (e.valid = true ∧ e.rw ≠ ACCESS_WRITE ∧ e'.rw = ACCESS_READ)) :=
  ⟨⟨by decide, by decide⟩,
   switch_process_fork_parent_effect small full_state 1 (by decide) (by decide)⟩

/-! ### Claim C13 -/

/-- Claim C13, refuted as stated: the calls `alloc_page(0, 3)`,
`alloc_page(1, 3)`, `switch_process(1)`, `handle_page_fault(0, ACCESS_WRITE)`,
`free_page(0)`, `switch_process(0)` from the initial state lead to a state in
which the current process validly maps the in-range VPN 0 to frame 0 while
`mapcounts[0]` is 0; `free_page(0)` then leaves `mapcounts[0] = 2 ^ 32 - 1`,
which is not one less than 0. -/
theorem free_page_wraps_zero_count :
    ((alloc_page small (init small 0) 0 3).bind fun r1 =>
      (alloc_page small r1.1 1 3).bind fun r2 =>
      (switch_process small r2.1 1).bind fun s3 =>
      (handle_page_fault small s3 0 ACCESS_WRITE).bind fun r4 =>
      (free_page small r4.1 0).bind fun s5 =>
      switch_process small s5 0) = some zero_count_state ∧
    in_range small 0 ∧
    lookup_pte small zero_count_state.current.pagetable 0
      = some { valid := true, rw := 1, pfn := 0, private_ := 3 } ∧
    zero_count_state.mapcounts = [0, 2] ∧
    (free_page small zero_count_state 0).map (fun s => s.mapcounts)
      = some [4294967295, 2] := by
  decide

/-- Claim C13, amended: `free_page` on a validly mapped VPN leaves the entry
with `valid == false`, `rw == 0` and `pfn == 0`; the count of the frame `F` it
mapped is decremented as an `unsigned int`, which is exactly one less whenever
the count was at least 1 (a count of 0 becomes `2 ^ 32 - 1`); every other count
is unchanged, and so are every other entry of the current process and all
waiting processes. -/
theorem free_page_effect (c : Config) (s : VM) (vpn F m : Nat) (e : pte)
    (he : lookup_pte c s.current.pagetable vpn = some e) (_hv : e.valid = true)
    (hpfn : e.pfn = F) (hm : s.mapcounts[F]? = some m) :
    ∃ s', free_page c s vpn = some s' ∧
      lookup_pte c s'.current.pagetable vpn =
        some { valid := false, rw := 0, pfn := 0, private_ := e.private_ } ∧
      s'.mapcounts[F]? = some ((m + UINT_SIZE - 1) % UINT_SIZE) ∧
      (1 ≤ m → m < UINT_SIZE → s'.mapcounts[F]? = some (m - 1)) ∧
      (∀ g, g ≠ F → s'.mapcounts[g]? = s.mapcounts[g]?) ∧
      (∀ i j, i ≠ vpn / c.NR_PTES_PER_PAGE ∨ j ≠ vpn % c.NR_PTES_PER_PAGE →
        get_pte s'.current.pagetable i j = get_pte s.current.pagetable i j) ∧
      s'.processes = s.processes ∧ s'.current.pid = s.current.pid := by
  subst hpfn
  have hFlt : e.pfn < s.mapcounts.length := (List.getElem?_eq_some_iff.mp hm).1
  refine ⟨_, free_page_eq he hm, ?_, ?_, ?_, ?_, ?_, rfl, rfl⟩
  · simp only [VM.set_pagetable, lookup_pte]
    rw [get_pte_set_pte_self he]
  · show (s.mapcounts.set e.pfn _)[e.pfn]? = _
    rw [List.getElem?_set_self hFlt]
  · intro h1 h2
    show (s.mapcounts.set e.pfn _)[e.pfn]? = _
    rw [List.getElem?_set_self hFlt, dec_value h1 h2]
  · intro g hg
    show (s.mapcounts.set e.pfn _)[g]? = _
    rw [List.getElem?_set_ne (Ne.symm hg)]
  · intro i j hij
    show get_pte (set_pte _ _ _ _) i j = _
    rw [get_pte_set_pte_ne hij]

/-- Claim C13 (amended) at a concrete input: `free_page(0)` in `one_page_state`. -/
theorem free_page_effect_witness :
    (lookup_pte small one_page_state.current.pagetable 0 =
        some { valid := true, rw := 3, pfn := 0, private_ := 3 } ∧
      one_page_state.mapcounts[0]? = some 1) ∧
    ∃ s', free_page small one_page_state 0 = some s' ∧
      lookup_pte small s'.current.pagetable 0 =
        some { valid := false, rw := 0, pfn := 0, private_ := 3 } ∧
      s'.mapcounts[0]? = some ((1 + UINT_SIZE - 1) % UINT_SIZE) ∧
      (1 ≤ 1 → 1 < UINT_SIZE → s'.mapcounts[0]? = some (1 - 1)) ∧
      (∀ g, g ≠ 0 → s'.mapcounts[g]? = one_page_state.mapcounts[g]?) ∧
      (∀ i j, i ≠ 0 / small.NR_PTES_PER_PAGE ∨ j ≠ 0 % small.NR_PTES_PER_PAGE →
        get_pte s'.current.pagetable i j = get_pte one_page_state.current.pagetable i j) ∧
      s'.processes = one_page_state.processes ∧
      s'.current.pid = one_page_state.current.pid :=
  ⟨⟨by decide, by decide⟩,
   free_page_effect small one_page_state 0 0 1
     { valid := true, rw := 3, pfn := 0, private_ := 3 } (by decide) rfl rfl (by decide)⟩

/-! ### Claim C14 -/

/-- Claim C14: after `free_page` on a mapped VPN a TLB lookup of that VPN
misses for a read and for a write (indeed for every access value), every slot
whose `vpn` field differs is exactly as before, and a slot whose `vpn` field
equals the VPN differs from before at most in `valid`, which is `false`. -/
theorem free_page_tlb (c : Config) (s : VM) (vpn m : Nat) (e : pte)
    (he : lookup_pte c s.current.pagetable vpn = some e) (_hv : e.valid = true)
    (hm : s.mapcounts[e.pfn]? = some m) :
    ∃ s', free_page c s vpn = some s' ∧
      lookup_tlb s' vpn ACCESS_READ = none ∧ lookup_tlb s' vpn ACCESS_WRITE = none ∧
      (∀ rw, lookup_tlb s' vpn rw = none) ∧
      s'.tlb.length = s.tlb.length ∧
      (∀ (k : Nat) (t : tlb_entry), s.tlb[k]? = some t → t.vpn ≠ vpn →
        s'.tlb[k]? = some t) ∧
      (∀ (k : Nat) (t : tlb_entry), s.tlb[k]? = some t → t.vpn = vpn →
        s'.tlb[k]? = some { t with valid := false }) := by
  have hmiss : ∀ rw, lookup_tlb
      { s.set_pagetable (set_pte s.current.pagetable (vpn / c.NR_PTES_PER_PAGE)
            (vpn % c.NR_PTES_PER_PAGE) { e with valid := false, rw := 0, pfn := 0 })
        with mapcounts := s.mapcounts.set e.pfn ((m + UINT_SIZE - 1) % UINT_SIZE)
             tlb := tlb_invalidate vpn s.tlb } vpn rw = none := by
    intro rw
    simp only [lookup_tlb, find?_tlb_invalidate, Option.map_none']
  refine ⟨_, free_page_eq he hm, hmiss _, hmiss _, hmiss, ?_, ?_, ?_⟩
  · simp [tlb_invalidate]
  · intro k t hk hne
    show (tlb_invalidate vpn s.tlb)[k]? = some t
    rw [getElem?_tlb_invalidate, hk]
    simp [hne]
  · intro k t hk heq
    show (tlb_invalidate vpn s.tlb)[k]? = _
    rw [getElem?_tlb_invalidate, hk]
    simp [heq]

/-- Claim C14 at a concrete input: `free_page(0)` with VPN 0 and VPN 1 cached. -/
theorem free_page_tlb_witness :
    (lookup_pte small full_cached_state.current.pagetable 0 =
        some { valid := true, rw := 3, pfn := 0, private_ := 3 } ∧
      full_cached_state.mapcounts[0]? = some 1) ∧
    ∃ s', free_page small full_cached_state 0 = some s' ∧
      lookup_tlb s' 0 ACCESS_READ = none ∧ lookup_tlb s' 0 ACCESS_WRITE = none ∧
      (∀ rw, lookup_tlb s' 0 rw = none) ∧
      s'.tlb.length = full_cached_state.tlb.length ∧
      (∀ (k : Nat) (t : tlb_entry), full_cached_state.tlb[k]? = some t → t.vpn ≠ 0 →
        s'.tlb[k]? = some t) ∧
      (∀ (k : Nat) (t : tlb_entry), full_cached_state.tlb[k]? = some t → t.vpn = 0 →
        s'.tlb[k]? = some { t with valid := false }) :=
  ⟨⟨by decide, by decide⟩,
   free_page_tlb small full_cached_state 0 1
     { valid := true, rw := 3, pfn := 0, private_ := 3 } (by decide) rfl (by decide)⟩

/-! ### Claim C15 -/

/-- Claim C15: when a frame is free, `alloc_page` on an in-range VPN returns a
frame `f` and leaves the entry of the VPN valid with `pfn == f`, `rw == rw` and
`private_ == rw`.  Every other existing entry of the current process is
unchanged; an entry that exists only afterwards lies in the directory the call
created and is the zero (invalid) entry.  The waiting processes and the TLB are
unchanged. -/
theorem alloc_page_effect (c : Config) (s : VM) (vpn rw : Nat)
    (hwf : s.current.pagetable.WF c) (hr : in_range c vpn)
    (hfree : ∃ f : Nat, s.mapcounts[f]? = some 0) :
    ∃ s' f, alloc_page c s vpn rw = some (s', f) ∧
      lookup_pte c s'.current.pagetable vpn =
        some { valid := true, rw := rw, pfn := f, private_ := rw } ∧
      (∀ i j o, i ≠ vpn / c.NR_PTES_PER_PAGE ∨ j ≠ vpn % c.NR_PTES_PER_PAGE →
        get_pte s.current.pagetable i j = some o →
        get_pte s'.current.pagetable i j = some o) ∧
      (∀ i j o, i ≠ vpn / c.NR_PTES_PER_PAGE ∨ j ≠ vpn % c.NR_PTES_PER_PAGE →
        get_pte s'.current.pagetable i j = some o →
        get_pte s.current.pagetable i j = some o ∨
          (s.current.pagetable.pdes[vpn / c.NR_PTES_PER_PAGE]? = some none ∧
            i = vpn / c.NR_PTES_PER_PAGE ∧ o = zero_pte)) ∧
      s'.processes = s.processes ∧ s'.tlb = s.tlb ∧ s'.current.pid = s.current.pid := by
  obtain ⟨x, hx⟩ := first_free_isSome hfree
  obtain ⟨d, hd⟩ := hwf.slot (in_range_div hr)
  have hi : vpn / c.NR_PTES_PER_PAGE < s.current.pagetable.pdes.length :=
    (List.getElem?_eq_some_iff.mp hd).1
  have hjlt : vpn % c.NR_PTES_PER_PAGE < (dir_or_new c d).ptes.length := by
    rw [dir_or_new_length hwf hd]; exact in_range_mod hr
  refine ⟨_, x, alloc_page_success hwf hr hd hx, ?_, ?_, ?_, rfl, rfl, rfl⟩
  · simp [VM.set_pagetable, lookup_pte, get_pte, List.getElem?_set_self hi,
      List.getElem?_set_self hjlt]
  · intro i j o hij ho
    show get_pte { pdes := _ } i j = some o
    rw [← set_pte_ensure_dir hd, get_pte_set_pte_ne hij]
    exact get_pte_ensure_dir_of_some hd ho
  · intro i j o hij ho
    change get_pte { pdes := _ } i j = some o at ho
    rw [← set_pte_ensure_dir hd, get_pte_set_pte_ne hij] at ho
    rcases get_pte_ensure_dir hd ho with h | ⟨hnone, hii, hz⟩
    · exact Or.inl h
    · subst hnone
      exact Or.inr ⟨hd, hii, hz⟩

/-- Claim C15 at a concrete input: `alloc_page(2, 1)` in `one_page_state`, which
creates the second page directory. -/
theorem alloc_page_effect_witness :
    (one_page_state.current.pagetable.WF small ∧ in_range small 2 ∧
      ∃ f : Nat, one_page_state.mapcounts[f]? = some 0) ∧
    ∃ s' f, alloc_page small one_page_state 2 1 = some (s', f) ∧
      lookup_pte small s'.current.pagetable 2 =
        some { valid := true, rw := 1, pfn := f, private_ := 1 } ∧
      (∀ i j o, i ≠ 2 / small.NR_PTES_PER_PAGE ∨ j ≠ 2 % small.NR_PTES_PER_PAGE →
        get_pte one_page_state.current.pagetable i j = some o →
        get_pte s'.current.pagetable i j = some o) ∧
      (∀ i j o, i ≠ 2 / small.NR_PTES_PER_PAGE ∨ j ≠ 2 % small.NR_PTES_PER_PAGE →
        get_pte s'.current.pagetable i j = some o →
        get_pte one_page_state.current.pagetable i j = some o ∨
          (one_page_state.current.pagetable.pdes[2 / small.NR_PTES_PER_PAGE]? = some none ∧
            i = 2 / small.NR_PTES_PER_PAGE ∧ o = zero_pte)) ∧
      s'.processes = one_page_state.processes ∧ s'.tlb = one_page_state.tlb ∧
      s'.current.pid = one_page_state.current.pid :=
  ⟨⟨by decide, by decide, 1, by decide⟩,
   alloc_page_effect small one_page_state 2 1 (by decide) (by decide) ⟨1, by decide⟩⟩

/-! ### Claim C16 -/

/-- Claim C16: a TLB hit is sound.  If `lookup_tlb(vpn, rw)` returns frame `p`,
then some valid TLB entry has that VPN and `pfn == p`, the access is a read or
a write, and the entry's permission includes the access (`rw` 1 or 3 for a
read, 3 for a write); in particular, if every valid entry for the VPN is
read-only, the access was not a write. -/
theorem lookup_tlb_sound (s : VM) (vpn rw p : Nat) (h : lookup_tlb s vpn rw = some p) :
    (∃ t ∈ s.tlb, t.valid = true ∧ t.vpn = vpn ∧ t.pfn = p ∧ t.rw &&& rw = rw ∧
      ((rw = ACCESS_READ ∧ (t.rw = 1 ∨ t.rw = 3)) ∨ (rw = ACCESS_WRITE ∧ t.rw = 3))) ∧
    ((∀ t ∈ s.tlb, t.valid = true → t.vpn = vpn → t.rw = 1) → rw ≠ ACCESS_WRITE) := by
  simp only [lookup_tlb, Option.map_eq_some'] at h
  obtain ⟨t, ht, hp⟩ := h
  have hmem : t ∈ s.tlb := List.mem_of_find?_eq_some ht
  have hhit : tlb_hit vpn rw t = true := List.find?_some ht
  simp only [tlb_hit, Bool.and_eq_true, Bool.or_eq_true, beq_iff_eq] at hhit
  obtain ⟨⟨hv, hvpn⟩, hperm⟩ := hhit
  have hcases : (rw = ACCESS_READ ∧ (t.rw = 1 ∨ t.rw = 3)) ∨ (rw = ACCESS_WRITE ∧ t.rw = 3) := by
    rcases hperm with ⟨h1, h2⟩ | ⟨h1, h2⟩
    · exact Or.inl ⟨h1, h2⟩
    · exact Or.inr ⟨h1, h2⟩
  refine ⟨⟨t, hmem, hv, hvpn, hp, ?_, hcases⟩, ?_⟩
  · rcases hcases with ⟨h1, h2 | h2⟩ | ⟨h1, h2⟩ <;> rw [h1, h2] <;> decide
  · intro hall hw
    rcases hcases with ⟨h1, -⟩ | ⟨-, h2⟩
    · rw [h1] at hw; revert hw; decide
    · have := hall t hmem hv hvpn
      rw [h2] at this
      revert this; decide

/-- Claim C16 at a concrete input: a write lookup of the cached VPN 0. -/
theorem lookup_tlb_sound_witness :
    lookup_tlb full_cached_state 0 ACCESS_WRITE = some 0 ∧
    (∃ t ∈ full_cached_state.tlb, t.valid = true ∧ t.vpn = 0 ∧ t.pfn = 0 ∧
      t.rw &&& ACCESS_WRITE = ACCESS_WRITE ∧
      ((ACCESS_WRITE = ACCESS_READ ∧ (t.rw = 1 ∨ t.rw = 3)) ∨
        (ACCESS_WRITE = ACCESS_WRITE ∧ t.rw = 3))) ∧
    ((∀ t ∈ full_cached_state.tlb, t.valid = true → t.vpn = 0 → t.rw = 1) →
      ACCESS_WRITE ≠ ACCESS_WRITE) :=
  ⟨by decide, lookup_tlb_sound full_cached_state 0 ACCESS_WRITE 0 (by decide)⟩

/-! ### Claim C17 -/

/-- Claim C17, what the code does: in a duplicate-free TLB that has a valid
entry for the VPN or an invalid slot, `insert_tlb(vpn, ACCESS_READ, pfn)`
followed by `lookup_tlb(vpn, ACCESS_READ)` hits with `pfn`, but
`insert_tlb(vpn, ACCESS_WRITE, pfn)` followed by `lookup_tlb(vpn, ACCESS_WRITE)`
misses: the slot just written has `rw == 2` and a write lookup accepts only
`rw == 3`. -/
theorem insert_write_then_lookup_write_misses (s : VM) (vpn pfn : Nat)
    (hu : tlb_unique s.tlb)
    (hpre : (∃ t ∈ s.tlb, t.valid = true ∧ t.vpn = vpn) ∨ (∃ t ∈ s.tlb, t.valid = false)) :
    lookup_tlb (insert_tlb s vpn ACCESS_READ pfn) vpn ACCESS_READ = some pfn ∧
    lookup_tlb (insert_tlb s vpn ACCESS_WRITE pfn) vpn ACCESS_WRITE = none ∧
    ∃ t ∈ (insert_tlb s vpn ACCESS_WRITE pfn).tlb,
      t = { valid := true, rw := ACCESS_WRITE, vpn := vpn, pfn := pfn } := by
  have hins : ∃ k, k < s.tlb.length ∧ (insert_tlb s vpn ACCESS_WRITE pfn).tlb =
      s.tlb.set k { valid := true, rw := ACCESS_WRITE, vpn := vpn, pfn := pfn } := by
    rcases insert_tlb_cases s vpn ACCESS_WRITE pfn with
      ⟨k, t, hk, -, -, -, heq⟩ | ⟨-, k, t, hk, -, -, heq⟩ | ⟨hno, hfull, -⟩
    · exact ⟨k, (List.getElem?_eq_some_iff.mp hk).1, by rw [heq]⟩
    · exact ⟨k, (List.getElem?_eq_some_iff.mp hk).1, by rw [heq]⟩
    · exfalso
      rcases hpre with ⟨t, ht, hv⟩ | ⟨t, ht, hv⟩
      · exact hno t ht hv
      · rw [hfull t ht] at hv; cases hv
  obtain ⟨k, hklt, hk⟩ := hins
  have hnew : (insert_tlb s vpn ACCESS_WRITE pfn).tlb[k]? =
      some { valid := true, rw := ACCESS_WRITE, vpn := vpn, pfn := pfn } := by
    rw [hk, List.getElem?_set_self hklt]
  refine ⟨lookup_tlb_insert_tlb s vpn ACCESS_READ ACCESS_READ pfn hpre
    (by simp [tlb_hit, ACCESS_READ]), ?_, ⟨_, List.mem_iff_getElem?.mpr ⟨k, hnew⟩, rfl⟩⟩
  cases hl : lookup_tlb (insert_tlb s vpn ACCESS_WRITE pfn) vpn ACCESS_WRITE with
  | none => rfl
  | some p =>
    exfalso
    simp only [lookup_tlb, Option.map_eq_some'] at hl
    obtain ⟨t, ht, -⟩ := hl
    have hmem : t ∈ (insert_tlb s vpn ACCESS_WRITE pfn).tlb := List.mem_of_find?_eq_some ht
    have hhit : tlb_hit vpn ACCESS_WRITE t = true := List.find?_some ht
    simp only [tlb_hit, Bool.and_eq_true, Bool.or_eq_true, beq_iff_eq, ACCESS_WRITE] at hhit
    obtain ⟨⟨hv, hvpn⟩, hperm⟩ := hhit
    have h3 : t.rw = 3 := by
      rcases hperm with ⟨h1, -⟩ | ⟨-, h2⟩
      · cases h1
      · exact h2
    obtain ⟨j, hj⟩ := List.mem_iff_getElem?.mp hmem
    have hjk := tlb_unique_insert_tlb s vpn ACCESS_WRITE pfn hu j k t _ hj hnew hv rfl hvpn
    subst hjk
    rw [hnew] at hj
    have := Option.some.inj hj
    rw [← this] at h3
    simp [ACCESS_WRITE] at h3

/-- Claim C17 at the failing input: on the empty TLB of the initial state,
`insert_tlb(0, ACCESS_WRITE, 0)` followed by `lookup_tlb(0, ACCESS_WRITE)`
misses. -/
theorem insert_write_then_lookup_write_misses_witness :
    (tlb_unique (init small 0).tlb ∧
      ((∃ t ∈ (init small 0).tlb, t.valid = true ∧ t.vpn = 0) ∨
        (∃ t ∈ (init small 0).tlb, t.valid = false))) ∧
    (lookup_tlb (insert_tlb (init small 0) 0 ACCESS_READ 0) 0 ACCESS_READ = some 0 ∧
    lookup_tlb (insert_tlb (init small 0) 0 ACCESS_WRITE 0) 0 ACCESS_WRITE = none ∧
    ∃ t ∈ (insert_tlb (init small 0) 0 ACCESS_WRITE 0).tlb,
      t = { valid := true, rw := ACCESS_WRITE, vpn := 0, pfn := 0 }) :=
  ⟨⟨tlb_unique_of_all_invalid (by decide), Or.inr (by decide)⟩,
   insert_write_then_lookup_write_misses (init small 0) 0 0
     (tlb_unique_of_all_invalid (by decide)) (Or.inr (by decide))⟩

/-! ### Claim C18 -/

/-- Claim C18: `insert_tlb` never duplicates.  A TLB with at most one valid
entry per VPN still has at most one afterwards; and when a valid entry for the
VPN exists, at slot `k`, that slot becomes `(valid, vpn, pfn, rw)`, every other
slot is unchanged and the number of valid entries is the same. -/
theorem insert_tlb_no_duplicate (s : VM) (vpn rw pfn : Nat) (hu : tlb_unique s.tlb) :
    tlb_unique (insert_tlb s vpn rw pfn).tlb ∧
    ∀ (k : Nat) (t : tlb_entry), s.tlb[k]? = some t → t.valid = true → t.vpn = vpn →
      (insert_tlb s vpn rw pfn).tlb =
        s.tlb.set k { valid := true, rw := rw, vpn := vpn, pfn := pfn } ∧
      (insert_tlb s vpn rw pfn).tlb.countP (fun t => t.valid) =
        s.tlb.countP (fun t => t.valid) := by
  refine ⟨tlb_unique_insert_tlb s vpn rw pfn hu, fun k t hk hv hvpn => ?_⟩
  rw [insert_tlb_existing s vpn rw pfn hu hk hv hvpn]
  refine ⟨rfl, ?_⟩
  have := countP_set_add (fun t : tlb_entry => t.valid) s.tlb k t
    { valid := true, rw := rw, vpn := vpn, pfn := pfn } hk
  simp only [hv, if_true] at this
  show (s.tlb.set k _).countP _ = _
  omega

/-- Claim C18 at a concrete input: re-inserting the cached VPN 1 with a new
frame and permission. -/
theorem insert_tlb_no_duplicate_witness :
    tlb_unique full_cached_state.tlb ∧
    (tlb_unique (insert_tlb full_cached_state 1 1 0).tlb ∧
    ∀ (k : Nat) (t : tlb_entry), full_cached_state.tlb[k]? = some t → t.valid = true →
      t.vpn = 1 →
      (insert_tlb full_cached_state 1 1 0).tlb =
        full_cached_state.tlb.set k { valid := true, rw := 1, vpn := 1, pfn := 0 } ∧
      (insert_tlb full_cached_state 1 1 0).tlb.countP (fun t => t.valid) =
        full_cached_state.tlb.countP (fun t => t.valid)) :=
  ⟨tlb_unique_full_cached_state,
   insert_tlb_no_duplicate full_cached_state 1 1 0 tlb_unique_full_cached_state⟩

/-! ### Claim C19 -/

/-- Claim C19: when no valid TLB entry has the VPN and some slot is invalid,
`insert_tlb` writes `(valid, vpn, pfn, rw)` into the lowest-index invalid slot
`k` and changes nothing else: the TLB afterwards is the old one with slot `k`
replaced, and the rest of the state is the same. -/
theorem insert_tlb_first_invalid (s : VM) (vpn rw pfn : Nat)
    (hno : ∀ t ∈ s.tlb, t.valid = true → t.vpn ≠ vpn)
    (hinv : ∃ t ∈ s.tlb, t.valid = false) :
    ∃ k t, s.tlb[k]? = some t ∧ t.valid = false ∧
      (∀ (k' : Nat) (t' : tlb_entry), k' < k → s.tlb[k']? = some t' → t'.valid = true) ∧
      (insert_tlb s vpn rw pfn).tlb[k]? =
        some { valid := true, rw := rw, vpn := vpn, pfn := pfn } ∧
      (∀ i : Nat, i ≠ k → (insert_tlb s vpn rw pfn).tlb[i]? = s.tlb[i]?) ∧
      insert_tlb s vpn rw pfn =
        { s with tlb := s.tlb.set k { valid := true, rw := rw, vpn := vpn, pfn := pfn } } := by
  rcases insert_tlb_cases s vpn rw pfn with
    ⟨k, t, hk, hv, hvpn, -, -⟩ | ⟨-, k, t, hk, hv, hmin, heq⟩ | ⟨-, hfull, -⟩
  · exact absurd hvpn (hno t (List.mem_iff_getElem?.mpr ⟨k, hk⟩) hv)
  · have hklt : k < s.tlb.length := (List.getElem?_eq_some_iff.mp hk).1
    refine ⟨k, t, hk, hv, hmin, ?_, ?_, heq⟩
    · rw [heq]
      exact List.getElem?_set_self hklt
    · intro i hik
      rw [heq]
      exact List.getElem?_set_ne (Ne.symm hik)
  · obtain ⟨t, ht, hv⟩ := hinv
    rw [hfull t ht] at hv
    cases hv

/-- Claim C19 at a concrete input: inserting VPN 3 while VPN 0 and VPN 1 occupy
the first two slots. -/
theorem insert_tlb_first_invalid_witness :
    ((∀ t ∈ full_cached_state.tlb, t.valid = true → t.vpn ≠ 3) ∧
      ∃ t ∈ full_cached_state.tlb, t.valid = false) ∧
    ∃ k t, full_cached_state.tlb[k]? = some t ∧ t.valid = false ∧
      (∀ (k' : Nat) (t' : tlb_entry), k' < k → full_cached_state.tlb[k']? = some t' →
        t'.valid = true) ∧
      (insert_tlb full_cached_state 3 1 1).tlb[k]? =
        some { valid := true, rw := 1, vpn := 3, pfn := 1 } ∧
      (∀ i : Nat, i ≠ k → (insert_tlb full_cached_state 3 1 1).tlb[i]? =
        full_cached_state.tlb[i]?) ∧
      insert_tlb full_cached_state 3 1 1 =
        { full_cached_state with
          tlb := full_cached_state.tlb.set k { valid := true, rw := 1, vpn := 3, pfn := 1 } } :=
  ⟨⟨by decide, by decide⟩,
   insert_tlb_first_invalid full_cached_state 3 1 1 (by decide) (by decide)⟩

/-! ### Claim C20 -/

/-- Claim C20, refuted as stated: from the initial state, `alloc_page(0,
ACCESS_WRITE)` (and likewise `alloc_page(0, 3)`) returns frame 0 on the
unmapped in-range VPN 0, and the immediately following `lookup_tlb(0,
ACCESS_WRITE)` misses: `alloc_page` does not touch the TLB. -/
theorem alloc_page_then_lookup_tlb_misses :
    in_range small 0 ∧ mapped small (init small 0).current.pagetable 0 = false ∧
    (init small 0).mapcounts[0]? = some 0 ∧
    (∃ s', alloc_page small (init small 0) 0 ACCESS_WRITE = some (s', 0) ∧
      s'.tlb = (init small 0).tlb ∧ lookup_tlb s' 0 ACCESS_WRITE = none) ∧
    (∃ s', alloc_page small (init small 0) 0 3 = some (s', 0) ∧
      s'.tlb = (init small 0).tlb ∧ lookup_tlb s' 0 ACCESS_WRITE = none) := by
  refine ⟨by decide, by decide, by decide, ⟨_, rfl, by decide, by decide⟩,
    ⟨_, rfl, by decide, by decide⟩⟩

/-- Claim C20, amended: for an in-range VPN and a state with a free frame,
`alloc_page(vpn, 3)` returns a frame `f` and leaves the TLB as it was, so the
immediately following `lookup_tlb(vpn, ACCESS_WRITE)` returns what it returned
before the call; after `insert_tlb(vpn, 3, f)`, in a TLB with a valid entry for
the VPN or an invalid slot, `lookup_tlb(vpn, ACCESS_WRITE)` hits with `f`. -/
theorem alloc_page_insert_tlb_round_trip (c : Config) (s : VM) (vpn : Nat)
    (hwf : s.current.pagetable.WF c) (hr : in_range c vpn)
    (hfree : ∃ f : Nat, s.mapcounts[f]? = some 0)
    (hslot : (∃ t ∈ s.tlb, t.valid = true ∧ t.vpn = vpn) ∨ (∃ t ∈ s.tlb, t.valid = false)) :
    ∃ s' f, alloc_page c s vpn 3 = some (s', f) ∧ s'.tlb = s.tlb ∧
      lookup_tlb s' vpn ACCESS_WRITE = lookup_tlb s vpn ACCESS_WRITE ∧
      lookup_tlb (insert_tlb s' vpn 3 f) vpn ACCESS_WRITE = some f := by
  obtain ⟨x, hx⟩ := first_free_isSome hfree
  obtain ⟨d, hd⟩ := hwf.slot (in_range_div hr)
  refine ⟨_, x, alloc_page_success hwf hr hd hx, rfl, rfl, ?_⟩
  exact lookup_tlb_insert_tlb _ vpn 3 ACCESS_WRITE x hslot (by simp [tlb_hit, ACCESS_WRITE])

/-- Claim C20 (amended) at a concrete input: the first allocation from the
initial state, then `insert_tlb(0, 3, 0)`. -/
theorem alloc_page_insert_tlb_round_trip_witness :
    ((init small 0).current.pagetable.WF small ∧ in_range small 0 ∧
      (∃ f : Nat, (init small 0).mapcounts[f]? = some 0) ∧
      ((∃ t ∈ (init small 0).tlb, t.valid = true ∧ t.vpn = 0) ∨
        (∃ t ∈ (init small 0).tlb, t.valid = false))) ∧
    ∃ s' f, alloc_page small (init small 0) 0 3 = some (s', f) ∧
      s'.tlb = (init small 0).tlb ∧
      lookup_tlb s' 0 ACCESS_WRITE = lookup_tlb (init small 0) 0 ACCESS_WRITE ∧
      lookup_tlb (insert_tlb s' 0 3 f) 0 ACCESS_WRITE = some f :=
  ⟨⟨by decide, by decide, ⟨0, by decide⟩, Or.inr (by decide)⟩,
   alloc_page_insert_tlb_round_trip small (init small 0) 0 (by decide) (by decide)
     ⟨0, by decide⟩ (Or.inr (by decide))⟩

/-! ### Claim C21 -/

/-- Claim C21: when a waiting process has the pid, `switch_process` makes the
first such process current, removes it from the waiting list, appends the
previous current process at the tail and keeps the order of the others; every
process descriptor is moved unchanged (so no PTE changes) and `mapcounts` is
unchanged. -/
theorem switch_process_existing (c : Config) (s : VM) (pid : Nat)
    (h : ∃ q ∈ s.processes, q.pid = pid) :
    ∃ pre next post, s.processes = pre ++ next :: post ∧ next.pid = pid ∧
      (∀ q ∈ pre, q.pid ≠ pid) ∧
      switch_process c s pid = some
        { current := next
          processes := pre ++ post ++ [s.current]
          tlb := flush_tlb s.tlb
          mapcounts := s.mapcounts } := by
  obtain ⟨next, rest, hf⟩ := find_process_of_mem h
  obtain ⟨pre, post, h1, h2, h3, h4⟩ := find_process_split hf
  refine ⟨pre, next, post, h1, h3, h4, ?_⟩
  rw [switch_process_found hf, h2]

/-- Claim C21 at a concrete input: the forked child switches back to its
parent, pid 0. -/
theorem switch_process_existing_witness :
    (∃ q ∈ forked_state.processes, q.pid = 0) ∧
    ∃ pre next post, forked_state.processes = pre ++ next :: post ∧ next.pid = 0 ∧
      (∀ q ∈ pre, q.pid ≠ 0) ∧
      switch_process small forked_state 0 = some
        { current := next
          processes := pre ++ post ++ [forked_state.current]
          tlb := flush_tlb forked_state.tlb
          mapcounts := forked_state.mapcounts } :=
  ⟨⟨forked_parent, by decide, rfl⟩,
   switch_process_existing small forked_state 0 ⟨forked_parent, by decide, rfl⟩⟩

/-! ### Claim C22 -/

/-- Claim C22: for every pid, on the existing-process path and on the fork
path, `switch_process` returns a state whose TLB slots are all zeroed, hence
invalid, so `lookup_tlb` misses for every VPN and access. -/
theorem switch_process_flushes_tlb (c : Config) (s : VM) (pid : Nat)
    (hpfn : ∀ f ∈ valid_pfns s.current.pagetable, f < s.mapcounts.length) :
    ∃ s', switch_process c s pid = some s' ∧ s'.tlb.length = s.tlb.length ∧
      (∀ t ∈ s'.tlb, t = zero_tlb_entry) ∧ (∀ t ∈ s'.tlb, t.valid = false) ∧
      ∀ vpn rw, lookup_tlb s' vpn rw = none := by
  obtain ⟨s', hs'⟩ := switch_process_some c s pid hpfn
  have htlb := switch_process_tlb hs'
  have hz : ∀ t ∈ s'.tlb, t = zero_tlb_entry := by
    rw [htlb]; exact flush_tlb_all_invalid _
  have hinv : ∀ t ∈ s'.tlb, t.valid = false := fun t ht => by rw [hz t ht]; rfl
  exact ⟨s', hs', by rw [htlb]; simp [flush_tlb], hz, hinv, lookup_tlb_of_all_invalid hinv⟩

/-- Claim C22 at a concrete input: a fork from a state with two cached
translations. -/
theorem switch_process_flushes_tlb_witness :
    (∀ f ∈ valid_pfns full_cached_state.current.pagetable,
      f < full_cached_state.mapcounts.length) ∧
    ∃ s', switch_process small full_cached_state 1 = some s' ∧
      s'.tlb.length = full_cached_state.tlb.length ∧
      (∀ t ∈ s'.tlb, t = zero_tlb_entry) ∧ (∀ t ∈ s'.tlb, t.valid = false) ∧
      ∀ vpn rw, lookup_tlb s' vpn rw = none :=
  ⟨by decide, switch_process_flushes_tlb small full_cached_state 1 (by decide)⟩

/-! ### Claim C23 -/

/-- Claim C23: if no waiting process shares the pid of the current process
(as when all pids are pairwise distinct) and a process with pid `p` is waiting,
then `switch_process(p)` followed by `switch_process` with the original pid
makes the original process descriptor current again, its page table identical
in every field, with `mapcounts` unchanged; the process switched to is back in
the waiting list. -/
theorem switch_process_round_trip (c : Config) (s : VM) (p : Nat)
    (hdist : ∀ q ∈ s.processes, q.pid ≠ s.current.pid)
    (hp : ∃ q ∈ s.processes, q.pid = p) :
    ∃ s1 s2 pre next post, s.processes = pre ++ next :: post ∧ next.pid = p ∧
      switch_process c s p = some s1 ∧ s1.current = next ∧
      switch_process c s1 s.current.pid = some s2 ∧
      s2.current = s.current ∧ s2.current.pagetable = s.current.pagetable ∧
      s2.mapcounts = s.mapcounts ∧ s2.processes = pre ++ post ++ [next] := by
  obtain ⟨next, rest, hf⟩ := find_process_of_mem hp
  obtain ⟨pre, post, h1, h2, h3, -⟩ := find_process_split hf
  have hrest : ∀ q ∈ rest, q.pid ≠ s.current.pid := by
    intro q hq
    apply hdist q
    rw [h1]
    rw [h2] at hq
    rcases List.mem_append.mp hq with hq | hq
    · exact List.mem_append_left _ hq
    · exact List.mem_append_right _ (List.mem_cons_of_mem _ hq)
  have hf2 : find_process s.current.pid (rest ++ [s.current]) = some (s.current, rest) :=
    find_process_append_last hrest rfl
  have e1 : switch_process c s p =
      some ⟨next, rest ++ [s.current], flush_tlb s.tlb, s.mapcounts⟩ :=
    switch_process_found hf
  have e2 : switch_process c ⟨next, rest ++ [s.current], flush_tlb s.tlb, s.mapcounts⟩
      s.current.pid =
      some ⟨s.current, rest ++ [next], flush_tlb (flush_tlb s.tlb), s.mapcounts⟩ :=
    switch_process_found hf2
  exact ⟨_, _, pre, next, post, h1, h3, e1, rfl, e2, rfl, rfl, rfl, by rw [h2]⟩

/-- Claim C23 at a concrete input: the forked child (pid 1) switches to its
parent (pid 0) and back. -/
theorem switch_process_round_trip_witness :
    ((∀ q ∈ forked_state.processes, q.pid ≠ forked_state.current.pid) ∧
      ∃ q ∈ forked_state.processes, q.pid = 0) ∧
    ∃ s1 s2 pre next post, forked_state.processes = pre ++ next :: post ∧ next.pid = 0 ∧
      switch_process small forked_state 0 = some s1 ∧ s1.current = next ∧
      switch_process small s1 forked_state.current.pid = some s2 ∧
      s2.current = forked_state.current ∧
      s2.current.pagetable = forked_state.current.pagetable ∧
      s2.mapcounts = forked_state.mapcounts ∧ s2.processes = pre ++ post ++ [next] :=
  ⟨⟨by decide, forked_parent, by decide, rfl⟩,
   switch_process_round_trip small forked_state 0 (by decide)
     ⟨forked_parent, by decide, rfl⟩⟩

/-! ### Claim C24 -/

/-- Claim C24: when no waiting process has the pid, `switch_process` creates
one process with that pid and makes it current; the previous current process
(same pid, page table as the fork loop leaves it) is appended at the tail of
the waiting list, whose earlier members and their order are unchanged, so the
list grows by exactly one. -/
theorem switch_process_fork_bookkeeping (c : Config) (s : VM) (pid : Nat)
    (hpid : ∀ p ∈ s.processes, p.pid ≠ pid)
    (hpfn : ∀ f ∈ valid_pfns s.current.pagetable, f < s.mapcounts.length) :
    ∃ s' parent, switch_process c s pid = some s' ∧ s'.current.pid = pid ∧
      s'.current.pagetable = fork_child_pagetable c s.current.pagetable ∧
      s'.processes = s.processes ++ [parent] ∧ parent.pid = s.current.pid ∧
      parent.pagetable = fork_parent_pagetable s.current.pagetable ∧
      s'.processes.length = s.processes.length + 1 ∧
      ∀ (k : Nat) (q : process), s.processes[k]? = some q → s'.processes[k]? = some q := by
  obtain ⟨mc, -, hsw⟩ := switch_process_fork_some c hpid hpfn
  refine ⟨_, _, hsw, rfl, rfl, rfl, rfl, rfl, by simp, ?_⟩
  intro k q hk
  have hlt : k < s.processes.length := (List.getElem?_eq_some_iff.mp hk).1
  show (s.processes ++ _)[k]? = some q
  rw [List.getElem?_append_left hlt]
  exact hk

/-- Claim C24 at a concrete input: forking pid 2 while pid 0 waits. -/
theorem switch_process_fork_bookkeeping_witness :
    ((∀ p ∈ forked_state.processes, p.pid ≠ 2) ∧
      ∀ f ∈ valid_pfns forked_state.current.pagetable, f < forked_state.mapcounts.length) ∧
    ∃ s' parent, switch_process small forked_state 2 = some s' ∧ s'.current.pid = 2 ∧
      s'.current.pagetable = fork_child_pagetable small forked_state.current.pagetable ∧
      s'.processes = forked_state.processes ++ [parent] ∧
      parent.pid = forked_state.current.pid ∧
      parent.pagetable = fork_parent_pagetable forked_state.current.pagetable ∧
      s'.processes.length = forked_state.processes.length + 1 ∧
      ∀ (k : Nat) (q : process), forked_state.processes[k]? = some q →
        s'.processes[k]? = some q :=
  ⟨⟨by decide, by decide⟩,
   switch_process_fork_bookkeeping small forked_state 2 (by decide) (by decide)⟩

/-! ### Claim C25 -/

/-- Claim C25, refuted as stated: in the forked child the TLB caches VPN 0 to
the shared frame 0 and is coherent; the write fault on VPN 0 is resolved by
copy-on-write, the PTE now holds frame 1, and the TLB is untouched: its valid
entry still maps VPN 0 to the old frame 0, a read lookup still returns frame 0,
and the TLB is no longer coherent. -/
theorem handle_page_fault_leaves_stale_tlb :
    tlb_coherent small forked_cached_state ∧
    handle_page_fault small forked_cached_state 0 ACCESS_WRITE
      = some ({ cow_resolved_state with tlb := forked_cached_state.tlb }, true) ∧
    lookup_pte small cow_resolved_state.current.pagetable 0
      = some { valid := true, rw := 3, pfn := 1, private_ := 3 } ∧
    lookup_tlb { cow_resolved_state with tlb := forked_cached_state.tlb } 0 ACCESS_READ
      = some 0 ∧
    ¬ tlb_coherent small { cow_resolved_state with tlb := forked_cached_state.tlb } := by
  decide

/-- Claim C25, amended: from a coherent TLB, coherence is preserved by
`alloc_page` on an unmapped VPN, by `free_page` and by `switch_process`.
`handle_page_fault` never writes the TLB: it changes nothing when it returns
`false`, and it keeps every TLB entry for another VPN coherent; the entry of
the faulting VPN is made coherent again only when `insert_tlb` then rewrites it
with the frame number the PTE holds (TLB with at most one valid entry per
VPN). -/
theorem tlb_coherent_preserved (c : Config) (s : VM) (hc : tlb_coherent c s) :
    (∀ vpn rw s' x, mapped c s.current.pagetable vpn = false →
      alloc_page c s vpn rw = some (s', x) → tlb_coherent c s') ∧
    (∀ vpn s', free_page c s vpn = some s' → tlb_coherent c s') ∧
    (∀ pid s', switch_process c s pid = some s' → tlb_coherent c s') ∧
    (∀ vpn rw s' b, handle_page_fault c s vpn rw = some (s', b) →
      s'.tlb = s.tlb ∧ (b = false → s' = s) ∧
      (∀ t ∈ s'.tlb, t.vpn ≠ vpn → tlb_entry_coherent c s'.current.pagetable t = true) ∧
      (tlb_unique s.tlb → ∀ e q, lookup_pte c s'.current.pagetable vpn = some e →
        e.valid = true → tlb_coherent c (insert_tlb s' vpn q e.pfn))) := by
  refine ⟨?_, ?_, ?_, ?_⟩
  · intro vpn rw s' x hm h t ht
    have htlb : s'.tlb = s.tlb := by
      unfold alloc_page at h
      simp only at h
      split at h
      · simp at h
      · split at h
        · split at h
          · split at h
            · simp only [Option.some.injEq, Prod.mk.injEq] at h
              obtain ⟨rfl, -⟩ := h
              rfl
            · simp at h
          · simp only [Option.some.injEq, Prod.mk.injEq] at h
            obtain ⟨rfl, -⟩ := h
            rfl
        · simp at h
    rw [htlb] at ht
    cases hv : t.valid
    · simp [tlb_entry_coherent, hv]
    · have hmt := mapped_of_coherent (hc t ht) hv
      have hne : t.vpn ≠ vpn := fun heq => by rw [heq, hm] at hmt; exact Bool.noConfusion hmt
      exact tlb_entry_coherent_congr (hc t ht) (lookup_pte_alloc_page_other h hne hmt)
  · intro vpn s' h t ht
    have htlb : s'.tlb = tlb_invalidate vpn s.tlb := by
      unfold free_page at h
      simp only at h
      split at h
      · simp at h
      · split at h
        · simp at h
        · simp only [Option.some.injEq] at h
          subst h
          rfl
    rw [htlb, tlb_invalidate, List.mem_map] at ht
    obtain ⟨t0, ht0, rfl⟩ := ht
    by_cases hvpn : t0.vpn = vpn
    · simp [tlb_entry_coherent, hvpn]
    · simp only [hvpn, if_false]
      exact tlb_entry_coherent_congr (hc t0 ht0) (lookup_pte_free_page_other h hvpn)
  · intro pid s' h t ht
    rw [switch_process_tlb h] at ht
    rw [flush_tlb_all_invalid s.tlb t ht]
    simp [tlb_entry_coherent, zero_tlb_entry]
  · intro vpn rw s' b h
    obtain ⟨htlb, hfalse, hother⟩ := handle_page_fault_frame h
    have ho : ∀ t ∈ s'.tlb, t.vpn ≠ vpn →
        tlb_entry_coherent c s'.current.pagetable t = true := by
      intro t ht hne
      rw [htlb] at ht
      exact tlb_entry_coherent_congr (hc t ht) (hother t.vpn hne)
    refine ⟨htlb, hfalse, ho, fun hu e q he hev => ?_⟩
    exact tlb_coherent_insert_tlb q (by rw [htlb]; exact hu) ho he hev

/-- Claim C25 (amended) at a concrete input: the forked child with VPN 0
cached.  Each of the four operations returns a state there. -/
theorem tlb_coherent_preserved_witness :
    tlb_coherent small forked_cached_state ∧
    (alloc_page small forked_cached_state 1 3).isSome = true ∧
    (free_page small forked_cached_state 0).isSome = true ∧
    (switch_process small forked_cached_state 0).isSome = true ∧
    (handle_page_fault small forked_cached_state 0 ACCESS_WRITE).isSome = true ∧
    ((∀ vpn rw s' x, mapped small forked_cached_state.current.pagetable vpn = false →
      alloc_page small forked_cached_state vpn rw = some (s', x) → tlb_coherent small s') ∧
    (∀ vpn s', free_page small forked_cached_state vpn = some s' → tlb_coherent small s') ∧
    (∀ pid s', switch_process small forked_cached_state pid = some s' →
      tlb_coherent small s') ∧
    (∀ vpn rw s' b, handle_page_fault small forked_cached_state vpn rw = some (s', b) →
      s'.tlb = forked_cached_state.tlb ∧ (b = false → s' = forked_cached_state) ∧
      (∀ t ∈ s'.tlb, t.vpn ≠ vpn →
        tlb_entry_coherent small s'.current.pagetable t = true) ∧
      (tlb_unique forked_cached_state.tlb →
        ∀ e q, lookup_pte small s'.current.pagetable vpn = some e →
          e.valid = true → tlb_coherent small (insert_tlb s' vpn q e.pfn)))) :=
  ⟨by decide, by decide, by decide, by decide, by decide,
   tlb_coherent_preserved small forked_cached_state (by decide)⟩

/-! ### Claim C26 -/

/-- Claim C26, refuted as stated: `handle_page_fault(0, ACCESS_WRITE)` in
`zero_count_state` leads to a state in which `mapcounts[0]` is `2 ^ 32 - 1` and
the current process has one valid entry on frame 0; the fork by
`switch_process(2)` leaves `mapcounts[0] = 0`, not `2 ^ 32 - 1 + 1`. -/
theorem switch_process_fork_wraps_count :
    ((alloc_page small (init small 0) 0 3).bind fun r1 =>
      (alloc_page small r1.1 1 3).bind fun r2 =>
      (switch_process small r2.1 1).bind fun s3 =>
      (handle_page_fault small s3 0 ACCESS_WRITE).bind fun r4 =>
      (free_page small r4.1 0).bind fun s5 =>
      (switch_process small s5 0).bind fun s6 =>
      handle_page_fault small s6 0 ACCESS_WRITE) = some (wrapped_count_state, true) ∧
    (∀ p ∈ wrapped_count_state.processes, p.pid ≠ 2) ∧
    wrapped_count_state.mapcounts = [4294967295, 2] ∧
    wrapped_count_state.current.pagetable.refs 0 = 1 ∧
    wrapped_count_state.current.pagetable.refs 1 = 1 ∧
    (switch_process small wrapped_count_state 2).map (fun s => s.mapcounts)
      = some [0, 3] := by
  decide

/-- Claim C26, amended: on the fork path the count of every frame `f` grows
by the number of valid entries of the forking process that map `f`, whatever
their permission, as an `unsigned int`: the new count is the sum modulo
`2 ^ 32`, which is the sum itself when it stays below `2 ^ 32`.  The number of
valid entries of all processes that map `f` grows by the same amount; so frame
accounting, if it held before the fork, holds after it whenever the numbers of
referencing entries after the fork stay below `2 ^ 32`. -/
theorem switch_process_fork_accounting (c : Config) (s : VM) (pid : Nat)
    (hpid : ∀ p ∈ s.processes, p.pid ≠ pid)
    (hpfn : ∀ f ∈ valid_pfns s.current.pagetable, f < s.mapcounts.length) :
    ∃ s', switch_process c s pid = some s' ∧ s'.mapcounts.length = s.mapcounts.length ∧
      (∀ f m, s.mapcounts[f]? = some m →
        s'.mapcounts[f]? = some (if s.current.pagetable.refs f = 0 then m
          else (m + s.current.pagetable.refs f) % UINT_SIZE) ∧
        (m + s.current.pagetable.refs f < UINT_SIZE →
          s'.mapcounts[f]? = some (m + s.current.pagetable.refs f))) ∧
      (∀ f, s'.refs f = s.refs f + s.current.pagetable.refs f) ∧
      (frame_accounting s →
        (∀ f, f < s.mapcounts.length → s.refs f + s.current.pagetable.refs f < UINT_SIZE) →
        frame_accounting s') := by
  obtain ⟨mc, hinc, hsw⟩ := switch_process_fork_some c hpid hpfn
  obtain ⟨hlen, hspec⟩ := inc_all_getElem? hinc
  have hnew : ∀ f m, s.mapcounts[f]? = some m →
      mc[f]? = some (if s.current.pagetable.refs f = 0 then m
        else (m + s.current.pagetable.refs f) % UINT_SIZE) := by
    intro f m hm
    rw [hspec f m hm, count_valid_pfns]
  have hexact : ∀ f m, s.mapcounts[f]? = some m →
      m + s.current.pagetable.refs f < UINT_SIZE →
      mc[f]? = some (m + s.current.pagetable.refs f) := by
    intro f m hm hlt
    rw [hnew f m hm]
    congr 1
    split
    · omega
    · exact Nat.mod_eq_of_lt hlt
  refine ⟨_, hsw, hlen, fun f m hm => ⟨hnew f m hm, hexact f m hm⟩,
    refs_after_fork c s pid mc, fun hacc hbound f hf => ?_⟩
  have hf' : f < s.mapcounts.length := by rw [← hlen]; exact hf
  show mc[f]? = _
  rw [refs_after_fork, hexact f _ (hacc f hf') (hbound f hf')]

/-- Claim C26 (amended) at a concrete input: the fork of `full_state`, whose
two frames are mapped once each. -/
theorem switch_process_fork_accounting_witness :
    ((∀ p ∈ full_state.processes, p.pid ≠ 1) ∧
      ∀ f ∈ valid_pfns full_state.current.pagetable, f < full_state.mapcounts.length) ∧
    ∃ s', switch_process small full_state 1 = some s' ∧
      s'.mapcounts.length = full_state.mapcounts.length ∧
      (∀ f m, full_state.mapcounts[f]? = some m →
        s'.mapcounts[f]? = some (if full_state.current.pagetable.refs f = 0 then m
          else (m + full_state.current.pagetable.refs f) % UINT_SIZE) ∧
        (m + full_state.current.pagetable.refs f < UINT_SIZE →
          s'.mapcounts[f]? = some (m + full_state.current.pagetable.refs f))) ∧
      (∀ f, s'.refs f = full_state.refs f + full_state.current.pagetable.refs f) ∧
      (frame_accounting full_state →
        (∀ f, f < full_state.mapcounts.length →
          full_state.refs f + full_state.current.pagetable.refs f < UINT_SIZE) →
        frame_accounting s') :=
  ⟨⟨by decide, by decide⟩,
   switch_process_fork_accounting small full_state 1 (by decide) (by decide)⟩

/-! ### Claim C27 -/

/-- Claim C27, refuted as stated: in the initial state the only process has
pid 0; `switch_process(0)` finds no waiting process with pid 0 and forks, so
afterwards the current process and the waiting process both have pid 0. -/
theorem switch_process_forks_on_current_pid :
    (pids (init small 0)).Nodup ∧ (init small 0).current.pid = 0 ∧
    ∃ s', switch_process small (init small 0) 0 = some s' ∧
      s'.processes.length = (init small 0).processes.length + 1 ∧
      pids s' = [0, 0] ∧ ¬ (pids s').Nodup := by
  refine ⟨by decide, rfl, _, rfl, by decide, by decide, by decide⟩

/-- Claim C27, amended: `switch_process(pid)` forks exactly when no waiting
process has the pid (the current process is not consulted); if the pids of all
processes are pairwise distinct and `pid` is not the pid of the current
process, they are pairwise distinct afterwards. -/
theorem switch_process_pids_distinct (c : Config) (s : VM) (pid : Nat)
    (hnd : (pids s).Nodup) (hne : pid ≠ s.current.pid)
    (hpfn : ∀ f ∈ valid_pfns s.current.pagetable, f < s.mapcounts.length) :
    ∃ s', switch_process c s pid = some s' ∧ (pids s').Nodup ∧
      ((∀ q ∈ s.processes, q.pid ≠ pid) →
        s'.processes.length = s.processes.length + 1) ∧
      ((∃ q ∈ s.processes, q.pid = pid) → s'.processes.length = s.processes.length) := by
  by_cases hex : ∃ q ∈ s.processes, q.pid = pid
  · obtain ⟨next, rest, hf⟩ := find_process_of_mem hex
    obtain ⟨pre, post, h1, h2, -, -⟩ := find_process_split hf
    refine ⟨_, switch_process_found hf, ?_, ?_, ?_⟩
    · rw [h2]
      exact pids_nodup_found h1 hnd _ _
    · intro hno
      obtain ⟨q, hq, hqp⟩ := hex
      exact absurd hqp (hno q hq)
    · intro _
      show (rest ++ [s.current]).length = _
      rw [h2, h1]
      simp
  · have hpid : ∀ q ∈ s.processes, q.pid ≠ pid := fun q hq hqp => hex ⟨q, hq, hqp⟩
    obtain ⟨mc, -, hsw⟩ := switch_process_fork_some c hpid hpfn
    refine ⟨_, hsw, pids_nodup_fork hnd hpid hne _ _ _ _, fun _ => by simp, fun h => absurd h hex⟩

/-- Claim C27 (amended) at a concrete input: from the initial state (pid 0),
`switch_process(1)` forks pid 1. -/
theorem switch_process_pids_distinct_witness :
    ((pids (init small 0)).Nodup ∧ 1 ≠ (init small 0).current.pid ∧
      ∀ f ∈ valid_pfns (init small 0).current.pagetable,
        f < (init small 0).mapcounts.length) ∧
    ∃ s', switch_process small (init small 0) 1 = some s' ∧ (pids s').Nodup ∧
      ((∀ q ∈ (init small 0).processes, q.pid ≠ 1) →
        s'.processes.length = (init small 0).processes.length + 1) ∧
      ((∃ q ∈ (init small 0).processes, q.pid = 1) →
        s'.processes.length = (init small 0).processes.length) :=
  ⟨⟨by decide, by decide, by decide⟩,
   switch_process_pids_distinct small (init small 0) 1 (by decide) (by decide) (by decide)⟩

/-! ### Claim C28 -/

/-- Claim C28, what the code does when the page directory of the VPN is
absent: for a write access `handle_page_fault` reads the entry through the
null directory pointer (the embedding returns `none`); only for an access other
than `ACCESS_WRITE` does the short-circuit of the condition avoid the read, and
the call returns `false` with the state unchanged. -/
theorem handle_page_fault_absent_directory (c : Config) (s : VM) (vpn : Nat)
    (hd : s.current.pagetable.pdes[vpn / c.NR_PTES_PER_PAGE]? = some none) :
    handle_page_fault c s vpn ACCESS_WRITE = none ∧
    ∀ rw, rw ≠ ACCESS_WRITE → handle_page_fault c s vpn rw = some (s, false) := by
  refine ⟨?_, fun rw hrw => handle_page_fault_not_write hrw⟩
  simp [handle_page_fault, get_pte, hd]

/-- Claim C28 at the failing input: a write fault on VPN 0 of the initial
state, whose page directories are all absent. -/
theorem handle_page_fault_absent_directory_witness :
    (in_range small 0 ∧
      (init small 0).current.pagetable.pdes[0 / small.NR_PTES_PER_PAGE]? = some none) ∧
    (handle_page_fault small (init small 0) 0 ACCESS_WRITE = none ∧
    ∀ rw, rw ≠ ACCESS_WRITE →
      handle_page_fault small (init small 0) 0 rw = some (init small 0, false)) :=
  ⟨⟨by decide, by decide⟩,
   handle_page_fault_absent_directory small (init small 0) 0 (by decide)⟩

/-! ### Claim C29 -/

/-- Claim C29, refuted as stated: every slot of the TLB is valid and none
holds VPN 7; `insert_tlb(7, 3, 1)` returns with the state unchanged and the
following lookups of VPN 7 miss. -/
theorem insert_tlb_full_is_dropped :
    (∀ t ∈ tlb_full_state.tlb, t.valid = true) ∧ (∀ t ∈ tlb_full_state.tlb, t.vpn ≠ 7) ∧
    insert_tlb tlb_full_state 7 3 1 = tlb_full_state ∧
    lookup_tlb (insert_tlb tlb_full_state 7 3 1) 7 ACCESS_READ = none ∧
    lookup_tlb (insert_tlb tlb_full_state 7 3 1) 7 ACCESS_WRITE = none := by
  decide

/-- Claim C29, amended: when every TLB slot is valid and none holds the VPN,
`insert_tlb` returns normally with the TLB, and the whole state, unchanged; the
translation is not cached, so every following lookup of the VPN misses. -/
theorem insert_tlb_full (s : VM) (vpn rw pfn : Nat)
    (hfull : ∀ t ∈ s.tlb, t.valid = true) (hno : ∀ t ∈ s.tlb, t.vpn ≠ vpn) :
    insert_tlb s vpn rw pfn = s ∧
    ∀ rw', lookup_tlb (insert_tlb s vpn rw pfn) vpn rw' = none := by
  have hu : tlb_update vpn rw pfn s.tlb = none :=
    tlb_update_eq_none.mpr (fun t ht h => hno t ht h.2)
  have heq : insert_tlb s vpn rw pfn = s := by
    simp [insert_tlb, hu, tlb_fill_of_full hfull]
  refine ⟨heq, fun rw' => ?_⟩
  rw [heq]
  simp only [lookup_tlb, Option.map_eq_none', List.find?_eq_none]
  intro t ht
  have := hno t ht
  simp [tlb_hit, this]

/-- Claim C29 (amended) at a concrete input: inserting VPN 7 into the full
TLB. -/
theorem insert_tlb_full_witness :
    ((∀ t ∈ tlb_full_state.tlb, t.valid = true) ∧ ∀ t ∈ tlb_full_state.tlb, t.vpn ≠ 7) ∧
    (insert_tlb tlb_full_state 7 3 1 = tlb_full_state ∧
    ∀ rw', lookup_tlb (insert_tlb tlb_full_state 7 3 1) 7 rw' = none) :=
  ⟨⟨by decide, by decide⟩, insert_tlb_full tlb_full_state 7 3 1 (by decide) (by decide)⟩

/-! ### Claim C30 -/

/-- Claim C30: `insert_tlb` is idempotent: for every state and every `vpn`,
`rw`, `pfn`, inserting the same translation twice in succession gives exactly
the state, and hence the TLB, that inserting it once gives. -/
theorem insert_tlb_idempotent (s : VM) (vpn rw pfn : Nat) :
    insert_tlb (insert_tlb s vpn rw pfn) vpn rw pfn = insert_tlb s vpn rw pfn := by
  rcases insert_tlb_cases s vpn rw pfn with
    ⟨k, t, hk, -, -, hmin, heq⟩ | ⟨hno, k, t, hk, -, -, heq⟩ | ⟨-, -, heq⟩
  · have hklt : k < s.tlb.length := (List.getElem?_eq_some_iff.mp hk).1
    rw [heq]
    simp [insert_tlb, tlb_update_set_first vpn rw pfn s.tlb k hklt hmin]
  · have hklt : k < s.tlb.length := (List.getElem?_eq_some_iff.mp hk).1
    rw [heq]
    simp [insert_tlb, tlb_update_set_first vpn rw pfn s.tlb k hklt
      (fun k' t' _ ht' => hno t' (List.mem_iff_getElem?.mpr ⟨k', ht'⟩))]
  · rw [heq, heq]

/-! ### Claim C31 -/

/-- Claim C31, what the code does on an already mapped VPN: when frame
accounting holds, the VPN is validly mapped to frame `f` and some frame is free,
`alloc_page` returns the lowest free frame and overwrites the entry without
releasing `f`: the count of `f` is unchanged while one valid entry fewer maps
`f`, so frame accounting no longer holds. -/
theorem alloc_page_mapped_leaks_frame (c : Config) (s : VM) (vpn rw x : Nat) (e : pte)
    (hacc : frame_accounting s)
    (he : lookup_pte c s.current.pagetable vpn = some e) (hv : e.valid = true)
    (hf : e.pfn < s.mapcounts.length)
    (hx : first_free s.mapcounts = some x) :
    ∃ s', alloc_page c s vpn rw = some (s', x) ∧
      s'.mapcounts[e.pfn]? = some (s.refs e.pfn) ∧
      s'.refs e.pfn + 1 = s.refs e.pfn ∧
      ¬ frame_accounting s' := by
  have hx0 : s.mapcounts[x]? = some 0 := (first_free_eq_some.mp hx).1
  have hme : maps_frame e.pfn e = true := by simp [maps_frame, hv]
  have hpos : 1 ≤ s.refs e.pfn :=
    VM.refs_pos_of_mem (List.mem_cons_self _ _) he hme
  have hne : x ≠ e.pfn := by
    intro h
    have h1 := hacc e.pfn hf
    rw [← h, hx0] at h1
    simp only [Option.some.injEq] at h1
    rw [h] at h1
    omega
  have hmc : (s.mapcounts.set x 1)[e.pfn]? = some (s.refs e.pfn) := by
    rw [List.getElem?_set_ne hne]
    exact hacc e.pfn hf
  have he' : get_pte s.current.pagetable (vpn / c.NR_PTES_PER_PAGE)
      (vpn % c.NR_PTES_PER_PAGE) = some e := he
  have hrefs := refs_set_pte { valid := true, rw := rw, pfn := x, private_ := rw } e.pfn he'
  have hnew : maps_frame e.pfn { valid := true, rw := rw, pfn := x, private_ := rw } = false := by
    simp [maps_frame, hne]
  rw [hme, hnew] at hrefs
  simp only [if_true, Bool.false_eq_true, if_false, Nat.add_zero] at hrefs
  refine ⟨_, alloc_page_present he hx, hmc, ?_, ?_⟩
  · show (set_pte _ _ _ _).refs e.pfn +
        (s.processes.map (fun p => p.pagetable.refs e.pfn)).sum + 1
      = s.current.pagetable.refs e.pfn +
        (s.processes.map (fun p => p.pagetable.refs e.pfn)).sum
    omega
  · intro hacc'
    have h1 := hacc' e.pfn (by simpa using hf)
    have h2 : (s.mapcounts.set x 1)[e.pfn]? = some
        ((set_pte s.current.pagetable (vpn / c.NR_PTES_PER_PAGE) (vpn % c.NR_PTES_PER_PAGE)
            { valid := true, rw := rw, pfn := x, private_ := rw }).refs e.pfn +
          (s.processes.map (fun p => p.pagetable.refs e.pfn)).sum) := h1
    rw [hmc] at h2
    simp only [Option.some.injEq, VM.refs] at h2
    omega

/-- Claim C31 at the failing input: `alloc_page(0, 3)` in the state where VPN 0
is already mapped to frame 0 and frame 1 is free.  The call returns frame 1 and
leaves `mapcounts = [1, 1]` with no valid entry mapping frame 0. -/
theorem alloc_page_mapped_leaks_frame_witness :
    (frame_accounting one_page_state ∧ in_range small 0 ∧
      lookup_pte small one_page_state.current.pagetable 0
        = some { valid := true, rw := 3, pfn := 0, private_ := 3 } ∧
      first_free one_page_state.mapcounts = some 1) ∧
    (alloc_page small one_page_state 0 3).map (fun r => (r.1.mapcounts, r.1.refs 0, r.2))
      = some ([1, 1], 0, 1) ∧
    ∃ s', alloc_page small one_page_state 0 3 = some (s', 1) ∧
      s'.mapcounts[0]? = some (one_page_state.refs 0) ∧
      s'.refs 0 + 1 = one_page_state.refs 0 ∧
      ¬ frame_accounting s' :=
  have hacc : frame_accounting one_page_state := by
    intro f hf
    have hf2 : f < 2 := hf
    interval_cases f <;> rfl
  ⟨⟨hacc, by decide, rfl, rfl⟩, by decide,
   alloc_page_mapped_leaks_frame small one_page_state 0 3 1
     { valid := true, rw := 3, pfn := 0, private_ := 3 } hacc rfl rfl (by decide) rfl⟩

end VMSim

namespace Sched

/-! ## Scheduler lemmas -/

/-- The tie scan finds a process of the priority when the queue holds one. -/
theorem find_prio_of_mem {prior : Nat} {q : List process}
    (h : ∃ p ∈ q, p.prio = prior) :
    ∃ i t, find_prio prior q = some i ∧ q[i]? = some t ∧ t.prio = prior := by
  induction q with
  | nil => simp at h
  | cons a as ih =>
    by_cases ha : a.prio = prior
    · exact ⟨0, a, by simp [find_prio, ha], by simp, ha⟩
    · obtain ⟨p, hp, hpp⟩ := h
      rcases List.mem_cons.mp hp with rfl | hp
      · exact absurd hpp ha
      · obtain ⟨i, t, hi, ht, htp⟩ := ih ⟨p, hp, hpp⟩
        exact ⟨i + 1, t, by simp [find_prio, ha, hi], by simpa using ht, htp⟩

/-- Removing the process at one position keeps every process that differs
from it. -/
theorem mem_eraseIdx_of_ne {q : List process} {i : Nat} {t p : process}
    (hi : q[i]? = some t) (hp : p ∈ q) (hne : p ≠ t) : p ∈ q.eraseIdx i := by
  obtain ⟨k, hk⟩ := List.mem_iff_getElem?.mp hp
  rw [List.mem_eraseIdx_iff_getElem?]
  refine ⟨k, ?_, hk⟩
  rintro rfl
  rw [hk] at hi
  exact hne (Option.some.inj hi)

/-- The scan for a higher priority ends on a process whose priority no process
of the queue exceeds. -/
theorem scan_highest_spec (ts pre : List process) (best highest i : Nat) (b : process)
    (hlen : pre.length = i) (hb : (pre ++ ts)[best]? = some b) (hbp : b.prio = highest)
    (hpre : ∀ p ∈ pre, p.prio ≤ highest) :
    ∃ t, (pre ++ ts)[scan_highest best highest i ts]? = some t ∧
      ∀ p ∈ pre ++ ts, p.prio ≤ t.prio := by
  induction ts generalizing pre best highest i b with
  | nil =>
    refine ⟨b, hb, fun p hp => ?_⟩
    rw [hbp]
    exact hpre p (by simpa using hp)
  | cons t ts ih =>
    have hsplit : pre ++ t :: ts = (pre ++ [t]) ++ ts := by simp
    have hlen2 : (pre ++ [t]).length = i + 1 := by simp [hlen]
    by_cases ht : t.prio > highest
    · have hti : ((pre ++ [t]) ++ ts)[i]? = some t := by
        rw [List.getElem?_append_left (by simp [hlen]), ← hlen]; simp
      have := ih (pre ++ [t]) i t.prio (i + 1) t hlen2 hti rfl (fun p hp => by
        rcases List.mem_append.mp hp with hp | hp
        · exact le_trans (hpre p hp) (le_of_lt ht)
        · rw [List.mem_singleton.mp hp])
      simpa only [scan_highest, ht, if_true, hsplit] using this
    · have := ih (pre ++ [t]) best highest (i + 1) b hlen2 (by rw [← hsplit]; exact hb) hbp
        (fun p hp => by
          rcases List.mem_append.mp hp with hp | hp
          · exact hpre p hp
          · rw [List.mem_singleton.mp hp]; exact not_lt.mp ht)
      simpa only [scan_highest, ht, if_false, hsplit] using this

/-- On a queue that is not empty `pick_highest` returns a process and no
process left in the queue has a higher priority. -/
theorem pick_highest_spec {q : List process} (hq : q ≠ []) :
    ∃ next, (pick_highest q).1 = some next ∧ ∀ p ∈ (pick_highest q).2, p.prio ≤ next.prio := by
  cases q with
  | nil => exact absurd rfl hq
  | cons first rest =>
    obtain ⟨t, ht, hmax⟩ := scan_highest_spec (first :: rest) [] 0 first.prio 0 first rfl (by simp) rfl
      (fun p hp => by simp at hp)
    refine ⟨t, ht, fun p hp => ?_⟩
    exact hmax p (List.mem_of_mem_eraseIdx hp)

/-! ## Claims on the priority scheduler -/

/-! ### Claim C32 -/

/-- Claim C32, what the code does when `current` is running and the ready
queue is not empty.  If some ready process has the priority of `current`, the
tie branch returns the first queued process of that very priority and leaves
every ready process of higher priority in the queue, so the returned process
has a lower priority than a process left behind.  Only when no ready process
has the priority of `current` does the function return a process whose priority
no process left in the queue exceeds. -/
theorem prio_schedule_tie_passes_over_higher (B : Nat) (s : State) (cur : process)
    (hc : s.current = some cur) (hrun : cur.status ≠ B) (hne : s.readyqueue ≠ []) :
    ((∃ p ∈ s.readyqueue, p.prio = cur.prio) →
      ∃ next rest, prio_schedule B s = some (some next, rest) ∧ next.prio = cur.prio ∧
        ∀ p ∈ s.readyqueue, cur.prio < p.prio → p ∈ rest ∧ next.prio < p.prio) ∧
    ((∀ p ∈ s.readyqueue, p.prio ≠ cur.prio) →
      ∃ next rest, prio_schedule B s = some (some next, rest) ∧
        ∀ p ∈ rest, p.prio ≤ next.prio) := by
  constructor
  · intro htie
    have hcheck : s.readyqueue.any (fun test => test.prio == cur.prio) = true := by
      obtain ⟨p, hp, hpp⟩ := htie
      exact List.any_eq_true.mpr ⟨p, hp, by simp [hpp]⟩
    have hsub : ∀ p ∈ s.readyqueue, p ∈ requeue cur s.readyqueue := by
      intro p hp
      unfold requeue
      split
      · exact List.mem_append_left _ hp
      · exact hp
    obtain ⟨i, t, hi, ht, htp⟩ := find_prio_of_mem
      (show ∃ p ∈ requeue cur s.readyqueue, p.prio = cur.prio from
        htie.elim fun p hp => ⟨p, hsub p hp.1, hp.2⟩)
    refine ⟨t, (requeue cur s.readyqueue).eraseIdx i, ?_, htp, fun p hp hlt => ⟨?_, ?_⟩⟩
    · cases hq : requeue cur s.readyqueue with
      | nil => rw [hq] at ht; simp at ht
      | cons a as =>
        rw [hq] at hi ht
        simp [prio_schedule, hc, hrun, hcheck, hq, hi, ht]
    · exact mem_eraseIdx_of_ne ht (hsub p hp) (fun h => by rw [h, htp] at hlt; omega)
    · rw [htp]; exact hlt
  · intro hno
    have hcheck : s.readyqueue.any (fun test => test.prio == cur.prio) = false := by
      rw [List.any_eq_false]
      intro p hp
      simpa using hno p hp
    have hq : requeue cur s.readyqueue ≠ [] := by
      unfold requeue
      split
      · simp
      · exact hne
    obtain ⟨next, hn, hmax⟩ := pick_highest_spec hq
    refine ⟨next, (pick_highest (requeue cur s.readyqueue)).2, ?_, hmax⟩
    simp only [prio_schedule, hc, hrun, if_false, hcheck, if_true, ← hn]

/-- Claim C32 at the failing input: `current` has priority 1, the ready queue
holds a process of priority 5 followed by one of priority 1.  The call returns
the process of priority 1 and leaves the process of priority 5 queued. -/
theorem prio_schedule_tie_passes_over_higher_witness :
    (tie_state.current
        = some { status := 1, age := 1, lifespan := 3, prio := 1, prio_orig := 1 } ∧
      (1 : Nat) ≠ 2 ∧ tie_state.readyqueue ≠ []) ∧
    prio_schedule 2 tie_state = some
      (some { status := 0, age := 0, lifespan := 4, prio := 1, prio_orig := 1 },
       [{ status := 0, age := 0, lifespan := 2, prio := 5, prio_orig := 5 },
        { status := 1, age := 1, lifespan := 3, prio := 1, prio_orig := 1 }]) ∧
    ((∃ p ∈ tie_state.readyqueue, p.prio = 1) →
      ∃ next rest, prio_schedule 2 tie_state = some (some next, rest) ∧ next.prio = 1 ∧
        ∀ p ∈ tie_state.readyqueue, 1 < p.prio → p ∈ rest ∧ next.prio < p.prio) ∧
    ((∀ p ∈ tie_state.readyqueue, p.prio ≠ 1) →
      ∃ next rest, prio_schedule 2 tie_state = some (some next, rest) ∧
        ∀ p ∈ rest, p.prio ≤ next.prio) :=
  ⟨⟨rfl, by decide, by decide⟩, by decide,
   prio_schedule_tie_passes_over_higher 2 tie_state
     { status := 1, age := 1, lifespan := 3, prio := 1, prio_orig := 1 }
     rfl (by decide) (by decide)⟩

end Sched
